import Mathlib

/-!
# LowerInt64: lowering of 64-bit integers to pairs of 32-bit integers

A verification development for `src/passes/LowerInt64.cpp`.

The pass rewrites an expression tree in place.  Nodes live in an arena and are
identified by their address; the model gives every node an `id : Nat` that plays
the role of the address, and the arena allocator is a counter of the next free
address.  The two tables of the pass (`fixes`, `locals`) are finite maps, kept
as association lists.

Three places of the C++ text are read by their evident intent:
* `fixCall` names its parameter `call` and then uses `curr`; both are the call
  node being visited;
* `operands.insert(operands.begin() + i + 1, *fix)` inserts the mapped value of
  the entry that `find` returned (`fix->second`);
* `makeGetHigh` returns the node it allocates.
-/

namespace Wasm

/-! ## Data model -/

/-- Value types of the IR (`WasmType`). -/
inductive WasmType where
  | none | i32 | i64 | f32 | f64
  deriving DecidableEq, Repr

/-- Names (`cashew::IString`). -/
abbrev Name := String

/-- The name of the import that fetches the high word of the last wide result. -/
def GET_HIGH : Name := "getHigh"

/-- Expression kinds for which the pass has no rewrite rule. -/
inductive OtherKind where
  | Const (literal : Nat)
  | Load | Store | Unary | Binary | Select | Host | Nop | Unreachable
  | If | Loop | Break | Switch | Return
  deriving DecidableEq, Repr

/-- Expression nodes.  The first field of every constructor is the identity of
the node (its address in the arena), the second its type tag. -/
inductive Expression where
  | Call (id : Nat) (type : WasmType) (target : Name) (operands : List Expression)
  | CallImport (id : Nat) (type : WasmType) (target : Name) (operands : List Expression)
  | CallIndirect (id : Nat) (type : WasmType) (target : Expression)
      (operands : List Expression)
  | GetLocal (id : Nat) (type : WasmType) (name : Name)
  | SetLocal (id : Nat) (type : WasmType) (name : Name) (value : Expression)
  | Block (id : Nat) (type : WasmType) (list : List Expression)
  | Other (id : Nat) (type : WasmType) (kind : OtherKind) (children : List Expression)

namespace Expression

/-- Identity (address) of a node. -/
def id : Expression → Nat
  | Call i _ _ _ => i
  | CallImport i _ _ _ => i
  | CallIndirect i _ _ _ => i
  | GetLocal i _ _ => i
  | SetLocal i _ _ _ => i
  | Block i _ _ => i
  | Other i _ _ _ => i

/-- Type tag of a node (`curr->type`). -/
def type : Expression → WasmType
  | Call _ t _ _ => t
  | CallImport _ t _ _ => t
  | CallIndirect _ t _ _ => t
  | GetLocal _ t _ => t
  | SetLocal _ t _ _ => t
  | Block _ t _ => t
  | Other _ t _ _ => t

/-- In-place update of the type tag (`curr->type = t`). -/
def setType (t : WasmType) : Expression → Expression
  | Call i _ n os => Call i t n os
  | CallImport i _ n os => CallImport i t n os
  | CallIndirect i _ g os => CallIndirect i t g os
  | GetLocal i _ n => GetLocal i t n
  | SetLocal i _ n v => SetLocal i t n v
  | Block i _ l => Block i t l
  | Other i _ k cs => Other i t k cs

/-- Whether the node is one of the three call kinds (a `CallBase`). -/
def isCallBase : Expression → Bool
  | Call _ _ _ _ => true
  | CallImport _ _ _ _ => true
  | CallIndirect _ _ _ _ => true
  | _ => false

/-- Operand list of a call node (`call->operands`). -/
def operands : Expression → List Expression
  | Call _ _ _ os => os
  | CallImport _ _ _ os => os
  | CallIndirect _ _ _ os => os
  | _ => []

/-- In-place update of the operand list of a call node. -/
def setOperands (os : List Expression) : Expression → Expression
  | Call i t n _ => Call i t n os
  | CallImport i t n _ => CallImport i t n os
  | CallIndirect i t g _ => CallIndirect i t g os
  | e => e

/-- Children of a node, in the order in which they are walked and evaluated. -/
def children : Expression → List Expression
  | Call _ _ _ os => os
  | CallImport _ _ _ os => os
  | CallIndirect _ _ g os => g :: os
  | GetLocal _ _ _ => []
  | SetLocal _ _ _ v => [v]
  | Block _ _ l => l
  | Other _ _ _ cs => cs

/-- The node with its children replaced (the slots of the children retargeted
to the nodes now standing there). -/
def withChildren : Expression → List Expression → Expression
  | Call i t n _, cs => Call i t n cs
  | CallImport i t n _, cs => CallImport i t n cs
  | CallIndirect i t _ _, c :: cs => CallIndirect i t c cs
  | SetLocal i t n _, c :: _ => SetLocal i t n c
  | Block i t _, cs => Block i t cs
  | Other i t k _, cs => Other i t k cs
  | e, _ => e

/-- Whether the node is of a kind the pass has a rewrite rule for. -/
def isHandled : Expression → Bool
  | Call _ _ _ _ => true
  | CallImport _ _ _ _ => true
  | CallIndirect _ _ _ _ => true
  | GetLocal _ _ _ => true
  | SetLocal _ _ _ _ => true
  | _ => false

mutual
/-- The nodes of a tree in left-to-right depth-first evaluation order: the
children of a node from left to right, then the node itself. -/
def evalOrder : Expression → List Expression
  | Call i t n os => evalOrderList os ++ [Call i t n os]
  | CallImport i t n os => evalOrderList os ++ [CallImport i t n os]
  | CallIndirect i t g os =>
    evalOrder g ++ evalOrderList os ++ [CallIndirect i t g os]
  | GetLocal i t n => [GetLocal i t n]
  | SetLocal i t n v => evalOrder v ++ [SetLocal i t n v]
  | Block i t l => evalOrderList l ++ [Block i t l]
  | Other i t k cs => evalOrderList cs ++ [Other i t k cs]
/-- Evaluation order of a list of sibling trees. -/
def evalOrderList : List Expression → List Expression
  | [] => []
  | e :: es => evalOrder e ++ evalOrderList es
end

end Expression

/-- Modelled from the spec: a function of the module (`Function` of `wasm.h`,
which is not part of the sources at hand), with its name, result type,
parameters, locals and body. -/
structure Function where
  name : Name
  result : WasmType
  params : List (Name × WasmType)
  locals : List (Name × WasmType)
  body : Expression

/-! ## Finite maps (`std::map`) -/

/-- Lookup (`m.find(k)`), `none` standing for `m.end()`. -/
def find {β : Type} [DecidableEq α] : List (α × β) → α → Option β
  | [], _ => none
  | (k, v) :: m, a => if k = a then some v else find m a

/-- Assignment (`m[k] = v`): overwrite the entry of `k`, or add one. -/
def assign {β : Type} [DecidableEq α] : List (α × β) → α → β → List (α × β)
  | [], a, b => [(a, b)]
  | (k, v) :: m, a, b => if k = a then (k, b) :: m else (k, v) :: assign m a b


/-- Subscript (`m[k]`): the value of `k`, a value-initialised entry being added
when there is none. -/
def index {β : Type} [DecidableEq α] (m : List (α × β)) (a : α) (dflt : β) :
    β × List (α × β) :=
  match find m a with
  | some b => (b, m)
  | none => (dflt, assign m a dflt)

/-! ## Results of a run -/

/-- How a piece of the pass ends: with a result, by a failed `assert`, or, in
the model only, by using up the iteration budget given to the operand loop. -/
inductive Outcome (α : Type) where
  | ok (a : α)
  | abort
  | outOfFuel

/-- Sequencing of two pieces of the pass. -/
def Outcome.bind {α β : Type} : Outcome α → (α → Outcome β) → Outcome β
  | .ok a, f => f a
  | .abort, _ => .abort
  | .outOfFuel, _ => .outOfFuel

/-! ## The name allocator -/

/-- Modelled from the spec: the `NameManager` of `pass.h`, which is not part of
the sources at hand.  Only `getUnique` is used by the pass; it issues one name
per call.  The names it issues are a parameter of the model: `fresh n hint` is
the name returned by the call number `n`. -/
structure NameManager where
  counter : Nat
  fresh : Nat → String → Name

/-- Modelled from the spec: `namer->getUnique(hint)` returns the next name and
records that it has been issued. -/
def NameManager.getUnique (nm : NameManager) (hint : String) : Name × NameManager :=
  (nm.fresh nm.counter hint, { nm with counter := nm.counter + 1 })

/-! ## The pass -/

/-- State of the pass: the arena allocator (the next free address), the name
allocator, and the two tables `fixes` and `locals`. -/
structure LowerInt64 where
  allocator : Nat
  namer : NameManager
  fixes : List (Nat × Expression)
  locals : List (Name × Name)

namespace LowerInt64

/-- State at the start of a run: both tables empty. -/
def start (allocator : Nat) (namer : NameManager) : LowerInt64 :=
  { allocator := allocator, namer := namer, fixes := [], locals := [] }

/-- Allocates a `CallImport` of `getHigh` with type `i32` (and the empty operand
list of a freshly constructed node). -/
def makeGetHigh (st : LowerInt64) : Expression × LowerInt64 :=
  (Expression.CallImport st.allocator WasmType.i32 GET_HIGH [],
   { st with allocator := st.allocator + 1 })

/-- The loop of `fixCall`:
`for (i = 0; i < operands.size(); i++) { fix = fixes.find(operands[i]); if (fix
!= fixes.end()) operands.insert(operands.begin() + i + 1, fix->second); }`.
The size is read again on every iteration, and the inserted element is the next
one examined.  The first argument bounds the number of iterations. -/
def fixOperands (fixes : List (Nat × Expression)) :
    Nat → List Expression → Nat → Option (List Expression)
  | 0, _, _ => none
  | fuel + 1, operands, i =>
    if h : i < operands.length then
      match find fixes (operands.get ⟨i, h⟩).id with
      | some fix =>
        fixOperands fixes fuel (operands.take (i + 1) ++ fix :: operands.drop (i + 1)) (i + 1)
      | none => fixOperands fixes fuel operands (i + 1)
    else some operands

/-- The body of `fixCall` for a call node `curr` (a `CallBase`). -/
def fixCall (fuel : Nat) (st : LowerInt64) (curr : Expression) :
    Outcome (LowerInt64 × Expression) :=
  match fixOperands st.fixes fuel curr.operands 0 with
  | none => .outOfFuel
  | some operands =>
    let curr1 := curr.setOperands operands
    if curr1.type = WasmType.i64 then
      let made := makeGetHigh st
      .ok ({ made.2 with fixes := assign made.2.fixes curr1.id made.1 },
           curr1.setType WasmType.i32)
    else .ok (st, curr1)

/-- The body of `visitGetLocal`. -/
def visitGetLocal (st : LowerInt64) (id : Nat) (type : WasmType) (name : Name) :
    LowerInt64 × Expression :=
  if type = WasmType.i64 then
    let st1 : LowerInt64 :=
      if (find st.locals name).isNone then
        let issued := st.namer.getUnique "high"
        { st with namer := issued.2, locals := assign st.locals name issued.1 }
      else st
    let looked := index st1.locals name ""
    ({ st1 with
        allocator := st1.allocator + 1
        locals := looked.2
        fixes := assign st1.fixes id
          (Expression.GetLocal st1.allocator WasmType.i32 looked.1) },
     Expression.GetLocal id WasmType.i32 name)
  else (st, Expression.GetLocal id type name)

/-- The body of `visitSetLocal`.  The result is the node that stands in the
tree afterwards: the block given to `replaceCurrent`, or the node itself.
`set->value = fixes[curr->value]; assert(set->value)` ends the run when the
table has no entry for the value: the subscript then yields a null pointer. -/
def visitSetLocal (st : LowerInt64) (id : Nat) (type : WasmType) (name : Name)
    (value : Expression) : Outcome (LowerInt64 × Expression) :=
  if type = WasmType.i64 then
    let named : Name × LowerInt64 :=
      if (find st.locals name).isNone then
        let issued := st.namer.getUnique "high"
        (issued.1, { st with namer := issued.2, locals := assign st.locals name issued.1 })
      else
        let looked := index st.locals name ""
        (looked.1, { st with locals := looked.2 })
    let highName := named.1
    let st1 := named.2
    let curr := Expression.SetLocal id WasmType.i32 name value
    let high := Expression.GetLocal st1.allocator WasmType.i32 highName
    let fixes1 := assign st1.fixes id high
    match find fixes1 value.id with
    | none => .abort
    | some fix =>
      let set := Expression.SetLocal (st1.allocator + 1) WasmType.i32 highName fix
      let low := Expression.GetLocal (st1.allocator + 2) WasmType.i32 name
      let ret := Expression.Block (st1.allocator + 3) WasmType.i32 [curr, set, low]
      .ok ({ st1 with allocator := st1.allocator + 4, fixes := assign fixes1 ret.id high }, ret)
  else .ok (st, Expression.SetLocal id type name value)

/-- Dispatch of a visit on the kind of the node.  The visitors of the other
kinds have empty bodies. -/
def visit (fuel : Nat) (st : LowerInt64) : Expression → Outcome (LowerInt64 × Expression)
  | Expression.Call i t n os => fixCall fuel st (Expression.Call i t n os)
  | Expression.CallImport i t n os => fixCall fuel st (Expression.CallImport i t n os)
  | Expression.CallIndirect i t g os => fixCall fuel st (Expression.CallIndirect i t g os)
  | Expression.GetLocal i t n => .ok (visitGetLocal st i t n)
  | Expression.SetLocal i t n v => visitSetLocal st i t n v
  | e => .ok (st, e)

mutual
/-- Modelled from the spec: the traversal engine of `pass.h`/`wasm.h`, which is
not part of the sources at hand.  A node is visited after its children, the
children from left to right; the node a visit puts in place of the visited one
takes its slot in the parent. -/
def walk (fuel : Nat) (st : LowerInt64) : Expression → Outcome (LowerInt64 × Expression)
  | Expression.Call i t n os =>
    (walkList fuel st os).bind fun r => visit fuel r.1 (Expression.Call i t n r.2)
  | Expression.CallImport i t n os =>
    (walkList fuel st os).bind fun r => visit fuel r.1 (Expression.CallImport i t n r.2)
  | Expression.CallIndirect i t g os =>
    (walk fuel st g).bind fun rg =>
      (walkList fuel rg.1 os).bind fun r =>
        visit fuel r.1 (Expression.CallIndirect i t rg.2 r.2)
  | Expression.GetLocal i t n => visit fuel st (Expression.GetLocal i t n)
  | Expression.SetLocal i t n v =>
    (walk fuel st v).bind fun r => visit fuel r.1 (Expression.SetLocal i t n r.2)
  | Expression.Block i t l =>
    (walkList fuel st l).bind fun r => visit fuel r.1 (Expression.Block i t r.2)
  | Expression.Other i t k cs =>
    (walkList fuel st cs).bind fun r => visit fuel r.1 (Expression.Other i t k r.2)
/-- Walk of a list of children, from left to right. -/
def walkList (fuel : Nat) (st : LowerInt64) :
    List Expression → Outcome (LowerInt64 × List Expression)
  | [] => .ok (st, [])
  | e :: es =>
    (walk fuel st e).bind fun r =>
      (walkList fuel r.1 es).bind fun rs => .ok (rs.1, r.2 :: rs.2)
end

/-! ## Module-level declarations

The visitors of the module-level declarations have empty bodies.  The types of
the declarations other than functions are declared in `wasm.h`, which is not
part of the sources at hand; they are parameters of the visitors here. -/

/-- The body of `visitFunctionType`: empty. -/
def visitFunctionType {FunctionType : Type} (st : LowerInt64) (curr : FunctionType) :
    LowerInt64 × FunctionType := (st, curr)

/-- The body of `visitImport`: empty. -/
def visitImport {Import : Type} (st : LowerInt64) (curr : Import) :
    LowerInt64 × Import := (st, curr)

/-- The body of `visitExport`: empty. -/
def visitExport {Export : Type} (st : LowerInt64) (curr : Export) :
    LowerInt64 × Export := (st, curr)

/-- The body of `visitFunction`: empty. -/
def visitFunction (st : LowerInt64) (curr : Function) : LowerInt64 × Function := (st, curr)

/-- The body of `visitTable`: empty. -/
def visitTable {Table : Type} (st : LowerInt64) (curr : Table) :
    LowerInt64 × Table := (st, curr)

/-- The body of `visitMemory`: empty. -/
def visitMemory {Memory : Type} (st : LowerInt64) (curr : Memory) :
    LowerInt64 × Memory := (st, curr)

/-- The body of `visitModule`: empty. -/
def visitModule {Module : Type} (st : LowerInt64) (curr : Module) :
    LowerInt64 × Module := (st, curr)

/-- Modelled from the spec: the traversal engine on a function.  The body is
walked, the node left by the walk takes the place of the body, and the
function is visited. -/
def walkFunction (fuel : Nat) (st : LowerInt64) (func : Function) :
    Outcome (LowerInt64 × Function) :=
  (walk fuel st func.body).bind fun r =>
    Outcome.ok (visitFunction r.1 { func with body := r.2 })

/-! ## Notions used to state the properties -/

/-- The operand list that the widening of a call is meant to produce: every
operand followed by its fixup when the table has one. -/
def widened (fixes : List (Nat × Expression)) : List Expression → List Expression
  | [] => []
  | o :: os =>
    match find fixes o.id with
    | some fix => o :: fix :: widened fixes os
    | none => o :: widened fixes os

/-- The high companion that a wide read or write of `name` works with: the
registered one, or else the name that the allocator issues next. -/
def companion (st : LowerInt64) (name : Name) : Name :=
  match find st.locals name with
  | some high => high
  | none => (st.namer.getUnique "high").1

/-- The state once the companion of `name` is registered (lines 77-80 and
90-96): unchanged when `name` has an entry already. -/
def registered (st : LowerInt64) (name : Name) : LowerInt64 :=
  match find st.locals name with
  | some _ => st
  | none =>
    { st with
      namer := (st.namer.getUnique "high").2
      locals := assign st.locals name (st.namer.getUnique "high").1 }

/-- States the pass can be in.  A run starts with empty tables in an arena
whose nodes all have an address below `base`, so that every address handed out
by the allocator is at least `base`; it then visits nodes of the tree it was
given, which are nodes that existed before the run. -/
inductive Reachable (base : Nat) : LowerInt64 → Prop where
  | start (allocator : Nat) (namer : NameManager) (h : base ≤ allocator) :
      Reachable base (start allocator namer)
  | visit {fuel : Nat} {st st1 : LowerInt64} {e e1 : Expression}
      (h : Reachable base st) (hid : e.id < base)
      (hv : visit fuel st e = Outcome.ok (st1, e1)) : Reachable base st1

/-- The two shapes of the nodes that the pass stores as fixups: a call of
`getHigh` without operands, or a read of a local, both of type `i32`. -/
def IsFixup (v : Expression) : Prop :=
  v = Expression.CallImport v.id WasmType.i32 GET_HIGH [] ∨
    ∃ n, v = Expression.GetLocal v.id WasmType.i32 n

/-- Every value of the fixup table has one of the two fixup shapes. -/
def FixesShaped (st : LowerInt64) : Prop :=
  ∀ k v, find st.fixes k = some v → IsFixup v

/-- No call, local read or local write of the tree has type `i64`. -/
def HandledLowered (e : Expression) : Prop :=
  ∀ n ∈ e.evalOrder, n.isHandled = true → n.type ≠ WasmType.i64

/-- A call of `getHigh` that the pass has made: a node in the fixup shape of such
a call whose address was allocated during the run. -/
def Placed (base : Nat) (n : Expression) : Prop :=
  base ≤ n.id ∧ n = Expression.CallImport n.id WasmType.i32 GET_HIGH []

/-- In the evaluation order `order`, every call of `getHigh` made by the pass
comes after a call node that has it as its fixup in the table `fixes`, and no
call node is evaluated between the two. -/
def GetHighFollowsCall (fixes : List (Nat × Expression)) (base : Nat)
    (order : List Expression) : Prop :=
  ∀ pre n post, order = pre ++ n :: post → Placed base n →
    ∃ pre1 c mid, pre = pre1 ++ c :: mid ∧ c.isCallBase = true ∧
      find fixes c.id = some n ∧ ∀ m ∈ mid, m.isCallBase = false

/-- The relation `Visits st st1`: the pass gets from the state `st` to the state
`st1` by visiting nodes, any number of them. -/
inductive Visits : LowerInt64 → LowerInt64 → Prop where
  | refl (st : LowerInt64) : Visits st st
  | step {fuel : Nat} {st st1 st2 : LowerInt64} {e e2 : Expression}
      (h : Visits st st1) (hv : visit fuel st1 e = Outcome.ok (st2, e2)) : Visits st st2

/-- Invariant of the fixup table: keys are addresses in use, values are nodes
allocated during the run, and no value is itself a key. -/
def FixesInv (base : Nat) (st : LowerInt64) : Prop :=
  base ≤ st.allocator ∧
  ∀ k v, find st.fixes k = some v →
    k < st.allocator ∧ base ≤ v.id ∧ v.id < st.allocator ∧ find st.fixes v.id = none ∧
    IsFixup v

/-- No node of the tree has type `i64`. -/
def NoWide (e : Expression) : Prop :=
  ∀ n ∈ e.evalOrder, n.type ≠ WasmType.i64

/-! ## Evaluation of wide locals and wide calls

The interpreter of the IR is not part of the sources at hand.  The definitions
of this section give a meaning to the expressions that the value-preservation
property of the specification speaks about: reads and writes of locals, calls,
sequences of them, calls, and the blocks and calls of `getHigh` that the pass
adds.  A called function is a parameter `callee`: from its name, its arguments
and the state `W` of the world outside the function it gives a result and a new
state of the world.  The function table of the indirect calls is a parameter
`table` as well: the name of the function at each index. -/

/-- Modelled from the spec: the low word of a value, its 32 least significant
bits. -/
def lowWord (v : Nat) : Nat := v % 2 ^ 32

/-- Modelled from the spec: the high word of a value, the bits above the low
word (32 bits for a 64-bit value). -/
def highWord (v : Nat) : Nat := v / 2 ^ 32

/-- Modelled from the spec: the value made of a low and a high word. -/
def concatWords (low high : Nat) : Nat := high * 2 ^ 32 + low

/-- The arguments of a call before lowering, from the arguments after lowering:
each argument is passed as its low word followed by its high word. -/
def pairUp : List Nat → List Nat
  | low :: high :: rest => concatWords low high :: pairUp rest
  | _ => []

/-- State of a run of the program before lowering: the values of the locals and
the world outside the function. -/
structure WideState (W : Type) where
  locals : Name → Nat
  world : W

/-- State of a run of the lowered program: the values of the locals, the world
outside the function, and the high word that the runtime keeps from the last
completed call and hands out through `getHigh`. -/
structure NarrowState (W : Type) where
  locals : Name → Nat
  world : W
  high : Nat

/-- The literal of a constant; the other kinds without a rewrite rule yield no
value of their own in this model. -/
def literalOf : OtherKind → Nat
  | OtherKind.Const literal => literal
  | _ => 0

mutual
/-- Modelled from the spec: value and effect of an expression before lowering.
A read yields the local, a write yields the value written, a block runs its
elements in order and yields the value of the last one, a call evaluates its
operands from left to right and yields the 64-bit result of the callee.  An
indirect call evaluates its target first; the callee is the entry of the
function table `table` that the target, a 32-bit index, selects.  A constant
yields its literal.  The remaining kinds (operators, memory accesses, control
flow) are not part of the programs the property speaks about and are given no
meaning here: value 0, no effect. -/
def evalWide {W : Type} (callee : Name → List Nat → W → Nat × W) (table : Nat → Name) :
    Expression → WideState W → Nat × WideState W
  | Expression.GetLocal _ _ n, s => (s.locals n, s)
  | Expression.SetLocal _ _ n v, s =>
    let r := evalWide callee table v s
    (r.1, { r.2 with locals := fun y => if y = n then r.1 else r.2.locals y })
  | Expression.Block _ _ l, s =>
    let r := evalWideList callee table l s
    (r.1.getLastD 0, r.2)
  | Expression.Call _ _ f os, s =>
    let r := evalWideList callee table os s
    let c := callee f r.1 r.2.world
    (c.1 % 2 ^ 64, { r.2 with world := c.2 })
  | Expression.CallImport _ _ f os, s =>
    let r := evalWideList callee table os s
    let c := callee f r.1 r.2.world
    (c.1 % 2 ^ 64, { r.2 with world := c.2 })
  | Expression.CallIndirect _ _ g os, s =>
    let rg := evalWide callee table g s
    let r := evalWideList callee table os rg.2
    let c := callee (table (lowWord rg.1)) r.1 r.2.world
    (c.1 % 2 ^ 64, { r.2 with world := c.2 })
  | Expression.Other _ _ k _, s => (literalOf k, s)
/-- Values and effect of a list of expressions, evaluated from left to right. -/
def evalWideList {W : Type} (callee : Name → List Nat → W → Nat × W) (table : Nat → Name) :
    List Expression → WideState W → List Nat × WideState W
  | [], s => ([], s)
  | e :: es, s =>
    let r := evalWide callee table e s
    let rs := evalWideList callee table es r.2
    (r.1 :: rs.1, rs.2)
end

mutual
/-- Modelled from the spec: value and effect of an expression of the lowered
program.  Reads, writes, blocks and constants are as before lowering.  A call
passes each argument of the original call as two words and yields the low word
of the result, the runtime keeping the high word; the import `getHigh` yields
the high word kept from the most recently completed call.  An indirect call
evaluates its target first and calls the entry of the function table that the
target selects. -/
def evalNarrow {W : Type} (callee : Name → List Nat → W → Nat × W) (table : Nat → Name) :
    Expression → NarrowState W → Nat × NarrowState W
  | Expression.GetLocal _ _ n, t => (t.locals n, t)
  | Expression.SetLocal _ _ n v, t =>
    let r := evalNarrow callee table v t
    (r.1, { r.2 with locals := fun y => if y = n then r.1 else r.2.locals y })
  | Expression.Block _ _ l, t =>
    let r := evalNarrowList callee table l t
    (r.1.getLastD 0, r.2)
  | Expression.Call _ _ f os, t =>
    let r := evalNarrowList callee table os t
    let c := callee f (pairUp r.1) r.2.world
    (lowWord (c.1 % 2 ^ 64),
     { r.2 with world := c.2, high := highWord (c.1 % 2 ^ 64) })
  | Expression.CallImport _ _ f os, t =>
    if f = GET_HIGH then (t.high, t)
    else
      let r := evalNarrowList callee table os t
      let c := callee f (pairUp r.1) r.2.world
      (lowWord (c.1 % 2 ^ 64),
       { r.2 with world := c.2, high := highWord (c.1 % 2 ^ 64) })
  | Expression.CallIndirect _ _ g os, t =>
    let rg := evalNarrow callee table g t
    let r := evalNarrowList callee table os rg.2
    let c := callee (table (lowWord rg.1)) (pairUp r.1) r.2.world
    (lowWord (c.1 % 2 ^ 64),
     { r.2 with world := c.2, high := highWord (c.1 % 2 ^ 64) })
  | Expression.Other _ _ k _, t => (literalOf k, t)
/-- Values and effect of a list of expressions, evaluated from left to right. -/
def evalNarrowList {W : Type} (callee : Name → List Nat → W → Nat × W) (table : Nat → Name) :
    List Expression → NarrowState W → List Nat × NarrowState W
  | [], t => ([], t)
  | e :: es, t =>
    let r := evalNarrow callee table e t
    let rs := evalNarrowList callee table es r.2
    (r.1 :: rs.1, rs.2)
end

/-- The targets of the indirect calls the value-preservation property speaks
about: a constant index or a read of a narrow local, of type `i32`. -/
def isNarrowLeaf : Expression → Bool
  | Expression.Other _ t (OtherKind.Const _) [] => t = WasmType.i32
  | Expression.GetLocal _ t _ => t = WasmType.i32
  | _ => false

mutual
/-- The value-yielding expressions the value-preservation property speaks
about: reads of wide locals, writes of wide locals and calls, direct, imported
or indirect, of wide-returning functions other than the import `getHigh`, which
is reserved to the runtime.  The value written and the operands of a call are
such expressions again. -/
def isWideExpr : Expression → Bool
  | Expression.GetLocal _ t _ => t = WasmType.i64
  | Expression.SetLocal _ t _ v => t = WasmType.i64 && isWideExpr v
  | Expression.Call _ t _ os => t = WasmType.i64 && isWideExprList os
  | Expression.CallImport _ t f os =>
    t = WasmType.i64 && f ≠ GET_HIGH && isWideExprList os
  | Expression.CallIndirect _ t g os =>
    t = WasmType.i64 && isNarrowLeaf g && isWideExprList os
  | Expression.Block _ _ _ => false
  | Expression.Other _ _ _ _ => false
/-- Every expression of the list is in the class of `isWideExpr`. -/
def isWideExprList : List Expression → Bool
  | [] => true
  | e :: es => isWideExpr e && isWideExprList es
end

mutual
/-- The bodies the value-preservation property speaks about: an expression of
the class of `isWideExpr`, or a sequence of such bodies, a block of any type. -/
def isWideBody : Expression → Bool
  | Expression.Block _ _ l => isWideBodyList l
  | Expression.GetLocal i t n => isWideExpr (Expression.GetLocal i t n)
  | Expression.SetLocal i t n v => isWideExpr (Expression.SetLocal i t n v)
  | Expression.Call i t f os => isWideExpr (Expression.Call i t f os)
  | Expression.CallImport i t f os => isWideExpr (Expression.CallImport i t f os)
  | Expression.CallIndirect i t g os => isWideExpr (Expression.CallIndirect i t g os)
  | Expression.Other _ _ _ _ => false
/-- Every element of the list is in the class of `isWideBody`. -/
def isWideBodyList : List Expression → Bool
  | [] => true
  | e :: es => isWideBody e && isWideBodyList es
end

/-- The local that a read or a write names. -/
def localName : Expression → Option Name
  | Expression.GetLocal _ _ n => some n
  | Expression.SetLocal _ _ n _ => some n
  | _ => none

/-- A registry `registry` of high companions can stand for the wide locals of
the tree `e`: no two locals share a companion, and no companion is a local that
the tree reads or writes. -/
def RegistryFits (registry : List (Name × Name)) (e : Expression) : Prop :=
  (∀ x y c, find registry x = some c → find registry y = some c → x = y) ∧
  ∀ n ∈ e.evalOrder, ∀ x y c, localName n = some x → find registry y = some c → c ≠ x

/-- The registry `registry` has every entry of `locals`. -/
def Extends (locals registry : List (Name × Name)) : Prop :=
  ∀ x c, find locals x = some c → find registry x = some c

/-- The states of the program and of the lowered program hold the same values:
the world is the same, a local that is not a companion holds the low word of
the local of the same name, and the companion of a local holds its high
word. -/
def Related {W : Type} (registry : List (Name × Name)) (s : WideState W)
    (t : NarrowState W) : Prop :=
  s.world = t.world ∧
  (∀ x, (∀ y c, find registry y = some c → c ≠ x) → t.locals x = lowWord (s.locals x)) ∧
  ∀ x c, find registry x = some c → t.locals c = highWord (s.locals x)

/-- A fixup over the registry `locals`: a call of `getHigh`, or a read of a
companion that `locals` has registered. -/
def FixupOver (locals : List (Name × Name)) (h : Expression) : Prop :=
  h = Expression.CallImport h.id WasmType.i32 GET_HIGH [] ∨
    ∃ x c, find locals x = some c ∧ h = Expression.GetLocal h.id WasmType.i32 c

/-- The lowered tree `e1` with its fixup in `fixes` carries the value of the
tree `e`: in related states, `e1` yields the low word of the value of `e`, the
fixup evaluated right after it yields the high word and has no effect, and the
states after the evaluation are related again. -/
def Preserves {W : Type} (callee : Name → List Nat → W → Nat × W) (table : Nat → Name)
    (fixes : List (Nat × Expression)) (locals : List (Name × Name))
    (e e1 : Expression) : Prop :=
  ∃ h, find fixes e1.id = some h ∧ FixupOver locals h ∧
    ∀ registry, Extends locals registry → RegistryFits registry e →
      ∀ s t, Related registry s t →
        (evalNarrow callee table e1 t).1 = lowWord (evalWide callee table e s).1 ∧
        evalNarrow callee table h (evalNarrow callee table e1 t).2 =
          (highWord (evalWide callee table e s).1, (evalNarrow callee table e1 t).2) ∧
        Related registry (evalWide callee table e s).2 (evalNarrow callee table e1 t).2

/-- The lowered tree `e1` runs as the tree `e` does: in related states, `e1`
yields the low word of the value of `e`, and the states after the evaluation
are related again. -/
def Simulates {W : Type} (callee : Name → List Nat → W → Nat × W) (table : Nat → Name)
    (locals : List (Name × Name)) (e e1 : Expression) : Prop :=
  ∀ registry, Extends locals registry → RegistryFits registry e →
    ∀ s t, Related registry s t →
      (evalNarrow callee table e1 t).1 = lowWord (evalWide callee table e s).1 ∧
      Related registry (evalWide callee table e s).2 (evalNarrow callee table e1 t).2

/-- The lowered list `cs1` runs as the list `cs` does: in related states, its
elements yield the low words of the values of the elements of `cs`, and the
states after the evaluation are related again. -/
def SimulatesList {W : Type} (callee : Name → List Nat → W → Nat × W) (table : Nat → Name)
    (locals : List (Name × Name)) (cs cs1 : List Expression) : Prop :=
  ∀ registry, Extends locals registry → (∀ c ∈ cs, RegistryFits registry c) →
    ∀ s t, Related registry s t →
      (evalNarrowList callee table cs1 t).1 =
        (evalWideList callee table cs s).1.map lowWord ∧
      Related registry (evalWideList callee table cs s).2
        (evalNarrowList callee table cs1 t).2

/-- Invariant of the registry of high companions, for a name allocator that
issues the names `fresh 0 "high"`, `fresh 1 "high"`, ...: the allocator of the
state is that one, every companion is a name it has issued already, and no two
locals share a companion. -/
def RegistryInv (fresh : Nat → String → Name) (st : LowerInt64) : Prop :=
  st.namer.fresh = fresh ∧
  (∀ x c, find st.locals x = some c → ∃ k, k < st.namer.counter ∧ c = fresh k "high") ∧
  ∀ x y c, find st.locals x = some c → find st.locals y = some c → x = y

/-! ## Sample inputs -/

/-- A name allocator that numbers the names it issues. -/
def sampleNamer : NameManager :=
  { counter := 0, fresh := fun n hint => hint ++ toString n }

/-- The state after the reads `get(x)` at address 1 and `get(z)` at address 3,
both wide, have been visited in an arena whose first free address is 10. -/
def sampleReads : LowerInt64 :=
  (visitGetLocal (visitGetLocal (start 10 sampleNamer) 1 WasmType.i64 "x").1
    3 WasmType.i64 "z").1

/-- A call `g(x, y, z)` whose first and third operands are the reads above. -/
def sampleCall : Expression :=
  Expression.Call 0 WasmType.i32 "g"
    [Expression.GetLocal 1 WasmType.i32 "x", Expression.GetLocal 2 WasmType.i32 "y",
     Expression.GetLocal 3 WasmType.i32 "z"]

/-- The state after the wide read `get(y)` at address 2 has been visited in an
arena whose first free address is 10. -/
def sampleRead : LowerInt64 :=
  (visitGetLocal (start 10 sampleNamer) 2 WasmType.i64 "y").1

/-- The wide write `set(x, get(y))` at address 1 whose value is the read above,
as it stands once the read has been visited. -/
def sampleSet : Expression :=
  Expression.SetLocal 1 WasmType.i64 "x" (Expression.GetLocal 2 WasmType.i32 "y")

/-- A body made of a wide write of a wide call and of a call whose first and
third operands are wide reads. -/
def sampleBody : Expression :=
  Expression.Block 0 WasmType.none
    [Expression.SetLocal 1 WasmType.i64 "x" (Expression.Call 2 WasmType.i64 "f" []),
     Expression.Call 3 WasmType.i32 "g"
       [Expression.GetLocal 4 WasmType.i64 "x", Expression.GetLocal 5 WasmType.i32 "y",
        Expression.GetLocal 6 WasmType.i64 "z"]]

/-- The body that the pass makes of `sampleBody` in an arena whose first free
address is 100. -/
def sampleLowered : Expression :=
  Expression.Block 0 WasmType.none
    [Expression.Block 104 WasmType.i32
       [Expression.SetLocal 1 WasmType.i32 "x" (Expression.Call 2 WasmType.i32 "f" []),
        Expression.SetLocal 102 WasmType.i32 "high0"
          (Expression.CallImport 100 WasmType.i32 "getHigh" []),
        Expression.GetLocal 103 WasmType.i32 "x"],
     Expression.Call 3 WasmType.i32 "g"
       [Expression.GetLocal 4 WasmType.i32 "x", Expression.GetLocal 105 WasmType.i32 "high0",
        Expression.GetLocal 5 WasmType.i32 "y",
        Expression.GetLocal 6 WasmType.i32 "z", Expression.GetLocal 106 WasmType.i32 "high1"]]

/-- A body in the class of `isWideExpr`: the wide write `set(x, f(get(y)))`. -/
def sampleWide : Expression :=
  Expression.SetLocal 1 WasmType.i64 "x"
    (Expression.Call 2 WasmType.i64 "f" [Expression.GetLocal 3 WasmType.i64 "y"])

/-- A callee: it adds its arguments, the state of the world and a constant, and
changes the world. -/
def sampleCallee : Name → List Nat → Nat → Nat × Nat :=
  fun _ args w => (args.sum + w + 2 ^ 33 + 1, w + 1)

/-- A state of the program before lowering: `y` holds a value above 32 bits. -/
def sampleWideState : WideState Nat :=
  { locals := fun n => if n = "y" then 7 * 2 ^ 32 + 5 else 0, world := 3 }

/-- The corresponding state of the lowered program: `y` holds the low word and
its companion the high word. -/
def sampleNarrowState : NarrowState Nat :=
  { locals := fun n => if n = "y" then 5 else if n = "high0" then 7 else 0,
    world := 3, high := 0 }

/-- The registry that the pass builds for `sampleWide`, and for `sampleSeq`. -/
def sampleRegistry : List (Name × Name) := [("y", "high0"), ("x", "high1")]

/-- A name allocator that never issues a name twice: the name number `n` is the
hint followed by `n` dollar signs. -/
def tallyNamer : NameManager :=
  { counter := 0, fresh := fun n hint => hint ++ String.mk (List.replicate n '$') }

/-- The state after the wide reads `get(x)` at address 1 and `get(z)` at address
3 have been visited with the allocator `tallyNamer`. -/
def tallyReads : LowerInt64 :=
  (visitGetLocal (visitGetLocal (start 10 tallyNamer) 1 WasmType.i64 "x").1
    3 WasmType.i64 "z").1

/-- A function with one wide local `x` whose body reads it. -/
def sampleReader : Function :=
  { name := "reader", result := WasmType.i64, params := [],
    locals := [("x", WasmType.i64)],
    body := Expression.GetLocal 1 WasmType.i64 "x" }

/-- The function of the scenario `set(x, const(5)); get(x)`, with one wide
local `x`. -/
def sampleScenario : Function :=
  { name := "scenario", result := WasmType.i64, params := [],
    locals := [("x", WasmType.i64)],
    body := Expression.Block 0 WasmType.i64
      [Expression.SetLocal 1 WasmType.i64 "x"
         (Expression.Other 2 WasmType.i64 (OtherKind.Const 5) []),
       Expression.GetLocal 3 WasmType.i64 "x"] }

/-- A body of two statements in the class of `isWideBody`: the write `x = f(y)`
followed by the indirect call of the entry 1 of the function table with the
argument `x`.  The block has the type of its last element. -/
def sampleSeq : Expression :=
  Expression.Block 0 WasmType.i64
    [Expression.SetLocal 1 WasmType.i64 "x"
       (Expression.Call 2 WasmType.i64 "f" [Expression.GetLocal 3 WasmType.i64 "y"]),
     Expression.CallIndirect 4 WasmType.i64
       (Expression.Other 5 WasmType.i32 (OtherKind.Const 1) [])
       [Expression.GetLocal 6 WasmType.i64 "x"]]

/-- A function table: the entry 1 is `g`, every other entry is `f`. -/
def sampleTable : Nat → Name := fun n => if n = 1 then "g" else "f"

end LowerInt64

/-! # Properties -/

namespace LowerInt64

open Expression

/-! ## Maps and the operand loop -/

theorem find_assign {β : Type} [DecidableEq α] (m : List (α × β)) (a k : α) (b : β) :
    find (assign m a b) k = if a = k then some b else find m k := by
  induction m with
  | nil => simp [assign, find]
  | cons p m ih =>
    obtain ⟨k0, v0⟩ := p
    by_cases h : k0 = a
    · subst h
      by_cases h2 : k0 = k <;> simp [assign, find, h2]
    · by_cases h2 : a = k
      · subst h2
        simp [assign, find, h, ih]
      · by_cases h3 : k0 = k
        · subst h3
          simp [assign, find, h, h2]
        · simp [assign, find, h, h2, h3, ih]

theorem fixOperands_widened (fixes : List (Nat × Expression)) :
    ∀ (rest done : List Expression) (fuel : Nat),
      (∀ o ∈ rest, ∀ f, find fixes o.id = some f → find fixes f.id = none) →
      2 * rest.length < fuel →
      fixOperands fixes fuel (done ++ rest) done.length = some (done ++ widened fixes rest) := by
  intro rest
  induction rest with
  | nil =>
    intro done fuel _ hf
    obtain ⟨f, rfl⟩ : ∃ f, fuel = f + 1 := ⟨fuel - 1, by omega⟩
    simp [fixOperands, widened]
  | cons o rest ih =>
    intro done fuel hsep hf
    obtain ⟨f, rfl⟩ : ∃ f, fuel = f + 2 := ⟨fuel - 2, by simp at hf; omega⟩
    have hlt : done.length < (done ++ o :: rest).length := by simp
    have hget : (done ++ o :: rest).get ⟨done.length, hlt⟩ = o := by
      simp [List.getElem_append_right]
    have hrest : ∀ o1 ∈ rest, ∀ f, find fixes o1.id = some f → find fixes f.id = none :=
      fun o1 h1 => hsep o1 (List.mem_cons_of_mem _ h1)
    rw [fixOperands, dif_pos hlt, hget]
    cases hfind : find fixes o.id with
    | none =>
      have := ih (done ++ [o]) (f + 1) hrest (by simp at hf; omega)
      simp at this
      simp [widened, hfind, this]
    | some fix =>
      have hnone : find fixes fix.id = none := hsep o (List.mem_cons_self _ _) fix hfind
      have htake : List.take (done.length + 1) (done ++ o :: rest) ++
          fix :: List.drop (done.length + 1) (done ++ o :: rest) = done ++ o :: fix :: rest := by
        have e1 : done ++ o :: rest = (done ++ [o]) ++ rest := by simp
        rw [e1, List.take_left' (by simp), List.drop_left' (by simp)]
        simp
      have hlt2 : done.length + 1 < (done ++ o :: fix :: rest).length := by simp
      have hget2 : (done ++ o :: fix :: rest).get ⟨done.length + 1, hlt2⟩ = fix := by
        simp [List.getElem_append_right]
      simp only [htake]
      rw [fixOperands, dif_pos hlt2, hget2, hnone]
      have := ih (done ++ [o, fix]) f hrest (by simp at hf; omega)
      simp at this
      simp [widened, hfind, this]

@[simp] theorem setOperands_id (os : List Expression) (e : Expression) :
    (e.setOperands os).id = e.id := by cases e <;> rfl

@[simp] theorem setOperands_type (os : List Expression) (e : Expression) :
    (e.setOperands os).type = e.type := by cases e <;> rfl

@[simp] theorem setType_id (t : WasmType) (e : Expression) :
    (e.setType t).id = e.id := by cases e <;> rfl

@[simp] theorem setType_type (t : WasmType) (e : Expression) :
    (e.setType t).type = t := by cases e <;> rfl

@[simp] theorem setType_operands (t : WasmType) (e : Expression) :
    (e.setType t).operands = e.operands := by cases e <;> rfl

theorem setOperands_operands (os : List Expression) (e : Expression)
    (h : e.isCallBase = true) : (e.setOperands os).operands = os := by
  cases e <;> first | rfl | simp [isCallBase] at h

theorem find_assign_self {β : Type} [DecidableEq α] (m : List (α × β)) (a : α) (b : β) :
    find (assign m a b) a = some b := by simp [find_assign]

theorem find_assign_ne {β : Type} [DecidableEq α] (m : List (α × β)) {a k : α} (b : β)
    (h : a ≠ k) : find (assign m a b) k = find m k := by simp [find_assign, h]

/-! ## The visitors in closed form -/

@[simp] theorem registered_allocator (st : LowerInt64) (name : Name) :
    (registered st name).allocator = st.allocator := by
  unfold registered; split <;> rfl

@[simp] theorem registered_fixes (st : LowerInt64) (name : Name) :
    (registered st name).fixes = st.fixes := by
  unfold registered; split <;> rfl

theorem find_registered (st : LowerInt64) (name : Name) :
    find (registered st name).locals name = some (companion st name) := by
  unfold registered companion
  split
  · next h => simp [h]
  · simp [find_assign_self]

/-- The effect of `visitGetLocal` on a wide read. -/
theorem visitGetLocal_i64 (st : LowerInt64) (id : Nat) (name : Name) :
    visitGetLocal st id WasmType.i64 name =
      ({ registered st name with
          allocator := st.allocator + 1
          fixes := assign st.fixes id
            (Expression.GetLocal st.allocator WasmType.i32 (companion st name)) },
       Expression.GetLocal id WasmType.i32 name) := by
  unfold visitGetLocal registered companion index
  cases h : find st.locals name <;> simp [h, find_assign_self]

/-- The effect of `visitGetLocal` on a read that is not wide. -/
theorem visitGetLocal_other (st : LowerInt64) (id : Nat) (type : WasmType) (name : Name)
    (h : type ≠ WasmType.i64) :
    visitGetLocal st id type name = (st, Expression.GetLocal id type name) := by
  simp [visitGetLocal, h]

/-- The effect of `visitSetLocal` on a wide write. -/
theorem visitSetLocal_i64 (st : LowerInt64) (id : Nat) (name : Name) (value : Expression) :
    visitSetLocal st id WasmType.i64 name value =
      match find (assign st.fixes id
          (Expression.GetLocal st.allocator WasmType.i32 (companion st name))) value.id with
      | none => Outcome.abort
      | some fix =>
        Outcome.ok
          ({ registered st name with
              allocator := st.allocator + 4
              fixes := assign (assign st.fixes id
                  (Expression.GetLocal st.allocator WasmType.i32 (companion st name)))
                (st.allocator + 3)
                (Expression.GetLocal st.allocator WasmType.i32 (companion st name)) },
           Expression.Block (st.allocator + 3) WasmType.i32
             [Expression.SetLocal id WasmType.i32 name value,
              Expression.SetLocal (st.allocator + 1) WasmType.i32 (companion st name) fix,
              Expression.GetLocal (st.allocator + 2) WasmType.i32 name]) := by
  unfold visitSetLocal registered companion index
  cases h : find st.locals name <;> simp [h, Expression.id]

/-- The effect of `visitSetLocal` on a write that is not wide. -/
theorem visitSetLocal_other (st : LowerInt64) (id : Nat) (type : WasmType) (name : Name)
    (value : Expression) (h : type ≠ WasmType.i64) :
    visitSetLocal st id type name value =
      Outcome.ok (st, Expression.SetLocal id type name value) := by
  simp [visitSetLocal, h]

/-! ## The invariant of the fixup table -/

/-- Adding an entry keeps the invariant when the key is an old node of the tree
or a fresh address, and the value is a fixup node allocated during the run that
is not a key. -/
theorem FixesInv.assign_fresh {base : Nat} {st : LowerInt64} (h : FixesInv base st)
    (k : Nat) (v : Expression) (n : Nat) (namer : NameManager) (locals : List (Name × Name))
    (hv1 : base ≤ v.id) (hv2 : v.id < n) (hv3 : find st.fixes v.id = none)
    (hn : st.allocator ≤ n) (hk : k < base ∨ st.allocator ≤ k) (hkn : k < n)
    (hkv : k ≠ v.id) (hshape : IsFixup v) :
    FixesInv base
      { allocator := n, namer := namer, fixes := assign st.fixes k v, locals := locals } := by
  obtain ⟨hb, hall⟩ := h
  refine ⟨by simp; omega, ?_⟩
  intro k1 v1 hfind
  simp only [find_assign] at hfind ⊢
  by_cases hk1 : k = k1
  · subst hk1
    simp at hfind
    subst hfind
    refine ⟨by omega, by omega, by omega, ?_, hshape⟩
    rw [if_neg hkv]
    exact hv3
  · rw [if_neg hk1] at hfind
    obtain ⟨h1, h2, h3, h4, h5⟩ := hall k1 v1 hfind
    refine ⟨by omega, h2, by omega, ?_, h5⟩
    have : k ≠ v1.id := by omega
    rw [if_neg this]
    exact h4

/-- No key of the table is the next free address. -/
theorem FixesInv.find_allocator {base : Nat} {st : LowerInt64} (h : FixesInv base st) :
    find st.fixes st.allocator = none := by
  cases hf : find st.fixes st.allocator with
  | none => rfl
  | some w => have := (h.2 _ _ hf).1; omega

theorem FixesInv.fixCall {base fuel : Nat} {st st1 : LowerInt64} {curr curr1 : Expression}
    (h : FixesInv base st) (hid : curr.id < base)
    (hv : fixCall fuel st curr = Outcome.ok (st1, curr1)) : FixesInv base st1 := by
  unfold LowerInt64.fixCall at hv
  split at hv
  · simp at hv
  · dsimp only at hv
    split at hv
    · simp only [Outcome.ok.injEq, Prod.mk.injEq] at hv
      rw [← hv.1]
      exact h.assign_fresh _ _ _ _ _ h.1 (by simp [makeGetHigh, Expression.id])
        h.find_allocator (by simp [makeGetHigh]) (Or.inl (by simpa using hid))
        (by have := h.1; simp [makeGetHigh]; omega)
        (by
          have e : (makeGetHigh st).1.id = st.allocator := rfl
          have := h.1
          rw [e, setOperands_id]; omega) (Or.inl rfl)
    · simp only [Outcome.ok.injEq, Prod.mk.injEq] at hv
      rw [← hv.1]
      exact h

theorem FixesInv.visitGetLocal {base : Nat} {st : LowerInt64} (h : FixesInv base st)
    (id : Nat) (type : WasmType) (name : Name) (hid : id < base) :
    FixesInv base (visitGetLocal st id type name).1 := by
  by_cases ht : type = WasmType.i64
  · subst ht
    rw [visitGetLocal_i64]
    have hb := h.1
    exact h.assign_fresh _ _ _ _ _ hb (by simp [Expression.id]) h.find_allocator
      (by omega) (Or.inl hid) (by omega) (by simp [Expression.id]; omega) (Or.inr ⟨_, rfl⟩)
  · rw [visitGetLocal_other _ _ _ _ ht]
    exact h

theorem FixesInv.visitSetLocal {base : Nat} {st st1 : LowerInt64} (h : FixesInv base st)
    {id : Nat} {type : WasmType} {name : Name} {value e1 : Expression} (hid : id < base)
    (hv : visitSetLocal st id type name value = Outcome.ok (st1, e1)) :
    FixesInv base st1 := by
  by_cases ht : type = WasmType.i64
  · subst ht
    rw [visitSetLocal_i64] at hv
    split at hv
    · simp at hv
    · simp only [Outcome.ok.injEq, Prod.mk.injEq] at hv
      rw [← hv.1]
      have hb := h.1
      have h1 : FixesInv base
          { allocator := st.allocator + 1, namer := st.namer,
            fixes := assign st.fixes id
              (Expression.GetLocal st.allocator WasmType.i32 (companion st name)),
            locals := st.locals } :=
        h.assign_fresh _ _ _ _ _ hb (by simp [Expression.id]) h.find_allocator
          (by omega) (Or.inl hid) (by omega) (by simp [Expression.id]; omega)
          (Or.inr ⟨_, rfl⟩)
      refine h1.assign_fresh _ _ _ _ _ hb (by simp [Expression.id]) ?_ (by simp)
        (Or.inr (by simp)) (by simp) (by simp [Expression.id]) (Or.inr ⟨_, rfl⟩)
      have hne : id ≠ st.allocator := by omega
      simpa [Expression.id, find_assign_ne _ _ hne] using h.find_allocator
  · rw [visitSetLocal_other _ _ _ _ _ ht] at hv
    simp only [Outcome.ok.injEq, Prod.mk.injEq] at hv
    rw [← hv.1]
    exact h

theorem FixesInv.visit {base fuel : Nat} {st st1 : LowerInt64} {e e1 : Expression}
    (h : FixesInv base st) (hid : e.id < base)
    (hv : visit fuel st e = Outcome.ok (st1, e1)) : FixesInv base st1 := by
  cases e with
  | Call i t n os => exact h.fixCall hid hv
  | CallImport i t n os => exact h.fixCall hid hv
  | CallIndirect i t g os => exact h.fixCall hid hv
  | GetLocal i t n =>
    simp only [LowerInt64.visit, Outcome.ok.injEq] at hv
    have := h.visitGetLocal i t n hid
    rw [hv] at this
    exact this
  | SetLocal i t n v => exact h.visitSetLocal hid hv
  | Block i t l =>
    simp only [LowerInt64.visit, Outcome.ok.injEq, Prod.mk.injEq] at hv
    rw [← hv.1]; exact h
  | Other i t k cs =>
    simp only [LowerInt64.visit, Outcome.ok.injEq, Prod.mk.injEq] at hv
    rw [← hv.1]; exact h

/-- Every reachable state satisfies the invariant of the fixup table. -/
theorem Reachable.fixesInv {base : Nat} {st : LowerInt64} (h : Reachable base st) :
    FixesInv base st := by
  induction h with
  | start allocator namer h => exact ⟨h, fun k v hf => by simp [start, find] at hf⟩
  | visit _ hid hv ih => exact ih.visit hid hv

/-! ## Widening of call operands -/

theorem sampleReads_reachable : Reachable 10 sampleReads :=
  @Reachable.visit 10 0 _ _ (Expression.GetLocal 3 WasmType.i64 "z") _
    (@Reachable.visit 10 0 _ _ (Expression.GetLocal 1 WasmType.i64 "x") _
      (Reachable.start 10 sampleNamer (Nat.le_refl 10)) (by decide) rfl)
    (by decide) rfl

/-- C1: in every reachable state, `fixCall` leaves in a call node the operand
list made, in order, of each operand followed by its fixup when the table has
one for it. -/
theorem fixCall_operands_widened (base fuel : Nat) (st : LowerInt64) (call : Expression)
    (hcall : call.isCallBase = true) (hr : Reachable base st)
    (hf : 2 * call.operands.length < fuel) :
    ∃ st1 call1, fixCall fuel st call = Outcome.ok (st1, call1) ∧
      call1.operands = widened st.fixes call.operands := by
  have hinv := hr.fixesInv
  have hloop : fixOperands st.fixes fuel call.operands 0 =
      some (widened st.fixes call.operands) := by
    have := fixOperands_widened st.fixes call.operands [] fuel
      (fun o _ f hfix => (hinv.2 _ _ hfix).2.2.2.1) hf
    simpa using this
  unfold LowerInt64.fixCall
  rw [hloop]
  dsimp only
  split
  · exact ⟨_, _, rfl, by simp [setOperands_operands _ _ hcall]⟩
  · exact ⟨_, _, rfl, setOperands_operands _ _ hcall⟩

theorem fixCall_operands_widened_witness :
    (∃ st1 call1, fixCall 7 sampleReads sampleCall = Outcome.ok (st1, call1) ∧
      call1.operands = widened sampleReads.fixes sampleCall.operands) ∧
    widened sampleReads.fixes sampleCall.operands =
      [Expression.GetLocal 1 WasmType.i32 "x", Expression.GetLocal 10 WasmType.i32 "high0",
       Expression.GetLocal 2 WasmType.i32 "y",
       Expression.GetLocal 3 WasmType.i32 "z", Expression.GetLocal 11 WasmType.i32 "high1"] :=
  ⟨fixCall_operands_widened 10 7 sampleReads sampleCall rfl sampleReads_reachable (by decide),
   rfl⟩

theorem visit_callBase (fuel : Nat) (st : LowerInt64) (curr : Expression)
    (hcall : curr.isCallBase = true) : visit fuel st curr = fixCall fuel st curr := by
  cases curr <;> first | rfl | simp [isCallBase] at hcall

/-- The operand loop in a reachable state. -/
theorem Reachable.fixOperands {base : Nat} {st : LowerInt64} (hr : Reachable base st)
    (operands : List Expression) (fuel : Nat) (hf : 2 * operands.length < fuel) :
    fixOperands st.fixes fuel operands 0 = some (widened st.fixes operands) := by
  have := fixOperands_widened st.fixes operands [] fuel
    (fun o _ f hfix => (hr.fixesInv.2 _ _ hfix).2.2.2.1) hf
  simpa using this

/-- C2: visiting a call node of type `i64` keeps the node, with its identity and
target, gives it type `i32`, and registers for it a freshly allocated
`CallImport` of `getHigh` with type `i32` and no operands; a call without
operands keeps an empty operand list. -/
theorem visit_call_i64 (base fuel : Nat) (st : LowerInt64) (curr : Expression)
    (hcall : curr.isCallBase = true) (ht : curr.type = WasmType.i64)
    (hr : Reachable base st) (hf : 2 * curr.operands.length < fuel) :
    ∃ st1 curr1, visit fuel st curr = Outcome.ok (st1, curr1) ∧
      curr1 = (curr.setOperands (widened st.fixes curr.operands)).setType WasmType.i32 ∧
      curr1.id = curr.id ∧ curr1.type = WasmType.i32 ∧
      find st1.fixes curr.id =
        some (Expression.CallImport st.allocator WasmType.i32 GET_HIGH []) ∧
      find st.fixes st.allocator = none ∧ st1.allocator = st.allocator + 1 ∧
      (curr.operands = [] → curr1.operands = []) := by
  rw [visit_callBase _ _ _ hcall]
  unfold LowerInt64.fixCall
  rw [hr.fixOperands _ _ hf]
  dsimp only
  rw [setOperands_type, if_pos ht]
  refine ⟨_, _, rfl, rfl, by simp, by simp, ?_, hr.fixesInv.find_allocator, rfl, ?_⟩
  · simp [makeGetHigh, find_assign_self]
  · intro h0
    simp [h0, widened, setOperands_operands _ _ hcall]

theorem visit_call_i64_witness :
    ∃ st1 curr1, visit 1 (start 10 sampleNamer) (Expression.Call 0 WasmType.i64 "f" []) =
        Outcome.ok (st1, curr1) ∧
      curr1 = Expression.Call 0 WasmType.i32 "f" [] ∧
      curr1.id = 0 ∧ curr1.type = WasmType.i32 ∧
      find st1.fixes 0 = some (Expression.CallImport 10 WasmType.i32 "getHigh" []) ∧
      find (start 10 sampleNamer).fixes 10 = none ∧ st1.allocator = 11 ∧
      ((Expression.Call 0 WasmType.i64 "f" []).operands = [] → curr1.operands = []) :=
  visit_call_i64 10 1 (start 10 sampleNamer) (Expression.Call 0 WasmType.i64 "f" []) rfl rfl
    (Reachable.start 10 sampleNamer (Nat.le_refl 10)) (by decide)

/-! ## Local reads and writes -/

/-- The lookup that `visitSetLocal` makes for the value of the write, after it
has registered the write itself. -/
theorem find_value_fix (st : LowerInt64) (id : Nat) (high value : Expression)
    (hne : value.id ≠ id) :
    find (assign st.fixes id high) value.id = find st.fixes value.id :=
  find_assign_ne _ _ (fun h => hne h.symm)

/-- C3: visiting a wide write `set(x, V)` whose value has the fixup `fix` puts in
its place a new block of type `i32` that lists the write itself (same name and
value, type `i32`), a new write of the high companion of `x` with value `fix`
and type `i32`, and a new read of `x` with type `i32`; the table then maps the
block to a read of the companion with type `i32`. -/
theorem visit_setLocal_i64 (fuel : Nat) (st : LowerInt64) (id : Nat) (name : Name)
    (value fix : Expression) (hfix : find st.fixes value.id = some fix)
    (hne : value.id ≠ id) :
    ∃ st1, visit fuel st (Expression.SetLocal id WasmType.i64 name value) =
        Outcome.ok (st1,
          Expression.Block (st.allocator + 3) WasmType.i32
            [Expression.SetLocal id WasmType.i32 name value,
             Expression.SetLocal (st.allocator + 1) WasmType.i32 (companion st name) fix,
             Expression.GetLocal (st.allocator + 2) WasmType.i32 name]) ∧
      find st1.fixes (st.allocator + 3) =
        some (Expression.GetLocal st.allocator WasmType.i32 (companion st name)) ∧
      find st1.locals name = some (companion st name) ∧
      st1.allocator = st.allocator + 4 := by
  simp only [LowerInt64.visit, visitSetLocal_i64, find_value_fix _ _ _ _ hne, hfix]
  exact ⟨_, rfl, by simp [find_assign_self], find_registered st name, rfl⟩

theorem visit_setLocal_i64_witness :
    ∃ st1, visit 0 sampleRead sampleSet =
        Outcome.ok (st1,
          Expression.Block 14 WasmType.i32
            [Expression.SetLocal 1 WasmType.i32 "x" (Expression.GetLocal 2 WasmType.i32 "y"),
             Expression.SetLocal 12 WasmType.i32 "high1"
               (Expression.GetLocal 10 WasmType.i32 "high0"),
             Expression.GetLocal 13 WasmType.i32 "x"]) ∧
      find st1.fixes 14 = some (Expression.GetLocal 11 WasmType.i32 "high1") ∧
      find st1.locals "x" = some "high1" ∧
      st1.allocator = 15 :=
  visit_setLocal_i64 0 sampleRead 1 "x" (Expression.GetLocal 2 WasmType.i32 "y")
    (Expression.GetLocal 10 WasmType.i32 "high0") rfl (by decide)

/-- C4: visiting a wide read `get(x)` keeps the node and its name, gives it type
`i32`, and registers for it a freshly allocated read, of type `i32`, of the
companion registered for `x`. -/
theorem visit_getLocal_i64 (fuel : Nat) (st : LowerInt64) (id : Nat) (name : Name) :
    ∃ st1, visit fuel st (Expression.GetLocal id WasmType.i64 name) =
        Outcome.ok (st1, Expression.GetLocal id WasmType.i32 name) ∧
      find st1.fixes id =
        some (Expression.GetLocal st.allocator WasmType.i32 (companion st name)) ∧
      find st1.locals name = some (companion st name) ∧
      st1.allocator = st.allocator + 1 := by
  simp only [LowerInt64.visit, visitGetLocal_i64]
  exact ⟨_, rfl, by simp [find_assign_self], find_registered st name, rfl⟩

/-- C5, as the code has it: at `sampleSet` the original write keeps an entry in
the table after it has been replaced by the block. -/
theorem setLocal_original_entry_present :
    ∃ st1 e1, visit 0 sampleRead sampleSet = Outcome.ok (st1, e1) ∧
      e1.id = 14 ∧ sampleSet.id = 1 ∧
      find st1.fixes sampleSet.id = some (Expression.GetLocal 11 WasmType.i32 "high1") :=
  ⟨_, _, rfl, rfl, rfl, rfl⟩

/-- C5, amended: after a wide write has been replaced by its block, the table
holds the same read of the high companion of the written local under the
address of the original write and under the address of the block. -/
theorem visit_setLocal_i64_fixes (fuel : Nat) (st : LowerInt64) (id : Nat) (name : Name)
    (value fix : Expression) (hfix : find st.fixes value.id = some fix)
    (hne : value.id ≠ id) :
    ∃ st1 ret, visit fuel st (Expression.SetLocal id WasmType.i64 name value) =
        Outcome.ok (st1, ret) ∧
      ret.id = st.allocator + 3 ∧
      find st1.fixes id =
        some (Expression.GetLocal st.allocator WasmType.i32 (companion st name)) ∧
      find st1.fixes ret.id =
        some (Expression.GetLocal st.allocator WasmType.i32 (companion st name)) := by
  simp only [LowerInt64.visit, visitSetLocal_i64, find_value_fix _ _ _ _ hne, hfix]
  refine ⟨_, _, rfl, rfl, ?_, by simp [Expression.id, find_assign_self]⟩
  simp only [find_assign]
  split <;> simp

theorem visit_setLocal_i64_fixes_witness :
    ∃ st1 ret, visit 0 sampleRead sampleSet = Outcome.ok (st1, ret) ∧
      ret.id = 14 ∧
      find st1.fixes 1 = some (Expression.GetLocal 11 WasmType.i32 "high1") ∧
      find st1.fixes ret.id = some (Expression.GetLocal 11 WasmType.i32 "high1") :=
  visit_setLocal_i64_fixes 0 sampleRead 1 "x" (Expression.GetLocal 2 WasmType.i32 "y")
    (Expression.GetLocal 10 WasmType.i32 "high0") rfl (by decide)

/-- C6: the visit of a wide write ends by the failed assertion exactly when the
table has no fixup for the value of the write, and it completes when there is
one. -/
theorem visit_setLocal_abort_iff (fuel : Nat) (st : LowerInt64) (id : Nat) (name : Name)
    (value : Expression) (hne : value.id ≠ id) :
    (visit fuel st (Expression.SetLocal id WasmType.i64 name value) = Outcome.abort ↔
      find st.fixes value.id = none) ∧
    (find st.fixes value.id ≠ none →
      ∃ r, visit fuel st (Expression.SetLocal id WasmType.i64 name value) = Outcome.ok r) := by
  simp only [LowerInt64.visit, visitSetLocal_i64, find_value_fix _ _ _ _ hne]
  cases find st.fixes value.id with
  | none => simp
  | some fix => simp

theorem visit_setLocal_abort_iff_witness :
    (visit 0 (start 10 sampleNamer) sampleSet = Outcome.abort ↔
      find (start 10 sampleNamer).fixes 2 = none) ∧
    (find (start 10 sampleNamer).fixes 2 ≠ none →
      ∃ r, visit 0 (start 10 sampleNamer) sampleSet = Outcome.ok r) :=
  visit_setLocal_abort_iff 0 (start 10 sampleNamer) 1 "x"
    (Expression.GetLocal 2 WasmType.i32 "y") (by decide)

/-! ## The registry of high companions -/

theorem registered_locals_stable (st : LowerInt64) (name x h : Name)
    (hx : find st.locals x = some h) : find (registered st name).locals x = some h := by
  unfold registered
  split
  · exact hx
  · next hnone =>
    have hne : name ≠ x := by
      intro e; subst e; rw [hx] at hnone; cases hnone
    simpa [find_assign_ne _ _ hne] using hx

theorem fixCall_locals {fuel : Nat} {st st1 : LowerInt64} {curr curr1 : Expression}
    (hv : fixCall fuel st curr = Outcome.ok (st1, curr1)) : st1.locals = st.locals := by
  unfold LowerInt64.fixCall at hv
  split at hv
  · simp at hv
  · dsimp only at hv
    split at hv <;> simp only [Outcome.ok.injEq, Prod.mk.injEq] at hv <;> rw [← hv.1]
    rfl

theorem visit_locals_stable {fuel : Nat} {st st1 : LowerInt64} {e e1 : Expression}
    (hv : visit fuel st e = Outcome.ok (st1, e1)) (x h : Name)
    (hx : find st.locals x = some h) : find st1.locals x = some h := by
  cases e with
  | Call i t n os => rw [fixCall_locals hv]; exact hx
  | CallImport i t n os => rw [fixCall_locals hv]; exact hx
  | CallIndirect i t g os => rw [fixCall_locals hv]; exact hx
  | GetLocal i t n =>
    simp only [LowerInt64.visit, Outcome.ok.injEq] at hv
    by_cases ht : t = WasmType.i64
    · subst ht
      rw [visitGetLocal_i64] at hv
      rw [← (Prod.mk.inj hv).1]
      exact registered_locals_stable st n x h hx
    · rw [visitGetLocal_other _ _ _ _ ht] at hv
      rw [← (Prod.mk.inj hv).1]; exact hx
  | SetLocal i t n v =>
    simp only [LowerInt64.visit] at hv
    by_cases ht : t = WasmType.i64
    · subst ht
      rw [visitSetLocal_i64] at hv
      split at hv
      · simp at hv
      · simp only [Outcome.ok.injEq, Prod.mk.injEq] at hv
        rw [← hv.1]
        exact registered_locals_stable st n x h hx
    · rw [visitSetLocal_other _ _ _ _ _ ht] at hv
      simp only [Outcome.ok.injEq, Prod.mk.injEq] at hv
      rw [← hv.1]; exact hx
  | Block i t l =>
    simp only [LowerInt64.visit, Outcome.ok.injEq, Prod.mk.injEq] at hv
    rw [← hv.1]; exact hx
  | Other i t k cs =>
    simp only [LowerInt64.visit, Outcome.ok.injEq, Prod.mk.injEq] at hv
    rw [← hv.1]; exact hx

/-- C10: once a local has a high companion, no visit removes or changes its
entry in the registry: after any number of visits the lookup returns the same
identifier, and a wide read or write of the local works with that identifier. -/
theorem locals_entry_stable (st st1 : LowerInt64) (x h : Name) (hv : Visits st st1)
    (hx : find st.locals x = some h) :
    find st1.locals x = some h ∧ companion st1 x = h := by
  have key : find st1.locals x = some h := by
    induction hv with
    | refl => exact hx
    | step _ hstep ih => exact visit_locals_stable hstep x h (ih hx)
  exact ⟨key, by simp [companion, key]⟩

theorem locals_entry_stable_witness :
    find (visitGetLocal sampleRead 3 WasmType.i64 "y").1.locals "y" = some "high0" ∧
      companion (visitGetLocal sampleRead 3 WasmType.i64 "y").1 "y" = "high0" :=
  locals_entry_stable sampleRead (visitGetLocal sampleRead 3 WasmType.i64 "y").1 "y" "high0"
    (@Visits.step 0 _ _ _ (Expression.GetLocal 3 WasmType.i64 "y") _
      (Visits.refl sampleRead) rfl) rfl

/-! ## Trees and the walk -/

theorem evalOrder_eq (e : Expression) :
    e.evalOrder = evalOrderList e.children ++ [e] := by
  cases e <;> simp [evalOrder, evalOrderList, children]

theorem mem_evalOrderList {n : Expression} {es : List Expression} :
    n ∈ evalOrderList es ↔ ∃ e ∈ es, n ∈ e.evalOrder := by
  induction es with
  | nil => simp [evalOrderList]
  | cons e es ih => simp [evalOrderList, ih]

mutual
theorem Expression.inductionAux (P : Expression → Prop)
    (h : ∀ e, (∀ c ∈ e.children, P c) → P e) : ∀ e, P e
  | Call _ _ _ os => h _ (Expression.inductionList P h os)
  | CallImport _ _ _ os => h _ (Expression.inductionList P h os)
  | CallIndirect _ _ g os =>
    h _ (List.forall_mem_cons.2
      ⟨Expression.inductionAux P h g, Expression.inductionList P h os⟩)
  | GetLocal _ _ _ => h _ (fun _ hc => nomatch hc)
  | SetLocal _ _ _ v =>
    h _ (List.forall_mem_cons.2
      ⟨Expression.inductionAux P h v, fun _ hc => nomatch hc⟩)
  | Block _ _ l => h _ (Expression.inductionList P h l)
  | Other _ _ _ cs => h _ (Expression.inductionList P h cs)
theorem Expression.inductionList (P : Expression → Prop)
    (h : ∀ e, (∀ c ∈ e.children, P c) → P e) : ∀ es : List Expression, ∀ c ∈ es, P c
  | [] => fun _ hc => nomatch hc
  | e :: es =>
    List.forall_mem_cons.2
      ⟨Expression.inductionAux P h e, Expression.inductionList P h es⟩
end

theorem walk_eq (fuel : Nat) (st : LowerInt64) (e : Expression) :
    walk fuel st e =
      (walkList fuel st e.children).bind fun r => visit fuel r.1 (e.withChildren r.2) := by
  cases e with
  | Call i t n os => simp [walk, children, withChildren]
  | CallImport i t n os => simp [walk, children, withChildren]
  | CallIndirect i t g os =>
    simp only [walk, children, walkList]
    cases walk fuel st g with
    | ok r =>
      simp only [Outcome.bind]
      cases walkList fuel r.1 os <;> simp [Outcome.bind, withChildren]
    | abort => rfl
    | outOfFuel => rfl
  | GetLocal i t n => simp [walk, children, withChildren, walkList, Outcome.bind]
  | SetLocal i t n v =>
    simp only [walk, children, walkList]
    cases walk fuel st v <;> simp [Outcome.bind, withChildren]
  | Block i t l => simp [walk, children, withChildren]
  | Other i t k cs => simp [walk, children, withChildren]

theorem Outcome.bind_eq_ok {α β : Type} {x : Outcome α} {f : α → Outcome β} {b : β}
    (h : x.bind f = Outcome.ok b) : ∃ a, x = Outcome.ok a ∧ f a = Outcome.ok b := by
  cases x with
  | ok a => exact ⟨a, rfl, h⟩
  | abort => cases h
  | outOfFuel => cases h

theorem children_withChildren (e : Expression) (cs : List Expression)
    (h : cs.length = e.children.length) : (e.withChildren cs).children = cs := by
  cases e with
  | CallIndirect i t g os =>
    cases cs with
    | nil => simp [children] at h
    | cons c cs => rfl
  | SetLocal i t n v =>
    cases cs with
    | nil => simp [children] at h
    | cons c cs =>
      cases cs with
      | nil => rfl
      | cons d ds => simp [children] at h
  | GetLocal i t n =>
    cases cs with
    | nil => rfl
    | cons c cs => simp [children] at h
  | Call i t n os => rfl
  | CallImport i t n os => rfl
  | Block i t l => rfl
  | Other i t k cs1 => rfl

@[simp] theorem withChildren_id (e : Expression) (cs : List Expression) :
    (e.withChildren cs).id = e.id := by
  cases e <;> cases cs <;> rfl

@[simp] theorem withChildren_type (e : Expression) (cs : List Expression) :
    (e.withChildren cs).type = e.type := by
  cases e <;> cases cs <;> rfl

@[simp] theorem withChildren_isCallBase (e : Expression) (cs : List Expression) :
    (e.withChildren cs).isCallBase = e.isCallBase := by
  cases e <;> cases cs <;> rfl

/-- The walk of a list of children, given what the walk of each child does. -/
theorem walkList_preserves (fuel : Nat) (I : LowerInt64 → Prop) (G : Expression → Prop) :
    ∀ (cs : List Expression),
      (∀ c ∈ cs, ∀ st st1 e1, I st → walk fuel st c = Outcome.ok (st1, e1) → I st1 ∧ G e1) →
      ∀ st st1 cs1, I st → walkList fuel st cs = Outcome.ok (st1, cs1) →
        I st1 ∧ (∀ c ∈ cs1, G c) ∧ cs1.length = cs.length := by
  intro cs
  induction cs with
  | nil =>
    intro _ st st1 cs1 hI hw
    simp only [walkList, Outcome.ok.injEq, Prod.mk.injEq] at hw
    obtain ⟨rfl, rfl⟩ := hw
    exact ⟨hI, by simp, rfl⟩
  | cons c cs ih =>
    intro hcs st st1 cs1 hI hw
    simp only [walkList] at hw
    obtain ⟨r, hr, hw⟩ := Outcome.bind_eq_ok hw
    obtain ⟨rs, hrs, hw⟩ := Outcome.bind_eq_ok hw
    simp only [Outcome.ok.injEq, Prod.mk.injEq] at hw
    obtain ⟨rfl, rfl⟩ := hw
    obtain ⟨hI1, hG1⟩ := hcs c (List.mem_cons_self _ _) st r.1 r.2 hI hr
    obtain ⟨hI2, hG2, hlen⟩ :=
      ih (fun d hd => hcs d (List.mem_cons_of_mem _ hd)) r.1 rs.1 rs.2 hI1 hrs
    exact ⟨hI2, List.forall_mem_cons.2 ⟨hG1, hG2⟩, by simp [hlen]⟩

/-- A property of states that every visit keeps, and a property of trees that
every visit establishes for its result when the children have it, hold after
a walk. -/
theorem walk_preserves (fuel : Nat) (I : LowerInt64 → Prop) (G : Expression → Prop)
    (hvisit : ∀ st e st1 e1, I st → (∀ c ∈ e.children, G c) →
      visit fuel st e = Outcome.ok (st1, e1) → I st1 ∧ G e1) :
    ∀ e st st1 e1, I st → walk fuel st e = Outcome.ok (st1, e1) → I st1 ∧ G e1 := by
  intro e
  induction e using Expression.inductionAux with
  | h e ih =>
    intro st st1 e1 hI hw
    rw [walk_eq] at hw
    obtain ⟨r, hr, hw⟩ := Outcome.bind_eq_ok hw
    obtain ⟨hI1, hG1, hlen⟩ := walkList_preserves fuel I G e.children ih st r.1 r.2 hI hr
    exact hvisit r.1 _ st1 e1 hI1
      (by rw [children_withChildren _ _ hlen]; exact hG1) hw

/-! ## Types after the pass -/

/-- Every element of the operand list that the loop produces is an operand
that was there or a value of the table. -/
theorem fixOperands_mem (fixes : List (Nat × Expression)) :
    ∀ (fuel : Nat) (operands : List Expression) (i : Nat) (r : List Expression),
      fixOperands fixes fuel operands i = some r →
      ∀ x ∈ r, x ∈ operands ∨ ∃ k, find fixes k = some x := by
  intro fuel
  induction fuel with
  | zero => intro operands i r h; simp [fixOperands] at h
  | succ fuel ih =>
    intro operands i r h x hx
    rw [fixOperands] at h
    split at h
    · split at h
      · next fix hfix =>
        rcases ih _ _ _ h x hx with hmem | hk
        · rcases List.mem_append.1 hmem with h1 | h1
          · exact Or.inl (List.mem_of_mem_take h1)
          · rcases List.mem_cons.1 h1 with rfl | h2
            · exact Or.inr ⟨_, hfix⟩
            · exact Or.inl (List.mem_of_mem_drop h2)
        · exact Or.inr hk
      · exact ih _ _ _ h x hx
    · simp only [Option.some.injEq] at h
      subst h
      exact Or.inl hx

/-- The two ways in which `fixCall` completes. -/
theorem fixCall_eq_ok {fuel : Nat} {st st1 : LowerInt64} {curr curr1 : Expression}
    (hv : fixCall fuel st curr = Outcome.ok (st1, curr1)) :
    ∃ ops, fixOperands st.fixes fuel curr.operands 0 = some ops ∧
      ((curr.type = WasmType.i64 ∧
          st1 = { st with
            allocator := st.allocator + 1
            fixes := assign st.fixes curr.id
              (Expression.CallImport st.allocator WasmType.i32 GET_HIGH []) } ∧
          curr1 = (curr.setOperands ops).setType WasmType.i32) ∨
        (curr.type ≠ WasmType.i64 ∧ st1 = st ∧ curr1 = curr.setOperands ops)) := by
  unfold LowerInt64.fixCall at hv
  split at hv
  · simp at hv
  · next ops hops =>
    refine ⟨ops, hops, ?_⟩
    dsimp only at hv
    rw [setOperands_type] at hv
    split at hv
    · next ht =>
      simp only [Outcome.ok.injEq, Prod.mk.injEq] at hv
      exact Or.inl ⟨ht, by rw [← hv.1]; simp [makeGetHigh], hv.2.symm⟩
    · next ht =>
      simp only [Outcome.ok.injEq, Prod.mk.injEq] at hv
      exact Or.inr ⟨ht, hv.1.symm, hv.2.symm⟩

theorem handledLowered_iff (e : Expression) :
    HandledLowered e ↔
      (∀ c ∈ e.children, HandledLowered c) ∧ (e.isHandled = true → e.type ≠ WasmType.i64) := by
  unfold HandledLowered
  rw [evalOrder_eq]
  constructor
  · intro h
    refine ⟨fun c hc n hn => h n (List.mem_append_left _ (mem_evalOrderList.2 ⟨c, hc, hn⟩)), ?_⟩
    exact h e (by simp)
  · rintro ⟨h1, h2⟩ n hn
    rcases List.mem_append.1 hn with hn | hn
    · obtain ⟨c, hc, hn⟩ := mem_evalOrderList.1 hn
      exact h1 c hc n hn
    · rw [List.mem_singleton.1 hn]; exact h2

theorem IsFixup.handledLowered {v : Expression} (h : IsFixup v) : HandledLowered v := by
  rcases h with h | ⟨n, h⟩ <;> rw [h] <;>
    simp [HandledLowered, evalOrder, evalOrderList, Expression.type]

theorem FixesShaped.assign {st : LowerInt64} (h : FixesShaped st) (k : Nat) (v : Expression)
    (hv : IsFixup v) (st1 : LowerInt64) (h1 : st1.fixes = assign st.fixes k v) :
    FixesShaped st1 := by
  intro k1 v1 hf
  rw [h1, find_assign] at hf
  split at hf
  · simp only [Option.some.injEq] at hf; rw [← hf]; exact hv
  · exact h k1 v1 hf

theorem fixCall_handledLowered {fuel : Nat} {st st1 : LowerInt64} {curr curr1 : Expression}
    (hcall : curr.isCallBase = true) (hs : FixesShaped st)
    (hc : ∀ c ∈ curr.children, HandledLowered c)
    (hv : fixCall fuel st curr = Outcome.ok (st1, curr1)) :
    FixesShaped st1 ∧ HandledLowered curr1 := by
  obtain ⟨ops, hops, hcase⟩ := fixCall_eq_ok hv
  have hopsGood : ∀ x ∈ ops, HandledLowered x := by
    intro x hx
    rcases fixOperands_mem _ _ _ _ _ hops x hx with hmem | ⟨k, hk⟩
    · refine hc x ?_
      cases curr <;> simp_all [children, operands, isCallBase]
    · exact (hs k x hk).handledLowered
  have hchildren : ∀ t, ∀ c ∈ ((curr.setOperands ops).setType t).children,
      HandledLowered c := by
    intro t c hcmem
    cases curr <;> simp_all [children, operands, isCallBase, setOperands, setType]
    · rcases hcmem with rfl | h
      · exact hc.1
      · exact hopsGood c h
  have hsame : (curr.setOperands ops).setType curr.type = curr.setOperands ops := by
    cases curr <;> rfl
  rcases hcase with ⟨_, hst, hcurr⟩ | ⟨ht, hst, hcurr⟩
  · refine ⟨hs.assign _ _ (Or.inl rfl) st1 (by rw [hst]), ?_⟩
    rw [hcurr, handledLowered_iff]
    exact ⟨hchildren _, by simp⟩
  · rw [hst]
    refine ⟨hs, ?_⟩
    rw [hcurr, handledLowered_iff, ← hsame]
    exact ⟨hchildren _, by simpa using fun _ => ht⟩

theorem visit_handledLowered (fuel : Nat) (st : LowerInt64) (e : Expression)
    (st1 : LowerInt64) (e1 : Expression) (hs : FixesShaped st)
    (hc : ∀ c ∈ e.children, HandledLowered c)
    (hv : visit fuel st e = Outcome.ok (st1, e1)) :
    FixesShaped st1 ∧ HandledLowered e1 := by
  cases e with
  | Call i t n os =>
    exact @fixCall_handledLowered _ _ _ (Expression.Call i t n os) _ rfl hs hc hv
  | CallImport i t n os =>
    exact @fixCall_handledLowered _ _ _ (Expression.CallImport i t n os) _ rfl hs hc hv
  | CallIndirect i t g os =>
    exact @fixCall_handledLowered _ _ _ (Expression.CallIndirect i t g os) _ rfl hs hc hv
  | GetLocal i t n =>
    simp only [LowerInt64.visit, Outcome.ok.injEq] at hv
    by_cases ht : t = WasmType.i64
    · subst ht
      rw [visitGetLocal_i64] at hv
      obtain ⟨h1, h2⟩ := Prod.mk.inj hv
      refine ⟨hs.assign _ _ (Or.inr ⟨_, rfl⟩) st1 (by rw [← h1]), ?_⟩
      rw [← h2]
      simp [HandledLowered, evalOrder, Expression.type]
    · rw [visitGetLocal_other _ _ _ _ ht] at hv
      obtain ⟨h1, h2⟩ := Prod.mk.inj hv
      rw [← h1, ← h2]
      exact ⟨hs, by simpa [HandledLowered, evalOrder, Expression.type] using fun _ => ht⟩
  | SetLocal i t n v =>
    simp only [LowerInt64.visit] at hv
    have hvGood : HandledLowered v := hc v (by simp [children])
    by_cases ht : t = WasmType.i64
    · subst ht
      rw [visitSetLocal_i64] at hv
      split at hv
      · simp at hv
      · next fix hfix =>
        simp only [Outcome.ok.injEq, Prod.mk.injEq] at hv
        have hs1 : FixesShaped
            { st with
              fixes := (assign st.fixes i
                (Expression.GetLocal st.allocator WasmType.i32 (companion st n))) } :=
          hs.assign _ _ (Or.inr ⟨_, rfl⟩) _ rfl
        have hfixGood : HandledLowered fix := (hs1 _ _ hfix).handledLowered
        refine ⟨hs1.assign _ _ (Or.inr ⟨_, rfl⟩) st1 (by rw [← hv.1]), ?_⟩
        rw [← hv.2]
        rw [handledLowered_iff]
        refine ⟨?_, by simp [isHandled]⟩
        intro c hcmem
        simp only [children, List.mem_cons, List.mem_singleton, List.not_mem_nil,
          or_false] at hcmem
        rcases hcmem with rfl | rfl | rfl
        · rw [handledLowered_iff]
          exact ⟨by simpa [children] using hvGood, by simp [Expression.type]⟩
        · rw [handledLowered_iff]
          exact ⟨by simpa [children] using hfixGood, by simp [Expression.type]⟩
        · simp [HandledLowered, evalOrder, Expression.type]
    · rw [visitSetLocal_other _ _ _ _ _ ht] at hv
      simp only [Outcome.ok.injEq, Prod.mk.injEq] at hv
      rw [← hv.1, ← hv.2]
      refine ⟨hs, ?_⟩
      rw [handledLowered_iff]
      exact ⟨hc, by simpa [Expression.type] using fun _ => ht⟩
  | Block i t l =>
    simp only [LowerInt64.visit, Outcome.ok.injEq, Prod.mk.injEq] at hv
    rw [← hv.1, ← hv.2]
    exact ⟨hs, (handledLowered_iff _).2 ⟨hc, by simp [isHandled]⟩⟩
  | Other i t k cs =>
    simp only [LowerInt64.visit, Outcome.ok.injEq, Prod.mk.injEq] at hv
    rw [← hv.1, ← hv.2]
    exact ⟨hs, (handledLowered_iff _).2 ⟨hc, by simp [isHandled]⟩⟩

/-- C7, as the code has it: the pass completes on a body that is a lone `i64`
constant and leaves it with type `i64`. -/
theorem walk_const_i64_stays :
    ∃ st1 e1, walk 0 (start 10 sampleNamer)
        (Expression.Other 0 WasmType.i64 (OtherKind.Const 5) []) = Outcome.ok (st1, e1) ∧
      ∃ n ∈ e1.evalOrder, n.type = WasmType.i64 :=
  ⟨_, _, rfl, _, List.mem_singleton.2 rfl, rfl⟩

/-- C7, amended: after the pass has completed on a body, no call, local read or
local write of the resulting body has type `i64`. -/
theorem walk_handled_not_i64 (base fuel : Nat) (st : LowerInt64) (e : Expression)
    (st1 : LowerInt64) (e1 : Expression) (hr : Reachable base st)
    (hw : walk fuel st e = Outcome.ok (st1, e1)) :
    ∀ n ∈ e1.evalOrder, n.isHandled = true → n.type ≠ WasmType.i64 :=
  (walk_preserves fuel FixesShaped HandledLowered (visit_handledLowered fuel)
    e st st1 e1 (fun k v hf => (hr.fixesInv.2 k v hf).2.2.2.2) hw).2

theorem walk_handled_not_i64_witness :
    (∃ st1, walk 7 (start 100 sampleNamer) sampleBody = Outcome.ok (st1, sampleLowered)) ∧
      HandledLowered sampleLowered :=
  ⟨⟨_, rfl⟩,
   walk_handled_not_i64 100 7 (start 100 sampleNamer) sampleBody _ sampleLowered
    (Reachable.start 100 sampleNamer (Nat.le_refl 100)) rfl⟩

/-! ## Induction along a walk -/

theorem walkList_length (fuel : Nat) :
    ∀ (cs : List Expression) (st st1 : LowerInt64) (cs1 : List Expression),
      walkList fuel st cs = Outcome.ok (st1, cs1) → cs1.length = cs.length := by
  intro cs
  induction cs with
  | nil =>
    intro st st1 cs1 hw
    simp only [walkList, Outcome.ok.injEq, Prod.mk.injEq] at hw
    rw [← hw.2]
  | cons c cs ih =>
    intro st st1 cs1 hw
    simp only [walkList] at hw
    obtain ⟨r, _, hw⟩ := Outcome.bind_eq_ok hw
    obtain ⟨rs, hrs, hw⟩ := Outcome.bind_eq_ok hw
    simp only [Outcome.ok.injEq, Prod.mk.injEq] at hw
    rw [← hw.2]
    simp [ih _ _ _ hrs]

/-- The list part of `walk_induction`. -/
theorem walkList_induction (fuel : Nat)
    (R : LowerInt64 → Expression → LowerInt64 → Expression → Prop)
    (RL : LowerInt64 → List Expression → LowerInt64 → List Expression → Prop)
    (hnil : ∀ st, RL st [] st [])
    (hcons : ∀ st c cs st1 c1 st2 cs1, walk fuel st c = Outcome.ok (st1, c1) →
      walkList fuel st1 cs = Outcome.ok (st2, cs1) → R st c st1 c1 → RL st1 cs st2 cs1 →
      RL st (c :: cs) st2 (c1 :: cs1)) :
    ∀ (cs : List Expression),
      (∀ c ∈ cs, ∀ st st1 e1, walk fuel st c = Outcome.ok (st1, e1) → R st c st1 e1) →
      ∀ st st1 cs1, walkList fuel st cs = Outcome.ok (st1, cs1) → RL st cs st1 cs1 := by
  intro cs
  induction cs with
  | nil =>
    intro _ st st1 cs1 hr
    simp only [walkList, Outcome.ok.injEq, Prod.mk.injEq] at hr
    obtain ⟨rfl, rfl⟩ := hr
    exact hnil st
  | cons c cs ihl =>
    intro ih st st1 cs1 hr
    simp only [walkList] at hr
    obtain ⟨r, hr1, hr⟩ := Outcome.bind_eq_ok hr
    obtain ⟨rs, hrs, hr⟩ := Outcome.bind_eq_ok hr
    simp only [Outcome.ok.injEq, Prod.mk.injEq] at hr
    obtain ⟨rfl, rfl⟩ := hr
    exact hcons st c cs r.1 r.2 rs.1 rs.2 hr1 hrs
      (ih c (List.mem_cons_self _ _) st r.1 r.2 hr1)
      (ihl (fun d hd => ih d (List.mem_cons_of_mem _ hd)) r.1 rs.1 rs.2 hrs)

/-- Induction along a walk: a relation between the state and tree before and
after holds for every walk as soon as it is passed on from the children of a
node, walked from left to right, to the node visited after them. -/
theorem walk_induction (fuel : Nat)
    (R : LowerInt64 → Expression → LowerInt64 → Expression → Prop)
    (RL : LowerInt64 → List Expression → LowerInt64 → List Expression → Prop)
    (hnil : ∀ st, RL st [] st [])
    (hcons : ∀ st c cs st1 c1 st2 cs1, walk fuel st c = Outcome.ok (st1, c1) →
      walkList fuel st1 cs = Outcome.ok (st2, cs1) → R st c st1 c1 → RL st1 cs st2 cs1 →
      RL st (c :: cs) st2 (c1 :: cs1))
    (hnode : ∀ st e st1 cs1 st2 e1, walkList fuel st e.children = Outcome.ok (st1, cs1) →
      RL st e.children st1 cs1 → cs1.length = e.children.length →
      visit fuel st1 (e.withChildren cs1) = Outcome.ok (st2, e1) → R st e st2 e1) :
    ∀ e st st1 e1, walk fuel st e = Outcome.ok (st1, e1) → R st e st1 e1 := by
  intro e
  induction e using Expression.inductionAux with
  | h e ih =>
    intro st st1 e1 hw
    rw [walk_eq] at hw
    obtain ⟨r, hr, hw⟩ := Outcome.bind_eq_ok hw
    exact hnode st e r.1 r.2 st1 e1 hr
      (walkList_induction fuel R RL hnil hcons e.children ih st r.1 r.2 hr)
      (walkList_length fuel _ _ _ _ hr) hw

/-! ## What a visit and a walk leave untouched -/

theorem IsFixup.evalOrder_single {v : Expression} (h : IsFixup v) : v.evalOrder = [v] := by
  rcases h with h | ⟨n, h⟩ <;> rw [h] <;> simp [evalOrder, evalOrderList]

theorem mem_evalOrder_self (e : Expression) : e ∈ e.evalOrder := by
  rw [evalOrder_eq]; simp

theorem mem_evalOrder_of_child {n c e : Expression} (hc : c ∈ e.children)
    (hn : n ∈ c.evalOrder) : n ∈ e.evalOrder := by
  rw [evalOrder_eq]
  exact List.mem_append_left _ (mem_evalOrderList.2 ⟨c, hc, hn⟩)

theorem mem_evalOrder_iff {n e : Expression} :
    n ∈ e.evalOrder ↔ (∃ c ∈ e.children, n ∈ c.evalOrder) ∨ n = e := by
  rw [evalOrder_eq, List.mem_append, mem_evalOrderList, List.mem_singleton]

theorem operands_subset_children (e : Expression) : ∀ x ∈ e.operands, x ∈ e.children := by
  intro x hx
  cases e <;> simp_all [children, operands]

/-- The children of a call node after `fixCall`: children it had, or values of
the table. -/
theorem fixCall_children {fuel : Nat} {st st1 : LowerInt64} {curr curr1 : Expression}
    (hv : fixCall fuel st curr = Outcome.ok (st1, curr1)) :
    ∀ c ∈ curr1.children, c ∈ curr.children ∨ ∃ k, find st.fixes k = some c := by
  obtain ⟨ops, hops, hcase⟩ := fixCall_eq_ok hv
  have hmem := fixOperands_mem _ _ _ _ _ hops
  have key : ∀ t, ∀ c ∈ ((curr.setOperands ops).setType t).children,
      c ∈ curr.children ∨ ∃ k, find st.fixes k = some c := by
    intro t c hc
    cases curr with
    | Call i t n os =>
      rcases hmem c hc with h | h
      · exact Or.inl h
      · exact Or.inr h
    | CallImport i t n os =>
      rcases hmem c hc with h | h
      · exact Or.inl h
      · exact Or.inr h
    | CallIndirect i t g os =>
      simp only [setOperands, setType, children, List.mem_cons] at hc ⊢
      rcases hc with rfl | hc
      · exact Or.inl (Or.inl rfl)
      · rcases hmem c hc with h | h
        · exact Or.inl (Or.inr h)
        · exact Or.inr h
    | GetLocal i t n => simp [setOperands, setType, children] at hc
    | SetLocal i t n v => exact Or.inl hc
    | Block i t l => exact Or.inl hc
    | Other i t k cs => exact Or.inl hc
  have hsame : (curr.setOperands ops).setType curr.type = curr.setOperands ops := by
    cases curr <;> rfl
  rcases hcase with ⟨_, _, hcurr⟩ | ⟨_, _, hcurr⟩
  · rw [hcurr]; exact key _
  · rw [hcurr, ← hsame]; exact key _

theorem fixCall_id {fuel : Nat} {st st1 : LowerInt64} {curr curr1 : Expression}
    (hv : fixCall fuel st curr = Outcome.ok (st1, curr1)) : curr1.id = curr.id := by
  obtain ⟨ops, _, hcase⟩ := fixCall_eq_ok hv
  rcases hcase with ⟨_, _, hcurr⟩ | ⟨_, _, hcurr⟩ <;> rw [hcurr] <;> simp

theorem fixCall_isCallBase {fuel : Nat} {st st1 : LowerInt64} {curr curr1 : Expression}
    (hv : fixCall fuel st curr = Outcome.ok (st1, curr1)) :
    curr1.isCallBase = curr.isCallBase := by
  obtain ⟨ops, _, hcase⟩ := fixCall_eq_ok hv
  rcases hcase with ⟨_, _, hcurr⟩ | ⟨_, _, hcurr⟩ <;> (rw [hcurr]; cases curr <;> rfl)

theorem visit_allocator_le {fuel : Nat} {st st1 : LowerInt64} {e e1 : Expression}
    (hv : visit fuel st e = Outcome.ok (st1, e1)) : st.allocator ≤ st1.allocator := by
  have hcall : ∀ curr, fixCall fuel st curr = Outcome.ok (st1, e1) →
      st.allocator ≤ st1.allocator := by
    intro curr h
    obtain ⟨ops, _, hcase⟩ := fixCall_eq_ok h
    rcases hcase with ⟨_, hst, _⟩ | ⟨_, hst, _⟩ <;> (rw [hst]; try simp)
  cases e with
  | Call i t n os => exact hcall _ hv
  | CallImport i t n os => exact hcall _ hv
  | CallIndirect i t g os => exact hcall _ hv
  | GetLocal i t n =>
    simp only [LowerInt64.visit, Outcome.ok.injEq] at hv
    by_cases ht : t = WasmType.i64
    · subst ht
      rw [visitGetLocal_i64] at hv
      rw [← (Prod.mk.inj hv).1]; simp
    · rw [visitGetLocal_other _ _ _ _ ht] at hv
      rw [← (Prod.mk.inj hv).1]
  | SetLocal i t n v =>
    simp only [LowerInt64.visit] at hv
    by_cases ht : t = WasmType.i64
    · subst ht
      rw [visitSetLocal_i64] at hv
      split at hv
      · simp at hv
      · simp only [Outcome.ok.injEq, Prod.mk.injEq] at hv
        rw [← hv.1]; simp
    · rw [visitSetLocal_other _ _ _ _ _ ht] at hv
      simp only [Outcome.ok.injEq, Prod.mk.injEq] at hv
      rw [← hv.1]
  | Block i t l =>
    simp only [LowerInt64.visit, Outcome.ok.injEq, Prod.mk.injEq] at hv
    rw [← hv.1]
  | Other i t k cs =>
    simp only [LowerInt64.visit, Outcome.ok.injEq, Prod.mk.injEq] at hv
    rw [← hv.1]

/-- A visit changes the table only at the visited node and at addresses it
allocates. -/
theorem visit_frame {fuel : Nat} {st st1 : LowerInt64} {e e1 : Expression}
    (hv : visit fuel st e = Outcome.ok (st1, e1)) (k : Nat) (hk : k < st.allocator)
    (hne : k ≠ e.id) : find st1.fixes k = find st.fixes k := by
  have hcall : ∀ curr, curr.id = e.id → fixCall fuel st curr = Outcome.ok (st1, e1) →
      find st1.fixes k = find st.fixes k := by
    intro curr hid h
    obtain ⟨ops, _, hcase⟩ := fixCall_eq_ok h
    rcases hcase with ⟨_, hst, _⟩ | ⟨_, hst, _⟩ <;> rw [hst]
    exact find_assign_ne _ _ (by rw [hid]; exact fun h => hne h.symm)
  cases e with
  | Call i t n os => exact hcall _ rfl hv
  | CallImport i t n os => exact hcall _ rfl hv
  | CallIndirect i t g os => exact hcall _ rfl hv
  | GetLocal i t n =>
    simp only [LowerInt64.visit, Outcome.ok.injEq] at hv
    by_cases ht : t = WasmType.i64
    · subst ht
      rw [visitGetLocal_i64] at hv
      rw [← (Prod.mk.inj hv).1]
      exact find_assign_ne _ _ (fun h => hne h.symm)
    · rw [visitGetLocal_other _ _ _ _ ht] at hv
      rw [← (Prod.mk.inj hv).1]
  | SetLocal i t n v =>
    simp only [LowerInt64.visit] at hv
    by_cases ht : t = WasmType.i64
    · subst ht
      rw [visitSetLocal_i64] at hv
      split at hv
      · simp at hv
      · simp only [Outcome.ok.injEq, Prod.mk.injEq] at hv
        rw [← hv.1]
        have h3 : st.allocator + 3 ≠ k := by omega
        simp only [find_assign_ne _ _ h3]
        exact find_assign_ne _ _ (fun h => hne h.symm)
    · rw [visitSetLocal_other _ _ _ _ _ ht] at hv
      simp only [Outcome.ok.injEq, Prod.mk.injEq] at hv
      rw [← hv.1]
  | Block i t l =>
    simp only [LowerInt64.visit, Outcome.ok.injEq, Prod.mk.injEq] at hv
    rw [← hv.1]
  | Other i t k cs =>
    simp only [LowerInt64.visit, Outcome.ok.injEq, Prod.mk.injEq] at hv
    rw [← hv.1]

/-- The nodes of the tree that a visit leaves: nodes of the visited tree, by
their address, or nodes allocated during the run. -/
theorem visit_nodes {base fuel : Nat} {st st1 : LowerInt64} {e e1 : Expression}
    (hinv : FixesInv base st) (hv : visit fuel st e = Outcome.ok (st1, e1)) :
    ∀ n ∈ e1.evalOrder,
      (∃ m ∈ e.evalOrder, m.id = n.id) ∨ (base ≤ n.id ∧ n.id < st1.allocator) := by
  have hcall : ∀ curr, curr = e → fixCall fuel st curr = Outcome.ok (st1, e1) →
      ∀ n ∈ e1.evalOrder,
        (∃ m ∈ e.evalOrder, m.id = n.id) ∨ (base ≤ n.id ∧ n.id < st1.allocator) := by
    intro curr hcurr h n hn
    subst hcurr
    have hle := visit_allocator_le hv
    rcases mem_evalOrder_iff.1 hn with ⟨c, hc, hnc⟩ | rfl
    · rcases fixCall_children h c hc with hold | ⟨k, hk⟩
      · exact Or.inl ⟨n, mem_evalOrder_of_child hold hnc, rfl⟩
      · obtain ⟨_, h2, h3, _, h5⟩ := hinv.2 k c hk
        rw [h5.evalOrder_single, List.mem_singleton] at hnc
        subst hnc
        exact Or.inr ⟨h2, by omega⟩
    · exact Or.inl ⟨curr, mem_evalOrder_self _, (fixCall_id h).symm⟩
  cases e with
  | Call i t n os => exact hcall _ rfl hv
  | CallImport i t n os => exact hcall _ rfl hv
  | CallIndirect i t g os => exact hcall _ rfl hv
  | GetLocal i t n =>
    simp only [LowerInt64.visit, Outcome.ok.injEq] at hv
    intro m hm
    left
    by_cases ht : t = WasmType.i64
    · subst ht
      rw [visitGetLocal_i64] at hv
      rw [← (Prod.mk.inj hv).2] at hm
      simp only [evalOrder, List.mem_singleton] at hm
      subst hm
      exact ⟨_, mem_evalOrder_self _, rfl⟩
    · rw [visitGetLocal_other _ _ _ _ ht] at hv
      rw [← (Prod.mk.inj hv).2] at hm
      exact ⟨m, hm, rfl⟩
  | SetLocal i t n v =>
    simp only [LowerInt64.visit] at hv
    by_cases ht : t = WasmType.i64
    · subst ht
      rw [visitSetLocal_i64] at hv
      split at hv
      · simp at hv
      · next fix hfix =>
        simp only [Outcome.ok.injEq, Prod.mk.injEq] at hv
        obtain ⟨hst, he1⟩ := hv
        have hb := hinv.1
        have hfixid : base ≤ fix.id ∧ fix.id < st.allocator + 4 ∧ fix.evalOrder = [fix] := by
          rw [find_assign] at hfix
          split at hfix
          · simp only [Option.some.injEq] at hfix
            rw [← hfix]
            exact ⟨hb, by simp [Expression.id], rfl⟩
          · obtain ⟨_, h2, h3, _, h5⟩ := hinv.2 _ _ hfix
            exact ⟨h2, by omega, h5.evalOrder_single⟩
        intro m hm
        rw [← he1] at hm
        rw [← hst]
        simp only [evalOrder, evalOrderList, hfixid.2.2, List.mem_append, List.mem_cons,
          List.mem_singleton, List.not_mem_nil, or_false] at hm
        rcases hm with ((hm | rfl) | (rfl | rfl) | rfl) | rfl
        · exact Or.inl ⟨m, by simp [evalOrder, hm], rfl⟩
        · exact Or.inl ⟨_, mem_evalOrder_self _, rfl⟩
        · exact Or.inr ⟨hfixid.1, hfixid.2.1⟩
        · exact Or.inr ⟨by simp [Expression.id]; omega, by simp [Expression.id]⟩
        · exact Or.inr ⟨by simp [Expression.id]; omega, by simp [Expression.id]⟩
        · exact Or.inr ⟨by simp [Expression.id]; omega, by simp [Expression.id]⟩
    · rw [visitSetLocal_other _ _ _ _ _ ht] at hv
      simp only [Outcome.ok.injEq, Prod.mk.injEq] at hv
      rw [← hv.2]
      exact fun m hm => Or.inl ⟨m, hm, rfl⟩
  | Block i t l =>
    simp only [LowerInt64.visit, Outcome.ok.injEq, Prod.mk.injEq] at hv
    rw [← hv.2]
    exact fun m hm => Or.inl ⟨m, hm, rfl⟩
  | Other i t k cs =>
    simp only [LowerInt64.visit, Outcome.ok.injEq, Prod.mk.injEq] at hv
    rw [← hv.2]
    exact fun m hm => Or.inl ⟨m, hm, rfl⟩

/-- The step of `walk_frame` from a child and its later siblings to the list. -/
theorem frame_cons (base : Nat) (st : LowerInt64) (c : Expression) (cs : List Expression)
    (st1 : LowerInt64) (c1 : Expression) (st2 : LowerInt64) (cs1 : List Expression)
    (hc : FixesInv base st → (∀ n ∈ c.evalOrder, n.id < base) →
      FixesInv base st1 ∧ st.allocator ≤ st1.allocator ∧
      (∀ k, k < st.allocator → (∀ n ∈ c.evalOrder, n.id ≠ k) →
        find st1.fixes k = find st.fixes k) ∧
      (∀ n ∈ c1.evalOrder,
        (∃ m ∈ c.evalOrder, m.id = n.id) ∨ (base ≤ n.id ∧ n.id < st1.allocator)))
    (hcs : FixesInv base st1 → (∀ n ∈ evalOrderList cs, n.id < base) →
      FixesInv base st2 ∧ st1.allocator ≤ st2.allocator ∧
      (∀ k, k < st1.allocator → (∀ n ∈ evalOrderList cs, n.id ≠ k) →
        find st2.fixes k = find st1.fixes k) ∧
      (∀ n ∈ evalOrderList cs1,
        (∃ m ∈ evalOrderList cs, m.id = n.id) ∨ (base ≤ n.id ∧ n.id < st2.allocator)))
    (hinv : FixesInv base st) (hids : ∀ n ∈ evalOrderList (c :: cs), n.id < base) :
    FixesInv base st2 ∧ st.allocator ≤ st2.allocator ∧
      (∀ k, k < st.allocator → (∀ n ∈ evalOrderList (c :: cs), n.id ≠ k) →
        find st2.fixes k = find st.fixes k) ∧
      (∀ n ∈ evalOrderList (c1 :: cs1),
        (∃ m ∈ evalOrderList (c :: cs), m.id = n.id) ∨
          (base ≤ n.id ∧ n.id < st2.allocator)) := by
  simp only [evalOrderList, List.mem_append] at hids ⊢
  obtain ⟨hinv1, hle1, hfr1, hn1⟩ := hc hinv (fun n hn => hids n (Or.inl hn))
  obtain ⟨hinv2, hle2, hfr2, hn2⟩ := hcs hinv1 (fun n hn => hids n (Or.inr hn))
  refine ⟨hinv2, by omega, ?_, ?_⟩
  · intro k hk hne
    rw [hfr2 k (by omega) (fun n hn => hne n (Or.inr hn)),
      hfr1 k hk (fun n hn => hne n (Or.inl hn))]
  · intro n hn
    rcases hn with hn | hn
    · rcases hn1 n hn with ⟨m, hm, hid⟩ | ⟨h1, h2⟩
      · exact Or.inl ⟨m, Or.inl hm, hid⟩
      · exact Or.inr ⟨h1, by omega⟩
    · rcases hn2 n hn with ⟨m, hm, hid⟩ | h
      · exact Or.inl ⟨m, Or.inr hm, hid⟩
      · exact Or.inr h

/-- What a walk leaves untouched.  In a state with the invariant, on a tree of
nodes that existed before the run: the invariant holds afterwards, the
allocator has only advanced, the entries of the table at addresses in use
outside the tree are as before, and the resulting tree is made of nodes of the
tree, by their address, and of nodes allocated during the run. -/
theorem walk_frame (base fuel : Nat) :
    ∀ e st st1 e1, walk fuel st e = Outcome.ok (st1, e1) →
      FixesInv base st → (∀ n ∈ e.evalOrder, n.id < base) →
      FixesInv base st1 ∧ st.allocator ≤ st1.allocator ∧
      (∀ k, k < st.allocator → (∀ n ∈ e.evalOrder, n.id ≠ k) →
        find st1.fixes k = find st.fixes k) ∧
      (∀ n ∈ e1.evalOrder,
        (∃ m ∈ e.evalOrder, m.id = n.id) ∨ (base ≤ n.id ∧ n.id < st1.allocator)) := by
  refine walk_induction fuel
    (fun st e st1 e1 => FixesInv base st → (∀ n ∈ e.evalOrder, n.id < base) →
      FixesInv base st1 ∧ st.allocator ≤ st1.allocator ∧
      (∀ k, k < st.allocator → (∀ n ∈ e.evalOrder, n.id ≠ k) →
        find st1.fixes k = find st.fixes k) ∧
      (∀ n ∈ e1.evalOrder,
        (∃ m ∈ e.evalOrder, m.id = n.id) ∨ (base ≤ n.id ∧ n.id < st1.allocator)))
    (fun st cs st1 cs1 => FixesInv base st → (∀ n ∈ evalOrderList cs, n.id < base) →
      FixesInv base st1 ∧ st.allocator ≤ st1.allocator ∧
      (∀ k, k < st.allocator → (∀ n ∈ evalOrderList cs, n.id ≠ k) →
        find st1.fixes k = find st.fixes k) ∧
      (∀ n ∈ evalOrderList cs1,
        (∃ m ∈ evalOrderList cs, m.id = n.id) ∨ (base ≤ n.id ∧ n.id < st1.allocator)))
    ?_ ?_ ?_
  · intro st hinv _
    exact ⟨hinv, Nat.le_refl _, fun _ _ _ => rfl, by simp [evalOrderList]⟩
  · intro st c cs st1 c1 st2 cs1 _ _ hc hcs hinv hids
    exact frame_cons base st c cs st1 c1 st2 cs1 hc hcs hinv hids
  · intro st e st1 cs1 st2 e1 _ hcs hlen hv hinv hids
    have hidsL : ∀ n ∈ evalOrderList e.children, n.id < base := by
      intro n hn
      exact hids n (by rw [evalOrder_eq]; exact List.mem_append_left _ hn)
    obtain ⟨hinv1, hle1, hfr1, hn1⟩ := hcs hinv hidsL
    have hid : (e.withChildren cs1).id < base := by
      rw [withChildren_id]; exact hids e (mem_evalOrder_self e)
    have hle2 := visit_allocator_le hv
    refine ⟨hinv1.visit hid hv, by omega, ?_, ?_⟩
    · intro k hk hne
      rw [visit_frame hv k (by omega)
        (by rw [withChildren_id]; exact fun h => hne e (mem_evalOrder_self e) h.symm)]
      exact hfr1 k hk
        (fun n hn => hne n (by rw [evalOrder_eq]; exact List.mem_append_left _ hn))
    · intro n hn
      rcases visit_nodes hinv1 hv n hn with ⟨m, hm, hmid⟩ | h
      · rw [evalOrder_eq, children_withChildren _ _ hlen, List.mem_append,
          List.mem_singleton] at hm
        rcases hm with hm | rfl
        · rcases hn1 m hm with ⟨m1, hm1, hid1⟩ | ⟨h1, h2⟩
          · refine Or.inl ⟨m1, ?_, hid1.trans hmid⟩
            rw [evalOrder_eq]; exact List.mem_append_left _ hm1
          · exact Or.inr ⟨by omega, by omega⟩
        · exact Or.inl ⟨e, mem_evalOrder_self e, by rw [← hmid, withChildren_id]⟩
      · exact Or.inr h

/-- What the walk of a list of children leaves untouched. -/
theorem walkList_frame (base fuel : Nat) :
    ∀ cs st st1 cs1, walkList fuel st cs = Outcome.ok (st1, cs1) →
      FixesInv base st → (∀ n ∈ evalOrderList cs, n.id < base) →
      FixesInv base st1 ∧ st.allocator ≤ st1.allocator ∧
      (∀ k, k < st.allocator → (∀ n ∈ evalOrderList cs, n.id ≠ k) →
        find st1.fixes k = find st.fixes k) ∧
      (∀ n ∈ evalOrderList cs1,
        (∃ m ∈ evalOrderList cs, m.id = n.id) ∨ (base ≤ n.id ∧ n.id < st1.allocator)) := by
  intro cs
  refine walkList_induction fuel
    (fun st e st1 e1 => FixesInv base st → (∀ n ∈ e.evalOrder, n.id < base) →
      FixesInv base st1 ∧ st.allocator ≤ st1.allocator ∧
      (∀ k, k < st.allocator → (∀ n ∈ e.evalOrder, n.id ≠ k) →
        find st1.fixes k = find st.fixes k) ∧
      (∀ n ∈ e1.evalOrder,
        (∃ m ∈ e.evalOrder, m.id = n.id) ∨ (base ≤ n.id ∧ n.id < st1.allocator)))
    (fun st cs st1 cs1 => FixesInv base st → (∀ n ∈ evalOrderList cs, n.id < base) →
      FixesInv base st1 ∧ st.allocator ≤ st1.allocator ∧
      (∀ k, k < st.allocator → (∀ n ∈ evalOrderList cs, n.id ≠ k) →
        find st1.fixes k = find st.fixes k) ∧
      (∀ n ∈ evalOrderList cs1,
        (∃ m ∈ evalOrderList cs, m.id = n.id) ∨ (base ≤ n.id ∧ n.id < st1.allocator)))
    ?_ ?_ cs (fun c _ st st1 e1 hw => walk_frame base fuel c st st1 e1 hw)
  · intro st hinv _
    exact ⟨hinv, Nat.le_refl _, fun _ _ _ => rfl, by simp [evalOrderList]⟩
  · intro st c cs st1 c1 st2 cs1 _ _ hc hcs hinv hids
    exact frame_cons base st c cs st1 c1 st2 cs1 hc hcs hinv hids

/-! ## Evaluation order of the calls of `getHigh` -/

theorem GetHighFollowsCall.nil (fixes : List (Nat × Expression)) (base : Nat) :
    GetHighFollowsCall fixes base [] := by
  intro pre n post h
  simp at h

theorem GetHighFollowsCall.append {fixes : List (Nat × Expression)} {base : Nat}
    {A B : List Expression} (hA : GetHighFollowsCall fixes base A)
    (hB : GetHighFollowsCall fixes base B) : GetHighFollowsCall fixes base (A ++ B) := by
  intro pre n post h hp
  rcases List.append_eq_append_iff.1 h with ⟨a, rfl, hb⟩ | ⟨c, ha, hc⟩
  · obtain ⟨pre1, c, mid, rfl, h1, h2, h3⟩ := hB a n post hb hp
    exact ⟨A ++ pre1, c, mid, by simp, h1, h2, h3⟩
  · cases c with
    | nil =>
      simp only [List.nil_append] at hc
      obtain ⟨pre1, c, mid, h0, _⟩ := hB [] n post hc.symm hp
      simp at h0
    | cons x c =>
      simp only [List.cons_append, List.cons.injEq] at hc
      obtain ⟨rfl, _⟩ := hc
      exact hA pre n c ha hp

theorem GetHighFollowsCall.single {fixes : List (Nat × Expression)} {base : Nat}
    {x : Expression} (hx : ¬ Placed base x) : GetHighFollowsCall fixes base [x] := by
  intro pre n post h hp
  cases pre with
  | nil =>
    simp only [List.nil_append, List.cons.injEq] at h
    rw [← h.1] at hp
    exact absurd hp hx
  | cons y pre =>
    simp only [List.cons_append, List.cons.injEq] at h
    have := h.2
    simp at this

/-- A fixup evaluated after a call node and nodes that are not calls. -/
theorem GetHighFollowsCall.snoc_fix {fixes : List (Nat × Expression)} {base : Nat}
    {A mid : List Expression} {c f : Expression}
    (hA : GetHighFollowsCall fixes base (A ++ c :: mid))
    (hmid : ∀ m ∈ mid, m.isCallBase = false)
    (hf : Placed base f → c.isCallBase = true ∧ find fixes c.id = some f) :
    GetHighFollowsCall fixes base (A ++ c :: mid ++ [f]) := by
  intro pre n post h hp
  rcases List.append_eq_append_iff.1 h with ⟨a, rfl, hb⟩ | ⟨c1, ha, hc⟩
  · cases a with
    | nil =>
      simp only [List.nil_append, List.cons.injEq] at hb
      obtain ⟨rfl, _⟩ := hb
      obtain ⟨h1, h2⟩ := hf hp
      exact ⟨A, c, mid, by simp, h1, h2, hmid⟩
    | cons y a =>
      simp only [List.cons_append, List.cons.injEq] at hb
      have := hb.2
      simp at this
  · cases c1 with
    | nil =>
      simp only [List.nil_append] at hc
      obtain ⟨rfl, _⟩ := List.cons.inj hc
      obtain ⟨h1, h2⟩ := hf hp
      exact ⟨A, c, mid, by simpa using ha.symm, h1, h2, hmid⟩
    | cons x c1 =>
      simp only [List.cons_append, List.cons.injEq] at hc
      obtain ⟨rfl, _⟩ := hc
      exact hA pre n c1 (by simpa using ha) hp

/-- The property only depends on the entries of the call nodes of the order. -/
theorem GetHighFollowsCall.of_find_eq {fixes fixes1 : List (Nat × Expression)} {base : Nat}
    {A : List Expression} (hA : GetHighFollowsCall fixes base A)
    (h : ∀ c ∈ A, find fixes1 c.id = find fixes c.id) :
    GetHighFollowsCall fixes1 base A := by
  intro pre n post hpre hp
  obtain ⟨pre1, c, mid, rfl, h1, h2, h3⟩ := hA pre n post hpre hp
  refine ⟨pre1, c, mid, rfl, h1, ?_, h3⟩
  rw [h c (by rw [hpre]; simp), h2]

theorem evalOrderList_append (A B : List Expression) :
    evalOrderList (A ++ B) = evalOrderList A ++ evalOrderList B := by
  induction A with
  | nil => simp [evalOrderList]
  | cons a A ih => simp [evalOrderList, ih]

theorem GetHighFollowsCall.list {fixes : List (Nat × Expression)} {base : Nat}
    {cs : List Expression} (h : ∀ c ∈ cs, GetHighFollowsCall fixes base c.evalOrder) :
    GetHighFollowsCall fixes base (evalOrderList cs) := by
  induction cs with
  | nil => exact GetHighFollowsCall.nil _ _
  | cons c cs ih =>
    exact (h c (List.mem_cons_self _ _)).append
      (ih (fun d hd => h d (List.mem_cons_of_mem _ hd)))

/-- The evaluation order of a widened operand list, when each operand is in
order and each fixup that is a call of `getHigh` belongs to a call node. -/
theorem GetHighFollowsCall.of_widened {fixes fixes1 : List (Nat × Expression)} {base : Nat}
    {cs : List Expression}
    (h : ∀ c ∈ cs, GetHighFollowsCall fixes1 base c.evalOrder ∧
      ∀ v, find fixes c.id = some v →
        IsFixup v ∧ (Placed base v → c.isCallBase = true ∧ find fixes1 c.id = some v)) :
    GetHighFollowsCall fixes1 base (evalOrderList (LowerInt64.widened fixes cs)) := by
  induction cs with
  | nil => exact GetHighFollowsCall.nil _ _
  | cons c cs ih =>
    have ihcs := ih (fun d hd => h d (List.mem_cons_of_mem _ hd))
    obtain ⟨hc, hv⟩ := h c (List.mem_cons_self _ _)
    simp only [LowerInt64.widened]
    cases hfind : find fixes c.id with
    | none => exact hc.append ihcs
    | some v =>
      obtain ⟨hshape, hplaced⟩ := hv v hfind
      simp only [evalOrderList, hshape.evalOrder_single]
      rw [← List.append_assoc]
      refine GetHighFollowsCall.append ?_ ihcs
      have e0 : c.evalOrder = evalOrderList c.children ++ c :: [] := evalOrder_eq c
      have := @GetHighFollowsCall.snoc_fix fixes1 base (evalOrderList c.children) [] c v
        (by rw [← e0]; exact hc) (by simp) hplaced
      rw [e0]
      simpa using this

/-- More iterations allowed do not change the result of the operand loop. -/
theorem fixOperands_mono (fixes : List (Nat × Expression)) :
    ∀ (fuel : Nat) (operands : List Expression) (i : Nat) (r : List Expression),
      fixOperands fixes fuel operands i = some r →
      ∀ fuel1, fuel ≤ fuel1 → fixOperands fixes fuel1 operands i = some r := by
  intro fuel
  induction fuel with
  | zero => intro operands i r h; simp [fixOperands] at h
  | succ fuel ih =>
    intro operands i r h fuel1 hle
    obtain ⟨f, rfl⟩ : ∃ f, fuel1 = f + 1 := ⟨fuel1 - 1, by omega⟩
    rw [fixOperands] at h ⊢
    split
    · next hlt =>
      rw [dif_pos hlt] at h
      split
      · next fix hfix =>
        rw [hfix] at h
        exact ih _ _ _ h f (by omega)
      · next hfix =>
        rw [hfix] at h
        exact ih _ _ _ h f (by omega)
    · next hlt =>
      rw [dif_neg hlt] at h
      exact h

/-- In a state with the invariant, a completed operand loop has produced the
widened operand list. -/
theorem FixesInv.fixOperands_eq {base : Nat} {st : LowerInt64} (hinv : FixesInv base st)
    {fuel : Nat} {operands r : List Expression}
    (h : fixOperands st.fixes fuel operands 0 = some r) :
    r = widened st.fixes operands := by
  have h1 := fixOperands_mono _ _ _ _ _ h (fuel + 2 * operands.length + 1) (by omega)
  have h2 := fixOperands_widened st.fixes operands [] (fuel + 2 * operands.length + 1)
    (fun o _ f hfix => (hinv.2 _ _ hfix).2.2.2.1) (by omega)
  simp only [List.nil_append, List.length_nil] at h2
  rw [h1] at h2
  exact Option.some.inj h2

/-- The children of a call node before and after `fixCall`: the operands are
widened, a child that is not an operand stays. -/
theorem FixesInv.fixCall_widens {base fuel : Nat} {st st1 : LowerInt64}
    {curr curr1 : Expression} (hinv : FixesInv base st) (hcall : curr.isCallBase = true)
    (hv : LowerInt64.fixCall fuel st curr = Outcome.ok (st1, curr1)) :
    ∃ pre, curr.children = pre ++ curr.operands ∧
      curr1.children = pre ++ widened st.fixes curr.operands := by
  obtain ⟨ops, hops, hcase⟩ := fixCall_eq_ok hv
  have hops1 := hinv.fixOperands_eq hops
  subst hops1
  have key : ∀ t, ∃ pre, curr.children = pre ++ curr.operands ∧
      ((curr.setOperands (widened st.fixes curr.operands)).setType t).children =
        pre ++ widened st.fixes curr.operands := by
    intro t
    cases curr with
    | Call i t n os => exact ⟨[], rfl, rfl⟩
    | CallImport i t n os => exact ⟨[], rfl, rfl⟩
    | CallIndirect i t g os => exact ⟨[g], rfl, rfl⟩
    | GetLocal i t n => simp [isCallBase] at hcall
    | SetLocal i t n v => simp [isCallBase] at hcall
    | Block i t l => simp [isCallBase] at hcall
    | Other i t k cs => simp [isCallBase] at hcall
  have hsame : ∀ ops, (curr.setOperands ops).setType curr.type = curr.setOperands ops := by
    intro ops; cases curr <;> rfl
  rcases hcase with ⟨_, _, hcurr⟩ | ⟨_, _, hcurr⟩
  · rw [hcurr]; exact key _
  · rw [hcurr, ← hsame]; exact key _

theorem not_placed_of_lt {base : Nat} {x : Expression} (h : x.id < base) :
    ¬ Placed base x := fun hp => by have := hp.1; omega

/-- The evaluation order after `fixCall`, given the order of the children. -/
theorem order_fixCall {base fuel : Nat} {st st1 : LowerInt64} {curr curr1 : Expression}
    (hinv : FixesInv base st) (hcall : curr.isCallBase = true) (hid : curr.id < base)
    (hch : ∀ c ∈ curr.children, GetHighFollowsCall st.fixes base c.evalOrder ∧
      ∀ v, find st.fixes c.id = some v → Placed base v → c.isCallBase = true)
    (hnodes : ∀ c ∈ curr.children, ∀ m ∈ c.evalOrder, m.id ≠ curr.id ∧ m.id < st.allocator)
    (hv : fixCall fuel st curr = Outcome.ok (st1, curr1)) :
    GetHighFollowsCall st1.fixes base curr1.evalOrder ∧ curr1.isCallBase = true := by
  have hvisit : visit fuel st curr = Outcome.ok (st1, curr1) := by
    rw [visit_callBase _ _ _ hcall]; exact hv
  obtain ⟨pre, hpre, hpre1⟩ := hinv.fixCall_widens hcall hv
  have hframe : ∀ c ∈ curr.children, ∀ m ∈ c.evalOrder,
      find st1.fixes m.id = find st.fixes m.id := by
    intro c hc m hm
    obtain ⟨h1, h2⟩ := hnodes c hc m hm
    exact visit_frame hvisit m.id h2 h1
  have hchild : ∀ c ∈ curr.children, GetHighFollowsCall st1.fixes base c.evalOrder :=
    fun c hc => (hch c hc).1.of_find_eq (hframe c hc)
  refine ⟨?_, by rw [fixCall_isCallBase hv]; exact hcall⟩
  rw [evalOrder_eq, hpre1, evalOrderList_append]
  refine GetHighFollowsCall.append (GetHighFollowsCall.append ?_ ?_)
    (GetHighFollowsCall.single (not_placed_of_lt (by rw [fixCall_id hv]; exact hid)))
  · exact GetHighFollowsCall.list (fun c hc => hchild c (by rw [hpre]; simp [hc]))
  · refine GetHighFollowsCall.of_widened ?_
    intro c hc
    have hc1 : c ∈ curr.children := by rw [hpre]; simp [hc]
    refine ⟨hchild c hc1, fun v hfind => ⟨(hinv.2 _ _ hfind).2.2.2.2, fun hp => ?_⟩⟩
    refine ⟨(hch c hc1).2 v hfind hp, ?_⟩
    rw [hframe c hc1 c (mem_evalOrder_self c)]
    exact hfind

/-- The evaluation order after `visitSetLocal`, given the order of the value. -/
theorem order_setLocal {base : Nat} {st st1 : LowerInt64} {i : Nat} {t : WasmType}
    {n : Name} {v e1 : Expression} (hinv : FixesInv base st) (hid : i < base)
    (hv1 : GetHighFollowsCall st.fixes base v.evalOrder)
    (htail : ∀ f, find st.fixes v.id = some f → Placed base f → v.isCallBase = true)
    (hnodes : ∀ m ∈ v.evalOrder, m.id ≠ i ∧ m.id < st.allocator)
    (hnone : find st.fixes i = none)
    (hv : visitSetLocal st i t n v = Outcome.ok (st1, e1)) :
    GetHighFollowsCall st1.fixes base e1.evalOrder ∧
      ∀ f, find st1.fixes e1.id = some f → Placed base f → e1.isCallBase = true := by
  by_cases ht : t = WasmType.i64
  · subst ht
    rw [visitSetLocal_i64] at hv
    obtain ⟨hvne, hvlt⟩ := hnodes v (mem_evalOrder_self v)
    rw [find_value_fix _ _ _ _ hvne] at hv
    split at hv
    · simp at hv
    · next fix hfix =>
      simp only [Outcome.ok.injEq, Prod.mk.injEq] at hv
      obtain ⟨hst, he1⟩ := hv
      have hfixes : st1.fixes = assign (assign st.fixes i
          (Expression.GetLocal st.allocator WasmType.i32 (companion st n)))
          (st.allocator + 3)
          (Expression.GetLocal st.allocator WasmType.i32 (companion st n)) := by
        rw [← hst]
      have hframe : ∀ m ∈ v.evalOrder, find st1.fixes m.id = find st.fixes m.id := by
        intro m hm
        obtain ⟨h1, h2⟩ := hnodes m hm
        have h3 : st.allocator + 3 ≠ m.id := by omega
        rw [hfixes, find_assign_ne _ _ h3, find_assign_ne _ _ (fun h => h1 h.symm)]
      have hshape : IsFixup fix := (hinv.2 _ _ hfix).2.2.2.2
      constructor
      · rw [← he1]
        simp only [evalOrder, evalOrderList, hshape.evalOrder_single, List.append_nil]
        have e0 : v.evalOrder = evalOrderList v.children ++ v :: [] := evalOrder_eq v
        have hv2 : GetHighFollowsCall st1.fixes base
            (evalOrderList v.children ++ v ::
              [Expression.SetLocal i WasmType.i32 n v]) := by
          have := (hv1.of_find_eq hframe).append
            (@GetHighFollowsCall.single st1.fixes base
              (Expression.SetLocal i WasmType.i32 n v)
              (not_placed_of_lt (by simpa [Expression.id] using hid)))
          rw [e0] at this
          simpa using this
        have hv3 := @GetHighFollowsCall.snoc_fix st1.fixes base (evalOrderList v.children)
          [Expression.SetLocal i WasmType.i32 n v] v fix hv2
          (by simp [isCallBase])
          (fun hp => ⟨htail fix hfix hp, by
            rw [hframe v (mem_evalOrder_self v)]; exact hfix⟩)
        have hrest : GetHighFollowsCall st1.fixes base
            [Expression.SetLocal (st.allocator + 1) WasmType.i32 (companion st n) fix,
             Expression.GetLocal (st.allocator + 2) WasmType.i32 n,
             Expression.Block (st.allocator + 3) WasmType.i32
               [Expression.SetLocal i WasmType.i32 n v,
                Expression.SetLocal (st.allocator + 1) WasmType.i32 (companion st n) fix,
                Expression.GetLocal (st.allocator + 2) WasmType.i32 n]] := by
          refine @GetHighFollowsCall.append _ _ [_] [_, _]
            (GetHighFollowsCall.single (fun hp => ?_))
            (@GetHighFollowsCall.append _ _ [_] [_]
              (GetHighFollowsCall.single (fun hp => ?_))
              (GetHighFollowsCall.single (fun hp => ?_)))
          · have := hp.2; simp at this
          · have := hp.2; simp at this
          · have := hp.2; simp at this
        have := hv3.append hrest
        rw [e0]
        simpa using this
      · intro f hf hp
        rw [← he1, hfixes] at hf
        simp only [Expression.id, find_assign_self, Option.some.injEq] at hf
        rw [← hf] at hp
        have := hp.2
        simp at this
  · rw [visitSetLocal_other _ _ _ _ _ ht] at hv
    simp only [Outcome.ok.injEq, Prod.mk.injEq] at hv
    obtain ⟨hst, he1⟩ := hv
    subst hst
    rw [← he1]
    constructor
    · simp only [evalOrder]
      exact hv1.append
        (GetHighFollowsCall.single (not_placed_of_lt (by simpa [Expression.id] using hid)))
    · intro f hf
      simp only [Expression.id] at hf
      rw [hnone] at hf
      cases hf

/-- The order of evaluation after a walk.  In a state with the invariant, on a
tree of distinct nodes that existed before the run and have no entry yet, the
resulting tree evaluates every call of `getHigh` made by the pass after the
call node it is the fixup of, and a node whose fixup is such a call is a call
node. -/
theorem walk_order (base fuel : Nat) :
    ∀ e st st1 e1, walk fuel st e = Outcome.ok (st1, e1) →
      FixesInv base st → (∀ n ∈ e.evalOrder, n.id < base) →
      (e.evalOrder.map Expression.id).Nodup →
      (∀ n ∈ e.evalOrder, find st.fixes n.id = none) →
      GetHighFollowsCall st1.fixes base e1.evalOrder ∧
        ∀ v, find st1.fixes e1.id = some v → Placed base v → e1.isCallBase = true := by
  refine walk_induction fuel
    (fun st e st1 e1 => FixesInv base st → (∀ n ∈ e.evalOrder, n.id < base) →
      (e.evalOrder.map Expression.id).Nodup →
      (∀ n ∈ e.evalOrder, find st.fixes n.id = none) →
      GetHighFollowsCall st1.fixes base e1.evalOrder ∧
        ∀ v, find st1.fixes e1.id = some v → Placed base v → e1.isCallBase = true)
    (fun st cs st1 cs1 => FixesInv base st → (∀ n ∈ evalOrderList cs, n.id < base) →
      ((evalOrderList cs).map Expression.id).Nodup →
      (∀ n ∈ evalOrderList cs, find st.fixes n.id = none) →
      ∀ c1 ∈ cs1, GetHighFollowsCall st1.fixes base c1.evalOrder ∧
        ∀ v, find st1.fixes c1.id = some v → Placed base v → c1.isCallBase = true)
    ?_ ?_ ?_
  · intro st _ _ _ _ c1 hc1
    cases hc1
  · intro st c cs st1 c1 st2 cs1 hw hwl hc hcs hinv hids hnodup hpre
    simp only [evalOrderList, List.mem_append, List.map_append] at hids hnodup hpre
    have hidsc : ∀ n ∈ c.evalOrder, n.id < base := fun n hn => hids n (Or.inl hn)
    have hidscs : ∀ n ∈ evalOrderList cs, n.id < base := fun n hn => hids n (Or.inr hn)
    obtain ⟨hnd1, hnd2, hdisj⟩ := List.nodup_append.1 hnodup
    have hdisj1 : ∀ m ∈ c.evalOrder, ∀ n ∈ evalOrderList cs, n.id ≠ m.id := by
      intro m hm n hn heq
      exact hdisj (List.mem_map_of_mem _ hm) (by rw [← heq]; exact List.mem_map_of_mem _ hn)
    obtain ⟨hinv1, hle1, hfr1, hn1⟩ := walk_frame base fuel c st st1 c1 hw hinv hidsc
    obtain ⟨hinv2, hle2, hfr2, hn2⟩ :=
      walkList_frame base fuel cs st1 st2 cs1 hwl hinv1 hidscs
    have hb := hinv.1
    have hpre1 : ∀ n ∈ evalOrderList cs, find st1.fixes n.id = none := by
      intro n hn
      rw [hfr1 n.id (by have := hidscs n hn; omega)
        (fun m hm heq => hdisj1 m hm n hn heq.symm)]
      exact hpre n (Or.inr hn)
    obtain ⟨ho, ht⟩ := hc hinv hidsc hnd1 (fun n hn => hpre n (Or.inl hn))
    have hrest := hcs hinv1 hidscs hnd2 hpre1
    have hkeep : ∀ m ∈ c1.evalOrder, find st2.fixes m.id = find st1.fixes m.id := by
      intro m hm
      rcases hn1 m hm with ⟨m1, hm1, hid1⟩ | ⟨h1, h2⟩
      · refine hfr2 m.id (by have := hidsc m1 hm1; omega) ?_
        intro n hn heq
        exact hdisj1 m1 hm1 n hn (heq.trans hid1.symm)
      · refine hfr2 m.id h2 ?_
        intro n hn heq
        have := hidscs n hn
        omega
    intro x hx
    rcases List.mem_cons.1 hx with rfl | hx
    · refine ⟨ho.of_find_eq hkeep, ?_⟩
      rw [hkeep x (mem_evalOrder_self x)]
      exact ht
    · exact hrest x hx
  · intro st e st1 cs1 st2 e1 hwl hcs hlen hv hinv hids hnodup hpre
    rw [evalOrder_eq] at hids hnodup hpre
    simp only [List.mem_append, List.mem_singleton, List.map_append, List.map_cons,
      List.map_nil] at hids hnodup hpre
    have hidsL : ∀ n ∈ evalOrderList e.children, n.id < base :=
      fun n hn => hids n (Or.inl hn)
    have hide : e.id < base := hids e (Or.inr rfl)
    obtain ⟨hnd1, _, hdisj⟩ := List.nodup_append.1 hnodup
    have hne : ∀ n ∈ evalOrderList e.children, n.id ≠ e.id := by
      intro n hn heq
      exact hdisj (List.mem_map_of_mem _ hn) (by simp [heq])
    obtain ⟨hinv1, hle1, hfr1, hn1⟩ :=
      walkList_frame base fuel e.children st st1 cs1 hwl hinv hidsL
    have hb := hinv.1
    have hch := hcs hinv hidsL hnd1 (fun n hn => hpre n (Or.inl hn))
    have hnone : find st1.fixes e.id = none := by
      rw [hfr1 e.id (by omega) hne]
      exact hpre e (Or.inr rfl)
    have hnodes : ∀ c ∈ cs1, ∀ m ∈ c.evalOrder, m.id ≠ e.id ∧ m.id < st1.allocator := by
      intro c hc m hm
      rcases hn1 m (mem_evalOrderList.2 ⟨c, hc, hm⟩) with ⟨m1, hm1, hid1⟩ | ⟨h1, h2⟩
      · exact ⟨by rw [← hid1]; exact hne m1 hm1, by have := hidsL m1 hm1; omega⟩
      · exact ⟨by omega, h2⟩
    have hchildren := children_withChildren e cs1 hlen
    have hpass : st2 = st1 → e1 = e.withChildren cs1 → e.isCallBase = false →
        GetHighFollowsCall st2.fixes base e1.evalOrder ∧
          ∀ v, find st2.fixes e1.id = some v → Placed base v → e1.isCallBase = true := by
      intro h1 h2 _
      subst h1 h2
      constructor
      · rw [evalOrder_eq, hchildren]
        exact (GetHighFollowsCall.list (fun c hc => (hch c hc).1)).append
          (GetHighFollowsCall.single (not_placed_of_lt (by simpa using hide)))
      · intro v hf
        rw [withChildren_id, hnone] at hf
        cases hf
    by_cases hcall : e.isCallBase = true
    · have hcall1 : (e.withChildren cs1).isCallBase = true := by
        rw [withChildren_isCallBase]; exact hcall
      rw [visit_callBase _ _ _ hcall1] at hv
      obtain ⟨h1, h2⟩ := order_fixCall hinv1 hcall1 (by simpa using hide)
        (by rw [hchildren]; exact hch)
        (by rw [hchildren, withChildren_id]; exact hnodes) hv
      exact ⟨h1, fun _ _ _ => h2⟩
    · cases e with
      | Call i t n os => simp [isCallBase] at hcall
      | CallImport i t n os => simp [isCallBase] at hcall
      | CallIndirect i t g os => simp [isCallBase] at hcall
      | GetLocal i t n =>
        have hcs1 : cs1 = [] := List.eq_nil_of_length_eq_zero (by simpa [children] using hlen)
        subst hcs1
        simp only [withChildren, LowerInt64.visit, Outcome.ok.injEq] at hv
        by_cases ht : t = WasmType.i64
        · subst ht
          rw [visitGetLocal_i64] at hv
          obtain ⟨hst, he1⟩ := Prod.mk.inj hv
          rw [← he1, ← hst]
          constructor
          · simp only [evalOrder]
            exact GetHighFollowsCall.single (not_placed_of_lt (by simpa using hide))
          · intro v hf hp
            simp only [Expression.id, find_assign_self, Option.some.injEq] at hf
            rw [← hf] at hp
            have := hp.2
            simp at this
        · rw [visitGetLocal_other _ _ _ _ ht] at hv
          obtain ⟨hst, he1⟩ := Prod.mk.inj hv
          exact hpass hst.symm he1.symm rfl
      | SetLocal i t n v =>
        obtain ⟨c, rfl⟩ : ∃ c, cs1 = [c] := by
          cases cs1 with
          | nil => simp [children] at hlen
          | cons c cs1 =>
            cases cs1 with
            | nil => exact ⟨c, rfl⟩
            | cons d ds => simp [children] at hlen
        simp only [withChildren, LowerInt64.visit] at hv
        exact order_setLocal hinv1 (by simpa using hide) (hch c (by simp)).1
          (hch c (by simp)).2 (by simpa using hnodes c (by simp)) (by simpa using hnone) hv
      | Block i t l =>
        simp only [withChildren, LowerInt64.visit, Outcome.ok.injEq, Prod.mk.injEq] at hv
        exact hpass hv.1.symm hv.2.symm rfl
      | Other i t k cs =>
        simp only [withChildren, LowerInt64.visit, Outcome.ok.injEq, Prod.mk.injEq] at hv
        exact hpass hv.1.symm hv.2.symm rfl

/-- C9: in the evaluation order of the tree that a walk leaves, every call of
`getHigh` made by the pass comes after the call node whose fixup it is, and no
call node is evaluated between the two.  The walk is that of a tree of distinct
nodes that existed before the run and have not been visited yet. -/
theorem walk_getHigh_follows_call (base fuel : Nat) (st : LowerInt64) (e : Expression)
    (st1 : LowerInt64) (e1 : Expression) (hr : Reachable base st)
    (hids : ∀ n ∈ e.evalOrder, n.id < base)
    (hnodup : (e.evalOrder.map Expression.id).Nodup)
    (hnew : ∀ n ∈ e.evalOrder, find st.fixes n.id = none)
    (hw : walk fuel st e = Outcome.ok (st1, e1)) :
    GetHighFollowsCall st1.fixes base e1.evalOrder :=
  (walk_order base fuel e st st1 e1 hw hr.fixesInv hids hnodup hnew).1

theorem walk_getHigh_follows_call_witness :
    ∃ st1, walk 7 (start 100 sampleNamer) sampleBody = Outcome.ok (st1, sampleLowered) ∧
      GetHighFollowsCall st1.fixes 100 sampleLowered.evalOrder :=
  ⟨_, rfl,
   walk_getHigh_follows_call 100 7 (start 100 sampleNamer) sampleBody _ sampleLowered
    (Reachable.start 100 sampleNamer (Nat.le_refl 100)) (by decide) (by decide)
    (fun _ _ => rfl) rfl⟩

/-! ## Preservation of values -/

theorem concatWords_words (v : Nat) : concatWords (lowWord v) (highWord v) = v := by
  unfold concatWords lowWord highWord
  rw [Nat.mul_comm]
  exact Nat.div_add_mod v (2 ^ 32)

theorem Extends.trans {a b c : List (Name × Name)} (h1 : Extends a b) (h2 : Extends b c) :
    Extends a c := fun x k h => h2 x k (h1 x k h)

theorem Extends.refl (a : List (Name × Name)) : Extends a a := fun _ _ h => h

theorem FixupOver.of_extends {a b : List (Name × Name)} {h : Expression} (hf : FixupOver a h)
    (hab : Extends a b) : FixupOver b h := by
  rcases hf with hf | ⟨x, c, hx, hf⟩
  · exact Or.inl hf
  · exact Or.inr ⟨x, c, hab x c hx, hf⟩

theorem RegistryFits.child {registry : List (Name × Name)} {e c : Expression}
    (h : RegistryFits registry e) (hc : c ∈ e.children) : RegistryFits registry c :=
  ⟨h.1, fun n hn => h.2 n (mem_evalOrder_of_child hc hn)⟩

theorem Preserves.of_later {W : Type} {callee : Name → List Nat → W → Nat × W} {table : Nat → Name}
    {fixes fixes1 : List (Nat × Expression)} {locals locals1 : List (Name × Name)}
    {e e1 : Expression} (h : Preserves callee table fixes locals e e1)
    (hf : find fixes1 e1.id = find fixes e1.id) (hl : Extends locals locals1) :
    Preserves callee table fixes1 locals1 e e1 := by
  obtain ⟨fix, h1, h2, h3⟩ := h
  exact ⟨fix, by rw [hf, h1], h2.of_extends hl, fun L hL => h3 L (hl.trans hL)⟩

/-- A fixup has no effect, and it reads nothing that a write of a local of the
program changes. -/
theorem FixupOver.eval_update {W : Type} (callee : Name → List Nat → W → Nat × W)
    (table : Nat → Name)
    {locals registry : List (Name × Name)} {h : Expression} (hf : FixupOver locals h)
    (hext : Extends locals registry) (x : Name)
    (hx : ∀ y c, find registry y = some c → c ≠ x) (t : NarrowState W) (a : Nat) :
    evalNarrow callee table h { t with locals := fun y => if y = x then a else t.locals y } =
      ((evalNarrow callee table h t).1,
        { t with locals := fun y => if y = x then a else t.locals y }) := by
  rcases hf with hf | ⟨y, c, hy, hf⟩
  · rw [hf]; simp [evalNarrow]
  · rw [hf]
    have := hx y c (hext y c hy)
    simp [evalNarrow, this]

/-- The locals registry only grows along a walk. -/
theorem walk_locals_extends (fuel : Nat) (e : Expression) (st st1 : LowerInt64)
    (e1 : Expression) (hw : walk fuel st e = Outcome.ok (st1, e1)) :
    Extends st.locals st1.locals :=
  (walk_preserves fuel (fun s => Extends st.locals s.locals) (fun _ => True)
    (fun _ _ _ _ hI _ hv => ⟨fun x c hx => visit_locals_stable hv x c (hI x c hx), trivial⟩)
    e st st1 e1 (Extends.refl _) hw).1

theorem walkList_locals_extends (fuel : Nat) (cs : List Expression) (st st1 : LowerInt64)
    (cs1 : List Expression) (hw : walkList fuel st cs = Outcome.ok (st1, cs1)) :
    Extends st.locals st1.locals :=
  (walkList_preserves fuel (fun s => Extends st.locals s.locals) (fun _ => True) cs
    (fun c _ s s1 c1 hI hwc =>
      ⟨hI.trans (walk_locals_extends fuel c s s1 c1 hwc), trivial⟩)
    st st1 cs1 (Extends.refl _) hw).1

/-- Evaluation of a widened operand list whose operands carry the values of the
operands of the call before lowering. -/
theorem evalNarrowList_widened {W : Type} (callee : Name → List Nat → W → Nat × W)
    (table : Nat → Name)
    (fixes : List (Nat × Expression)) (locals registry : List (Name × Name))
    (hext : Extends locals registry) :
    ∀ (cs cs1 : List Expression), List.Forall₂ (Preserves callee table fixes locals) cs cs1 →
      (∀ c ∈ cs, RegistryFits registry c) →
      ∀ s t, Related registry s t →
        pairUp (evalNarrowList callee table (widened fixes cs1) t).1 =
            (evalWideList callee table cs s).1 ∧
          Related registry (evalWideList callee table cs s).2
            (evalNarrowList callee table (widened fixes cs1) t).2 := by
  intro cs cs1 hall
  induction hall with
  | nil =>
    intro _ s t hrel
    simpa [widened, evalNarrowList, evalWideList, pairUp] using hrel
  | @cons c c1 cs cs1 hc _ ih =>
    intro hfit s t hrel
    obtain ⟨h, hfind, _, hsim⟩ := hc
    obtain ⟨hlow, hhigh, hrel1⟩ :=
      hsim registry hext (hfit c (List.mem_cons_self _ _)) s t hrel
    obtain ⟨hvals, hrel2⟩ := ih (fun d hd => hfit d (List.mem_cons_of_mem _ hd))
      (evalWide callee table c s).2 (evalNarrow callee table c1 t).2 hrel1
    simp only [widened, hfind, evalNarrowList, evalWideList, hhigh, hlow, pairUp,
      concatWords_words]
    exact ⟨by rw [hvals], hrel2⟩
theorem extends_registered (st : LowerInt64) (name : Name) :
    Extends st.locals (registered st name).locals :=
  fun x c hx => registered_locals_stable st name x c hx

/-- A wide read, once visited, carries the value of the read. -/
theorem preserves_getLocal {W : Type} (callee : Name → List Nat → W → Nat × W) (table : Nat → Name)
    (st : LowerInt64) (i : Nat) (x : Name) :
    Preserves callee table (visitGetLocal st i WasmType.i64 x).1.fixes
      (visitGetLocal st i WasmType.i64 x).1.locals
      (Expression.GetLocal i WasmType.i64 x) (visitGetLocal st i WasmType.i64 x).2 := by
  rw [visitGetLocal_i64]
  refine ⟨Expression.GetLocal st.allocator WasmType.i32 (companion st x),
    by simp [Expression.id, find_assign_self],
    Or.inr ⟨x, companion st x, find_registered st x, rfl⟩, ?_⟩
  intro L hext hfit s t hrel
  have hx : ∀ y c, find L y = some c → c ≠ x :=
    fun y c => hfit.2 _ (mem_evalOrder_self _) x y c rfl
  refine ⟨?_, ?_, ?_⟩
  · simpa [evalNarrow, evalWide] using hrel.2.1 x hx
  · have := hrel.2.2 x (companion st x) (hext x _ (find_registered st x))
    simp [evalNarrow, evalWide, this]
  · simpa [evalNarrow, evalWide] using hrel

/-- A call, once its operands carry the values of the operands before lowering
and it has been visited, carries the value of the call. -/
theorem preserves_call {W : Type} (callee : Name → List Nat → W → Nat × W) (table : Nat → Name)
    {base fuel : Nat} {st st1 : LowerInt64} (hinv : FixesInv base st) (e : Expression)
    (cs1 : List Expression) (e1 : Expression)
    (hkind : (∃ i f os, e = Expression.Call i WasmType.i64 f os) ∨
      ∃ i f os, f ≠ GET_HIGH ∧ e = Expression.CallImport i WasmType.i64 f os)
    (hlen : cs1.length = e.children.length)
    (hch : List.Forall₂ (Preserves callee table st.fixes st.locals) e.children cs1)
    (hv : visit fuel st (e.withChildren cs1) = Outcome.ok (st1, e1)) :
    Preserves callee table st1.fixes st1.locals e e1 := by
  have hcall : (e.withChildren cs1).isCallBase = true := by
    rcases hkind with ⟨i, f, os, rfl⟩ | ⟨i, f, os, _, rfl⟩ <;> rfl
  rw [visit_callBase _ _ _ hcall] at hv
  obtain ⟨ops, hops, hcase⟩ := fixCall_eq_ok hv
  have hops1 := hinv.fixOperands_eq hops
  have htype : (e.withChildren cs1).type = WasmType.i64 := by
    rcases hkind with ⟨i, f, os, rfl⟩ | ⟨i, f, os, _, rfl⟩ <;> rfl
  rcases hcase with ⟨_, hst, he1⟩ | ⟨hne, _, _⟩
  swap
  · exact absurd htype hne
  have hfixes : st1.fixes = assign st.fixes e.id
      (Expression.CallImport st.allocator WasmType.i32 GET_HIGH []) := by
    rw [hst, withChildren_id]
  have hlocals : st1.locals = st.locals := by rw [hst]
  have hid : e1.id = e.id := by rw [he1]; simp
  refine ⟨Expression.CallImport st.allocator WasmType.i32 GET_HIGH [],
    by rw [hfixes, hid, find_assign_self], Or.inl rfl, ?_⟩
  intro L hext hfit s t hrel
  rw [hlocals] at hext
  have hlist := evalNarrowList_widened callee table st.fixes st.locals L hext e.children cs1 hch
    (fun c hc => hfit.child hc) s t hrel
  have hget : ∀ u : NarrowState W,
      evalNarrow callee table (Expression.CallImport st.allocator WasmType.i32 GET_HIGH []) u =
        (u.high, u) := by
    intro u; simp [evalNarrow]
  rcases hkind with ⟨i, f, os, rfl⟩ | ⟨i, f, os, hf, rfl⟩
  · simp only [children] at hlist
    simp only [withChildren, operands] at hops1
    obtain ⟨hvals, hrel1⟩ := hlist
    rw [he1, hops1, hget]
    simp only [withChildren, setOperands, setType, evalNarrow, evalWide, hvals,
      ← hrel1.1]
    exact ⟨trivial, trivial, rfl, hrel1.2⟩
  · simp only [children] at hlist
    simp only [withChildren, operands] at hops1
    obtain ⟨hvals, hrel1⟩ := hlist
    rw [he1, hops1, hget]
    simp only [withChildren, setOperands, setType, evalNarrow, evalWide, hvals,
      ← hrel1.1, if_neg hf]
    exact ⟨trivial, trivial, rfl, hrel1.2⟩

/-- A wide write, once its value carries the value before lowering and it has
been visited, carries the value of the write: the block yields the low word and
leaves the high word in the companion. -/
theorem preserves_setLocal {W : Type} (callee : Name → List Nat → W → Nat × W) (table : Nat → Name)
    {st st1 : LowerInt64} (i : Nat) (x : Name) (v v1 e1 : Expression)
    (hne : v1.id ≠ i)
    (hch : Preserves callee table st.fixes st.locals v v1)
    (hv : visitSetLocal st i WasmType.i64 x v1 = Outcome.ok (st1, e1)) :
    Preserves callee table st1.fixes st1.locals (Expression.SetLocal i WasmType.i64 x v) e1 := by
  obtain ⟨fix, hfix, hshape, hsim⟩ := hch
  rw [visitSetLocal_i64, find_value_fix _ _ _ _ hne, hfix] at hv
  simp only [Outcome.ok.injEq, Prod.mk.injEq] at hv
  obtain ⟨hst, he1⟩ := hv
  have hlocals : st1.locals = (registered st x).locals := by rw [← hst]
  refine ⟨Expression.GetLocal st.allocator WasmType.i32 (companion st x),
    by rw [← hst, ← he1]; simp [Expression.id, find_assign_self],
    Or.inr ⟨x, companion st x, by rw [hlocals]; exact find_registered st x, rfl⟩, ?_⟩
  intro L hext hfit s t hrel
  rw [hlocals] at hext
  have hext0 : Extends st.locals L := (extends_registered st x).trans hext
  have hx : ∀ y c, find L y = some c → c ≠ x :=
    fun y c => hfit.2 _ (mem_evalOrder_self _) x y c rfl
  have hH : find L x = some (companion st x) := hext x _ (find_registered st x)
  have hHx : companion st x ≠ x := hx x _ hH
  obtain ⟨hlow, hhigh, hrel1⟩ :=
    hsim L hext0 (hfit.child (by simp [children])) s t hrel
  have hfixeval := hshape.eval_update callee table hext0 x hx (evalNarrow callee table v1 t).2
    (evalNarrow callee table v1 t).1
  rw [hhigh] at hfixeval
  rw [← he1]
  simp only [evalNarrow, evalNarrowList, evalWide, hfixeval, List.getLastD_cons,
    List.getLastD_nil, if_true]
  refine ⟨by simp [hHx.symm, hlow], by simp, hrel1.1, ?_, ?_⟩
  · intro z hz
    have hzH : z ≠ companion st x := fun h => hz x _ (by rw [← h] at hH; exact hH) rfl
    by_cases hzx : z = x
    · simp [hzx, hHx.symm, hlow]
    · simpa [hzH, hzx] using hrel1.2.1 z hz
  · intro z c hzc
    by_cases hzx : z = x
    · subst hzx
      rw [hH] at hzc
      simp only [Option.some.injEq] at hzc
      subst hzc
      simp
    · have hcH : c ≠ companion st x := fun h => hzx (hfit.1 z x c hzc (by rw [h]; exact hH))
      have hcx : c ≠ x := hx z c hzc
      simpa [hcH, hcx, hzx] using hrel1.2.2 z c hzc

theorem isWideBody_of_isWideExpr (e : Expression) (h : isWideExpr e = true) :
    isWideBody e = true := by
  cases e with
  | Block i t l => simp [isWideExpr] at h
  | Other i t k cs => simp [isWideExpr] at h
  | Call i t f os => simpa [isWideBody] using h
  | CallImport i t f os => simpa [isWideBody] using h
  | CallIndirect i t g os => simpa [isWideBody] using h
  | GetLocal i t n => simpa [isWideBody] using h
  | SetLocal i t n v => simpa [isWideBody] using h

theorem Preserves.simulates {W : Type} {callee : Name → List Nat → W → Nat × W}
    {table : Nat → Name} {fixes : List (Nat × Expression)} {locals : List (Name × Name)}
    {e e1 : Expression} (h : Preserves callee table fixes locals e e1) :
    Simulates callee table locals e e1 := by
  obtain ⟨_, _, _, hsim⟩ := h
  intro L hL hfit s t hrel
  exact ⟨(hsim L hL hfit s t hrel).1, (hsim L hL hfit s t hrel).2.2⟩

theorem lowWord_getLastD (vs : List Nat) (d : Nat) :
    lowWord (vs.getLastD d) = (vs.map lowWord).getLastD (lowWord d) := by
  induction vs generalizing d with
  | nil => rfl
  | cons v vs ih =>
    rw [List.getLastD_cons, List.map_cons, List.getLastD_cons]
    exact ih v

theorem lowWord_lowWord (v : Nat) : lowWord (lowWord v) = lowWord v := by
  simp [lowWord]

/-- The walk leaves a target of the class of `isNarrowLeaf` as it is. -/
theorem walk_narrowLeaf (fuel : Nat) (st : LowerInt64) (g : Expression)
    (h : isNarrowLeaf g = true) : walk fuel st g = Outcome.ok (st, g) := by
  cases g with
  | GetLocal i t n =>
    simp only [isNarrowLeaf, decide_eq_true_eq] at h
    subst h
    simp [walk, LowerInt64.visit, visitGetLocal]
  | Other i t k cs =>
    cases k <;> cases cs <;> simp [isNarrowLeaf] at h
    simp [walk, walkList, Outcome.bind, LowerInt64.visit]
  | Call i t f os => simp [isNarrowLeaf] at h
  | CallImport i t f os => simp [isNarrowLeaf] at h
  | CallIndirect i t g os => simp [isNarrowLeaf] at h
  | SetLocal i t n v => simp [isNarrowLeaf] at h
  | Block i t l => simp [isNarrowLeaf] at h

/-- A target of the class of `isNarrowLeaf` selects the same entry of the
function table in related states, and has no effect. -/
theorem eval_narrowLeaf {W : Type} (callee : Name → List Nat → W → Nat × W)
    (table : Nat → Name) (g : Expression) (h : isNarrowLeaf g = true)
    (registry : List (Name × Name)) (hfit : RegistryFits registry g)
    (s : WideState W) (t : NarrowState W) (hrel : Related registry s t) :
    lowWord (evalNarrow callee table g t).1 = lowWord (evalWide callee table g s).1 ∧
      (evalWide callee table g s).2 = s ∧ (evalNarrow callee table g t).2 = t := by
  cases g with
  | GetLocal i t n =>
    have hx : ∀ y c, find registry y = some c → c ≠ n :=
      fun y c => hfit.2 _ (mem_evalOrder_self _) n y c rfl
    simp only [evalNarrow, evalWide, hrel.2.1 n hx, lowWord_lowWord, and_self]
  | Other i t k cs => simp [evalNarrow, evalWide]
  | Call i t f os => simp [isNarrowLeaf] at h
  | CallImport i t f os => simp [isNarrowLeaf] at h
  | CallIndirect i t g os => simp [isNarrowLeaf] at h
  | SetLocal i t n v => simp [isNarrowLeaf] at h
  | Block i t l => simp [isNarrowLeaf] at h

/-- An indirect call, once its operands carry the values of the operands before
lowering and it has been visited, carries the value of the call. -/
theorem preserves_callIndirect {W : Type} (callee : Name → List Nat → W → Nat × W)
    (table : Nat → Name)
    {base fuel : Nat} {st st1 : LowerInt64} (hinv : FixesInv base st) (i : Nat)
    (g : Expression) (os os1 : List Expression) (e1 : Expression)
    (hg : isNarrowLeaf g = true)
    (hch : List.Forall₂ (Preserves callee table st.fixes st.locals) os os1)
    (hv : visit fuel st (Expression.CallIndirect i WasmType.i64 g os1) =
      Outcome.ok (st1, e1)) :
    Preserves callee table st1.fixes st1.locals
      (Expression.CallIndirect i WasmType.i64 g os) e1 := by
  rw [visit_callBase fuel st (Expression.CallIndirect i WasmType.i64 g os1) rfl] at hv
  obtain ⟨ops, hops, hcase⟩ := fixCall_eq_ok hv
  have hops1 := hinv.fixOperands_eq hops
  rcases hcase with ⟨_, hst, he1⟩ | ⟨hne, _, _⟩
  swap
  · exact absurd rfl hne
  have hfixes : st1.fixes = assign st.fixes i
      (Expression.CallImport st.allocator WasmType.i32 GET_HIGH []) := by
    rw [hst]; rfl
  have hlocals : st1.locals = st.locals := by rw [hst]
  have hid : e1.id = i := by rw [he1]; rfl
  refine ⟨Expression.CallImport st.allocator WasmType.i32 GET_HIGH [],
    by rw [hfixes, hid, find_assign_self], Or.inl rfl, ?_⟩
  intro L hext hfit s t hrel
  rw [hlocals] at hext
  obtain ⟨hidx, hs, ht⟩ := eval_narrowLeaf callee table g hg L
    (hfit.child (by simp [children])) s t hrel
  have hlist := evalNarrowList_widened callee table st.fixes st.locals L hext os os1 hch
    (fun c hc => hfit.child (by simp [children, hc])) s t hrel
  have hget : ∀ u : NarrowState W,
      evalNarrow callee table (Expression.CallImport st.allocator WasmType.i32 GET_HIGH []) u =
        (u.high, u) := by
    intro u; simp [evalNarrow]
  simp only [operands] at hops1
  obtain ⟨hvals, hrel1⟩ := hlist
  rw [he1, hops1, hget]
  simp only [setOperands, setType, evalNarrow, evalWide, hvals, hidx, hs, ht,
    ← hrel1.1]
  exact ⟨trivial, trivial, rfl, hrel1.2⟩

/-- A block whose elements run as those of the block before lowering runs as
that block does. -/
theorem simulates_block {W : Type} (callee : Name → List Nat → W → Nat × W)
    (table : Nat → Name) (locals : List (Name × Name)) (i : Nat) (ty : WasmType)
    (l l1 : List Expression) (h : SimulatesList callee table locals l l1) :
    Simulates callee table locals (Expression.Block i ty l) (Expression.Block i ty l1) := by
  intro L hL hfit s t hrel
  obtain ⟨hvals, hrel1⟩ := h L hL (fun c hc => hfit.child (by simpa [children] using hc))
    s t hrel
  simp only [evalNarrow, evalWide, hvals]
  exact ⟨by rw [lowWord_getLastD]; rfl, hrel1⟩

/-- Preservation of values along a walk.  In a state with the invariant, a tree
of distinct, not yet visited nodes is lowered to a tree that carries its value
when it is a read, a write or a call of the class of `isWideExpr`, and to a tree
that runs as it does when it is a body of the class of `isWideBody`. -/
theorem walk_carries {W : Type} (callee : Name → List Nat → W → Nat × W)
    (table : Nat → Name) (base fuel : Nat) :
    ∀ e st st1 e1, walk fuel st e = Outcome.ok (st1, e1) →
      FixesInv base st → (∀ n ∈ e.evalOrder, n.id < base) →
      (e.evalOrder.map Expression.id).Nodup →
      (∀ n ∈ e.evalOrder, find st.fixes n.id = none) →
      (isWideExpr e = true → Preserves callee table st1.fixes st1.locals e e1) ∧
      (isWideBody e = true → Simulates callee table st1.locals e e1) := by
  refine walk_induction fuel
    (fun st e st1 e1 => FixesInv base st → (∀ n ∈ e.evalOrder, n.id < base) →
      (e.evalOrder.map Expression.id).Nodup →
      (∀ n ∈ e.evalOrder, find st.fixes n.id = none) →
      (isWideExpr e = true → Preserves callee table st1.fixes st1.locals e e1) ∧
      (isWideBody e = true → Simulates callee table st1.locals e e1))
    (fun st cs st1 cs1 => FixesInv base st → (∀ n ∈ evalOrderList cs, n.id < base) →
      ((evalOrderList cs).map Expression.id).Nodup →
      (∀ n ∈ evalOrderList cs, find st.fixes n.id = none) →
      (isWideExprList cs = true →
        List.Forall₂ (Preserves callee table st1.fixes st1.locals) cs cs1) ∧
      (isWideBodyList cs = true → SimulatesList callee table st1.locals cs cs1) ∧
      (∀ g os, cs = g :: os → isNarrowLeaf g = true → isWideExprList os = true →
        ∃ os1, cs1 = g :: os1 ∧
          List.Forall₂ (Preserves callee table st1.fixes st1.locals) os os1))
    ?_ ?_ ?_
  · intro st _ _ _ _
    refine ⟨fun _ => List.Forall₂.nil, fun _ => ?_, fun g os h => by cases h⟩
    intro L _ _ s t hrel
    exact ⟨rfl, hrel⟩
  · intro st c cs st1 c1 st2 cs1 hw hwl hc hcs hinv hids hnodup hpre
    simp only [evalOrderList, List.mem_append, List.map_append] at hids hnodup hpre
    have hidsc : ∀ n ∈ c.evalOrder, n.id < base := fun n hn => hids n (Or.inl hn)
    have hidscs : ∀ n ∈ evalOrderList cs, n.id < base := fun n hn => hids n (Or.inr hn)
    obtain ⟨hnd1, hnd2, hdisj⟩ := List.nodup_append.1 hnodup
    have hdisj1 : ∀ m ∈ c.evalOrder, ∀ n ∈ evalOrderList cs, n.id ≠ m.id := by
      intro m hm n hn heq
      exact hdisj (List.mem_map_of_mem _ hm) (by rw [← heq]; exact List.mem_map_of_mem _ hn)
    obtain ⟨hinv1, hle1, hfr1, hn1⟩ := walk_frame base fuel c st st1 c1 hw hinv hidsc
    obtain ⟨hinv2, hle2, hfr2, hn2⟩ :=
      walkList_frame base fuel cs st1 st2 cs1 hwl hinv1 hidscs
    have hb := hinv.1
    have hpre1 : ∀ n ∈ evalOrderList cs, find st1.fixes n.id = none := by
      intro n hn
      rw [hfr1 n.id (by have := hidscs n hn; omega)
        (fun m hm heq => hdisj1 m hm n hn heq.symm)]
      exact hpre n (Or.inr hn)
    have hkeep : find st2.fixes c1.id = find st1.fixes c1.id := by
      rcases hn1 c1 (mem_evalOrder_self c1) with ⟨m1, hm1, hid1⟩ | ⟨h1, h2⟩
      · refine hfr2 c1.id (by have := hidsc m1 hm1; omega) ?_
        intro n hn heq
        exact hdisj1 m1 hm1 n hn (heq.trans hid1.symm)
      · refine hfr2 c1.id h2 ?_
        intro n hn heq
        have := hidscs n hn
        omega
    have hextL := walkList_locals_extends fuel cs st1 st2 cs1 hwl
    have hc1 := hc hinv hidsc hnd1 (fun n hn => hpre n (Or.inl hn))
    have hcs1 := hcs hinv1 hidscs hnd2 hpre1
    refine ⟨?_, ?_, ?_⟩
    · intro hclass
      simp only [isWideExprList, Bool.and_eq_true] at hclass
      exact List.Forall₂.cons ((hc1.1 hclass.1).of_later hkeep hextL) (hcs1.1 hclass.2)
    · intro hclass
      simp only [isWideBodyList, Bool.and_eq_true] at hclass
      intro L hL hfit s t hrel
      obtain ⟨hlow, hrel1⟩ := hc1.2 hclass.1 L (hextL.trans hL)
        (hfit c (List.mem_cons_self _ _)) s t hrel
      obtain ⟨hvals, hrel2⟩ := hcs1.2.1 hclass.2 L hL
        (fun d hd => hfit d (List.mem_cons_of_mem _ hd)) _ _ hrel1
      simp only [evalNarrowList, evalWideList, List.map_cons, hlow, hvals]
      exact ⟨trivial, hrel2⟩
    · intro g os hgos hg hos
      obtain ⟨rfl, rfl⟩ := List.cons.inj hgos
      rw [walk_narrowLeaf fuel st c hg] at hw
      simp only [Outcome.ok.injEq, Prod.mk.injEq] at hw
      obtain ⟨rfl, rfl⟩ := hw
      exact ⟨cs1, rfl, hcs1.1 hos⟩
  · intro st e st1 cs1 st2 e1 hwl hcs hlen hv hinv hids hnodup hpre
    rw [evalOrder_eq] at hids hnodup hpre
    simp only [List.mem_append, List.mem_singleton, List.map_append, List.map_cons,
      List.map_nil] at hids hnodup hpre
    have hidsL : ∀ n ∈ evalOrderList e.children, n.id < base :=
      fun n hn => hids n (Or.inl hn)
    obtain ⟨hnd1, _, hdisj⟩ := List.nodup_append.1 hnodup
    have hne : ∀ n ∈ evalOrderList e.children, n.id ≠ e.id := by
      intro n hn heq
      exact hdisj (List.mem_map_of_mem _ hn) (by simp [heq])
    obtain ⟨hinv1, hle1, hfr1, hn1⟩ :=
      walkList_frame base fuel e.children st st1 cs1 hwl hinv hidsL
    have hb := hinv.1
    have hnodes : ∀ c ∈ cs1, c.id ≠ e.id := by
      intro c hc
      rcases hn1 c (mem_evalOrderList.2 ⟨c, hc, mem_evalOrder_self c⟩) with
        ⟨m1, hm1, hid1⟩ | ⟨h1, h2⟩
      · rw [← hid1]; exact hne m1 hm1
      · have := hids e (Or.inr rfl); omega
    have hpreL : ∀ n ∈ evalOrderList e.children, find st.fixes n.id = none :=
      fun n hn => hpre n (Or.inl hn)
    have hall := hcs hinv hidsL hnd1 hpreL
    have hP : isWideExpr e = true → Preserves callee table st2.fixes st2.locals e e1 := by
      intro hclass
      cases e with
      | Call i t f os =>
        simp only [isWideExpr, Bool.and_eq_true, decide_eq_true_eq] at hclass
        obtain ⟨rfl, hos⟩ := hclass
        exact preserves_call callee table hinv1 _ cs1 e1 (Or.inl ⟨i, f, os, rfl⟩) hlen
          (hall.1 hos) hv
      | CallImport i t f os =>
        simp only [isWideExpr, Bool.and_eq_true, decide_eq_true_eq] at hclass
        obtain ⟨⟨rfl, hf⟩, hos⟩ := hclass
        exact preserves_call callee table hinv1 _ cs1 e1
          (Or.inr ⟨i, f, os, by simpa using hf, rfl⟩) hlen
          (hall.1 hos) hv
      | CallIndirect i t g os =>
        simp only [isWideExpr, Bool.and_eq_true, decide_eq_true_eq] at hclass
        obtain ⟨⟨rfl, hg⟩, hos⟩ := hclass
        obtain ⟨os1, rfl, hch⟩ := hall.2.2 g os rfl hg hos
        simp only [withChildren] at hv
        exact preserves_callIndirect callee table hinv1 i g os os1 e1 hg hch hv
      | GetLocal i t n =>
        simp only [isWideExpr, decide_eq_true_eq] at hclass
        subst hclass
        have hcs1 : cs1 = [] := List.eq_nil_of_length_eq_zero (by simpa [children] using hlen)
        subst hcs1
        simp only [withChildren, LowerInt64.visit, Outcome.ok.injEq] at hv
        have h1 : st2 = (visitGetLocal st1 i WasmType.i64 n).1 := by rw [hv]
        have h2 : e1 = (visitGetLocal st1 i WasmType.i64 n).2 := by rw [hv]
        rw [h1, h2]
        exact preserves_getLocal callee table st1 i n
      | SetLocal i t n v =>
        simp only [isWideExpr, Bool.and_eq_true, decide_eq_true_eq] at hclass
        obtain ⟨rfl, hvclass⟩ := hclass
        have hall1 := hall.1 (by simpa [children, isWideExprList] using hvclass)
        simp only [children] at hall1
        cases hall1 with
        | cons hc hrest =>
          cases hrest
          simp only [withChildren, LowerInt64.visit] at hv
          exact preserves_setLocal callee table i n v _ e1
            (by simpa [Expression.id] using hnodes _ (List.mem_cons_self _ _)) hc hv
      | Block i t l => simp [isWideExpr] at hclass
      | Other i t k cs => simp [isWideExpr] at hclass
    refine ⟨hP, ?_⟩
    intro hclass
    cases e with
    | Block i t l =>
      simp only [isWideBody] at hclass
      simp only [withChildren, LowerInt64.visit, Outcome.ok.injEq, Prod.mk.injEq] at hv
      obtain ⟨rfl, rfl⟩ := hv
      exact simulates_block callee table _ i t l cs1 (hall.2.1 hclass)
    | Other i t k cs => simp [isWideBody] at hclass
    | Call i t f os => exact (hP (by simpa [isWideBody] using hclass)).simulates
    | CallImport i t f os => exact (hP (by simpa [isWideBody] using hclass)).simulates
    | CallIndirect i t g os => exact (hP (by simpa [isWideBody] using hclass)).simulates
    | GetLocal i t n => exact (hP (by simpa [isWideBody] using hclass)).simulates
    | SetLocal i t n v => exact (hP (by simpa [isWideBody] using hclass)).simulates

theorem isWideExprList_mem :
    ∀ cs : List Expression, isWideExprList cs = true → ∀ c ∈ cs, isWideExpr c = true
  | [], _, _, hc => nomatch hc
  | d :: ds, h, c, hc => by
    simp only [isWideExprList, Bool.and_eq_true] at h
    rcases List.mem_cons.1 hc with rfl | hc1
    · exact h.1
    · exact isWideExprList_mem ds h.2 c hc1

theorem isWideBodyList_mem :
    ∀ cs : List Expression, isWideBodyList cs = true → ∀ c ∈ cs, isWideBody c = true
  | [], _, _, hc => nomatch hc
  | d :: ds, h, c, hc => by
    simp only [isWideBodyList, Bool.and_eq_true] at h
    rcases List.mem_cons.1 hc with rfl | hc1
    · exact h.1
    · exact isWideBodyList_mem ds h.2 c hc1

/-- The children of a body of the class of `isWideBody` are such bodies, or the
target of an indirect call. -/
theorem isWideBody_children (e : Expression) (h : isWideBody e = true) :
    ∀ c ∈ e.children, isWideBody c = true ∨ isNarrowLeaf c = true := by
  intro c hc
  cases e with
  | Call i t f os =>
    simp only [isWideBody, isWideExpr, Bool.and_eq_true] at h
    exact Or.inl (isWideBody_of_isWideExpr c (isWideExprList_mem os h.2 c hc))
  | CallImport i t f os =>
    simp only [isWideBody, isWideExpr, Bool.and_eq_true] at h
    exact Or.inl (isWideBody_of_isWideExpr c (isWideExprList_mem os h.2 c hc))
  | CallIndirect i t g os =>
    simp only [isWideBody, isWideExpr, Bool.and_eq_true] at h
    rcases List.mem_cons.1 hc with rfl | hc1
    · exact Or.inr h.1.2
    · exact Or.inl (isWideBody_of_isWideExpr c (isWideExprList_mem os h.2 c hc1))
  | GetLocal i t n => simp [children] at hc
  | SetLocal i t n v =>
    simp only [isWideBody, isWideExpr, Bool.and_eq_true] at h
    simp only [children, List.mem_singleton] at hc
    subst hc
    exact Or.inl (isWideBody_of_isWideExpr _ h.2)
  | Block i t l =>
    simp only [isWideBody] at h
    exact Or.inl (isWideBodyList_mem l h c hc)
  | Other i t k cs => simp [isWideBody] at h

/-- With room for twice as many iterations as the node has operands, and one
more, `fixCall` completes in a state with the invariant. -/
theorem fixCall_completes {base fuel : Nat} {st : LowerInt64} (hinv : FixesInv base st)
    (curr : Expression) (hf : 2 * curr.operands.length < fuel) :
    ∃ st1 curr1, LowerInt64.fixCall fuel st curr = Outcome.ok (st1, curr1) := by
  have hloop : fixOperands st.fixes fuel curr.operands 0 =
      some (widened st.fixes curr.operands) := by
    have := fixOperands_widened st.fixes curr.operands [] fuel
      (fun o _ f hfix => (hinv.2 _ _ hfix).2.2.2.1) hf
    simpa using this
  unfold LowerInt64.fixCall
  rw [hloop]
  dsimp only
  split
  · exact ⟨_, _, rfl⟩
  · exact ⟨_, _, rfl⟩

/-- The walk of a read, a write or a call of the class of `isWideExpr` leaves a
fixup for the node it puts in its place. -/
theorem walk_wideExpr_fix (fuel : Nat) (e : Expression) (st st1 : LowerInt64)
    (e1 : Expression) (hw : walk fuel st e = Outcome.ok (st1, e1))
    (h : isWideExpr e = true) : ∃ fix, find st1.fixes e1.id = some fix := by
  rw [walk_eq] at hw
  obtain ⟨r, _, hv⟩ := Outcome.bind_eq_ok hw
  have hcall : e.isCallBase = true → e.type = WasmType.i64 →
      ∃ fix, find st1.fixes e1.id = some fix := by
    intro hc ht
    rw [visit_callBase _ _ _ (by rw [withChildren_isCallBase]; exact hc)] at hv
    obtain ⟨ops, _, hcase⟩ := fixCall_eq_ok hv
    rcases hcase with ⟨_, hst, he1⟩ | ⟨hne, _, _⟩
    · rw [hst, he1, setType_id, setOperands_id]
      exact ⟨_, find_assign_self _ _ _⟩
    · rw [withChildren_type] at hne
      exact absurd ht hne
  cases e with
  | Call i t f os =>
    simp only [isWideExpr, Bool.and_eq_true, decide_eq_true_eq] at h
    exact hcall rfl h.1
  | CallImport i t f os =>
    simp only [isWideExpr, Bool.and_eq_true, decide_eq_true_eq] at h
    exact hcall rfl h.1.1
  | CallIndirect i t g os =>
    simp only [isWideExpr, Bool.and_eq_true, decide_eq_true_eq] at h
    exact hcall rfl h.1.1
  | GetLocal i t n =>
    simp only [isWideExpr, decide_eq_true_eq] at h
    subst h
    simp only [withChildren, LowerInt64.visit, Outcome.ok.injEq] at hv
    rw [visitGetLocal_i64] at hv
    obtain ⟨hst, he1⟩ := Prod.mk.inj hv
    rw [← hst, ← he1]
    exact ⟨_, find_assign_self _ _ _⟩
  | SetLocal i t n v =>
    simp only [isWideExpr, Bool.and_eq_true, decide_eq_true_eq] at h
    obtain ⟨rfl, _⟩ := h
    have hset : ∃ c, (Expression.SetLocal i WasmType.i64 n v).withChildren r.2 =
        Expression.SetLocal i WasmType.i64 n c := by
      cases r.2 with
      | nil => exact ⟨v, rfl⟩
      | cons c cs => exact ⟨c, rfl⟩
    obtain ⟨c, hc⟩ := hset
    rw [hc] at hv
    simp only [LowerInt64.visit] at hv
    rw [visitSetLocal_i64] at hv
    split at hv
    · cases hv
    · simp only [Outcome.ok.injEq, Prod.mk.injEq] at hv
      rw [← hv.1, ← hv.2]
      exact ⟨_, find_assign_self _ _ _⟩
  | Block i t l => simp [isWideExpr] at h
  | Other i t k cs => simp [isWideExpr] at h

/-- The walk of a list completes when the walk of each element does. -/
theorem walkList_completes (base fuel : Nat) :
    ∀ cs : List Expression,
      (∀ c ∈ cs, ∀ st, FixesInv base st → (∀ n ∈ c.evalOrder, n.id < base) →
        (c.evalOrder.map Expression.id).Nodup →
        (∀ n ∈ c.evalOrder, find st.fixes n.id = none) →
        ∃ st1 c1, walk fuel st c = Outcome.ok (st1, c1)) →
      ∀ st, FixesInv base st → (∀ n ∈ evalOrderList cs, n.id < base) →
        ((evalOrderList cs).map Expression.id).Nodup →
        (∀ n ∈ evalOrderList cs, find st.fixes n.id = none) →
        ∃ st1 cs1, walkList fuel st cs = Outcome.ok (st1, cs1) := by
  intro cs
  induction cs with
  | nil => intro _ st _ _ _ _; exact ⟨st, [], rfl⟩
  | cons c cs ih =>
    intro hall st hinv hids hnodup hpre
    simp only [evalOrderList, List.mem_append, List.map_append] at hids hnodup hpre
    have hidsc : ∀ n ∈ c.evalOrder, n.id < base := fun n hn => hids n (Or.inl hn)
    have hidscs : ∀ n ∈ evalOrderList cs, n.id < base := fun n hn => hids n (Or.inr hn)
    obtain ⟨hnd1, hnd2, hdisj⟩ := List.nodup_append.1 hnodup
    have hdisj1 : ∀ m ∈ c.evalOrder, ∀ n ∈ evalOrderList cs, n.id ≠ m.id := by
      intro m hm n hn heq
      exact hdisj (List.mem_map_of_mem _ hm) (by rw [← heq]; exact List.mem_map_of_mem _ hn)
    obtain ⟨st1, c1, hw⟩ := hall c (List.mem_cons_self _ _) st hinv hidsc hnd1
      (fun n hn => hpre n (Or.inl hn))
    obtain ⟨hinv1, hle1, hfr1, hn1⟩ := walk_frame base fuel c st st1 c1 hw hinv hidsc
    have hb := hinv.1
    have hpre1 : ∀ n ∈ evalOrderList cs, find st1.fixes n.id = none := by
      intro n hn
      rw [hfr1 n.id (by have := hidscs n hn; omega)
        (fun m hm heq => hdisj1 m hm n hn heq.symm)]
      exact hpre n (Or.inr hn)
    obtain ⟨st2, cs1, hwl⟩ := ih (fun d hd => hall d (List.mem_cons_of_mem _ hd))
      st1 hinv1 hidscs hnd2 hpre1
    exact ⟨st2, c1 :: cs1, by simp [walkList, hw, hwl, Outcome.bind]⟩

/-- The walk of a body of the class of `isWideBody` completes: no write misses
the fixup of its value, and the operand loop has room as soon as it has room
for twice the operands of every call of the body, and one more. -/
theorem walk_completes (base fuel : Nat) :
    ∀ e st, FixesInv base st → (∀ n ∈ e.evalOrder, n.id < base) →
      (e.evalOrder.map Expression.id).Nodup →
      (∀ n ∈ e.evalOrder, find st.fixes n.id = none) →
      (∀ n ∈ e.evalOrder, 2 * n.operands.length < fuel) →
      (isWideBody e = true ∨ isNarrowLeaf e = true) →
      ∃ st1 e1, walk fuel st e = Outcome.ok (st1, e1) := by
  intro e
  induction e using Expression.inductionAux with
  | h e ih =>
    intro st hinv hids hnodup hpre hfuel hclass
    rcases hclass with hbody | hleaf
    swap
    · exact ⟨st, e, walk_narrowLeaf fuel st e hleaf⟩
    have hself := hfuel e (mem_evalOrder_self e)
    rw [evalOrder_eq] at hids hnodup hpre
    simp only [List.mem_append, List.mem_singleton, List.map_append, List.map_cons,
      List.map_nil] at hids hnodup hpre
    have hidsL : ∀ n ∈ evalOrderList e.children, n.id < base :=
      fun n hn => hids n (Or.inl hn)
    obtain ⟨hnd1, _, hdisj⟩ := List.nodup_append.1 hnodup
    have hpreL : ∀ n ∈ evalOrderList e.children, find st.fixes n.id = none :=
      fun n hn => hpre n (Or.inl hn)
    obtain ⟨st1, cs1, hwl⟩ := walkList_completes base fuel e.children
      (fun c hc s hs h1 h2 h3 => ih c hc s hs h1 h2 h3
        (fun n hn => hfuel n (mem_evalOrder_of_child hc hn))
        (isWideBody_children e hbody c hc))
      st hinv hidsL hnd1 hpreL
    have hlen := walkList_length fuel _ _ _ _ hwl
    obtain ⟨hinv1, _, _, _⟩ :=
      walkList_frame base fuel e.children st st1 cs1 hwl hinv hidsL
    rw [walk_eq, hwl]
    simp only [Outcome.bind]
    cases e with
    | Call i t f os =>
      exact fixCall_completes hinv1 _
        (by simpa [withChildren, operands, children, hlen] using hself)
    | CallImport i t f os =>
      exact fixCall_completes hinv1 _
        (by simpa [withChildren, operands, children, hlen] using hself)
    | CallIndirect i t g os =>
      cases cs1 with
      | nil => simp [children] at hlen
      | cons c cs2 =>
        simp only [children, List.length_cons, Nat.add_right_cancel_iff] at hlen
        exact fixCall_completes hinv1 (Expression.CallIndirect i t c cs2)
          (by simpa [operands, hlen] using hself)
    | GetLocal i t n => exact ⟨_, _, rfl⟩
    | Block i t l => exact ⟨_, _, rfl⟩
    | Other i t k cs => simp [isWideBody] at hbody
    | SetLocal i t n v =>
      simp only [isWideBody, isWideExpr, Bool.and_eq_true, decide_eq_true_eq] at hbody
      obtain ⟨rfl, hv⟩ := hbody
      simp only [children, walkList] at hwl
      obtain ⟨r, hr, hwl⟩ := Outcome.bind_eq_ok hwl
      simp only [Outcome.bind, Outcome.ok.injEq, Prod.mk.injEq] at hwl
      obtain ⟨rfl, rfl⟩ := hwl
      obtain ⟨h, hfind⟩ := walk_wideExpr_fix fuel v st r.1 r.2 hr hv
      have hsome : ∃ fix, find (assign r.1.fixes i
          (Expression.GetLocal r.1.allocator WasmType.i32 (companion r.1 n))) r.2.id =
            some fix := by
        rw [find_assign]
        split
        · exact ⟨_, rfl⟩
        · exact ⟨h, hfind⟩
      obtain ⟨fix, hfix⟩ := hsome
      simp only [withChildren, LowerInt64.visit]
      rw [visitSetLocal_i64, hfix]
      exact ⟨_, _, rfl⟩

theorem sampleRegistry_fits : RegistryFits sampleRegistry sampleWide := by
  have hfind : ∀ y c, find sampleRegistry y = some c →
      (y = "y" ∧ c = "high0") ∨ (y = "x" ∧ c = "high1") := by
    intro y c h
    simp only [sampleRegistry, find] at h
    split at h
    · next hy => exact Or.inl ⟨hy.symm, by simpa using h.symm⟩
    · split at h
      · next hx => exact Or.inr ⟨hx.symm, by simpa using h.symm⟩
      · cases h
  constructor
  · intro x y c hx hy
    rcases hfind x c hx with ⟨rfl, rfl⟩ | ⟨rfl, rfl⟩ <;>
      rcases hfind y _ hy with ⟨rfl, h⟩ | ⟨rfl, h⟩ <;> first | rfl | (revert h; decide)
  · intro n hn x y c hname hy
    simp only [sampleWide, evalOrder, evalOrderList, List.mem_append, List.mem_cons,
      List.mem_singleton, List.not_mem_nil, or_false, List.append_nil] at hn
    rcases hn with (rfl | rfl) | rfl
    · simp only [localName, Option.some.injEq] at hname
      subst hname
      rcases hfind y c hy with ⟨_, rfl⟩ | ⟨_, rfl⟩ <;> decide
    · simp [localName] at hname
    · simp only [localName, Option.some.injEq] at hname
      subst hname
      rcases hfind y c hy with ⟨_, rfl⟩ | ⟨_, rfl⟩ <;> decide

theorem sampleStates_related : Related sampleRegistry sampleWideState sampleNarrowState := by
  refine ⟨rfl, ?_, ?_⟩
  · intro x hx
    have h0 : x ≠ "high0" := fun h => hx "y" "high0" rfl h.symm
    by_cases hy : x = "y"
    · subst hy; rfl
    · simp [sampleWideState, sampleNarrowState, hy, h0, lowWord]
  · intro x c hxc
    simp only [sampleRegistry, find] at hxc
    split at hxc
    · next hy =>
      simp only [Option.some.injEq] at hxc
      subst hy hxc
      rfl
    · next hy =>
      split at hxc
      · next hx =>
        simp only [Option.some.injEq] at hxc
        subst hx hxc
        rfl
      · cases hxc

theorem sampleRegistry_entries (y c : Name) (h : find sampleRegistry y = some c) :
    (y = "y" ∧ c = "high0") ∨ (y = "x" ∧ c = "high1") := by
  simp only [sampleRegistry, find] at h
  split at h
  · next hy => exact Or.inl ⟨hy.symm, by simpa using h.symm⟩
  · split at h
    · next hx => exact Or.inr ⟨hx.symm, by simpa using h.symm⟩
    · cases h

theorem sampleRegistry_injective (x y c : Name) (hx : find sampleRegistry x = some c)
    (hy : find sampleRegistry y = some c) : x = y := by
  rcases sampleRegistry_entries x c hx with ⟨rfl, rfl⟩ | ⟨rfl, rfl⟩ <;>
    rcases sampleRegistry_entries y _ hy with ⟨rfl, h⟩ | ⟨rfl, h⟩ <;>
      first | rfl | (revert h; decide)

theorem sampleRegistry_fits_seq : RegistryFits sampleRegistry sampleSeq := by
  refine ⟨sampleRegistry_injective, ?_⟩
  intro n hn x y c hname hy
  have hall : ∀ m ∈ sampleSeq.evalOrder,
      localName m = none ∨ localName m = some "x" ∨ localName m = some "y" := by decide
  have hx : x = "x" ∨ x = "y" := by
    rcases hall n hn with h | h | h <;> rw [h] at hname
    · cases hname
    · exact Or.inl (Option.some.inj hname).symm
    · exact Or.inr (Option.some.inj hname).symm
  rcases hx with rfl | rfl <;>
    rcases sampleRegistry_entries y c hy with ⟨_, rfl⟩ | ⟨_, rfl⟩ <;> decide

/-- What a visit does to the registry and to the name allocator: nothing, or
the registration of the companion of one local. -/
theorem visit_registry {fuel : Nat} {st st1 : LowerInt64} {e e1 : Expression}
    (hv : visit fuel st e = Outcome.ok (st1, e1)) :
    (st1.locals = st.locals ∧ st1.namer = st.namer) ∨
      ∃ name, st1.locals = (registered st name).locals ∧
        st1.namer = (registered st name).namer := by
  have hcall : ∀ curr, fixCall fuel st curr = Outcome.ok (st1, e1) →
      st1.locals = st.locals ∧ st1.namer = st.namer := by
    intro curr h
    obtain ⟨ops, _, hcase⟩ := fixCall_eq_ok h
    rcases hcase with ⟨_, hst, _⟩ | ⟨_, hst, _⟩ <;> rw [hst] <;> exact ⟨rfl, rfl⟩
  cases e with
  | Call i t n os => exact Or.inl (hcall _ hv)
  | CallImport i t n os => exact Or.inl (hcall _ hv)
  | CallIndirect i t g os => exact Or.inl (hcall _ hv)
  | GetLocal i t n =>
    simp only [LowerInt64.visit, Outcome.ok.injEq] at hv
    by_cases ht : t = WasmType.i64
    · subst ht
      rw [visitGetLocal_i64] at hv
      rw [← (Prod.mk.inj hv).1]
      exact Or.inr ⟨n, rfl, rfl⟩
    · rw [visitGetLocal_other _ _ _ _ ht] at hv
      rw [← (Prod.mk.inj hv).1]
      exact Or.inl ⟨rfl, rfl⟩
  | SetLocal i t n v =>
    simp only [LowerInt64.visit] at hv
    by_cases ht : t = WasmType.i64
    · subst ht
      rw [visitSetLocal_i64] at hv
      split at hv
      · simp at hv
      · simp only [Outcome.ok.injEq, Prod.mk.injEq] at hv
        rw [← hv.1]
        exact Or.inr ⟨n, rfl, rfl⟩
    · rw [visitSetLocal_other _ _ _ _ _ ht] at hv
      simp only [Outcome.ok.injEq, Prod.mk.injEq] at hv
      rw [← hv.1]
      exact Or.inl ⟨rfl, rfl⟩
  | Block i t l =>
    simp only [LowerInt64.visit, Outcome.ok.injEq, Prod.mk.injEq] at hv
    rw [← hv.1]
    exact Or.inl ⟨rfl, rfl⟩
  | Other i t k cs =>
    simp only [LowerInt64.visit, Outcome.ok.injEq, Prod.mk.injEq] at hv
    rw [← hv.1]
    exact Or.inl ⟨rfl, rfl⟩

/-- Registering the companion of a local keeps the invariant of the registry
when the allocator never issues a name twice. -/
theorem RegistryInv.registered {fresh : Nat → String → Name} {st : LowerInt64}
    (hinj : ∀ i j, fresh i "high" = fresh j "high" → i = j) (h : RegistryInv fresh st)
    (name : Name) (st1 : LowerInt64)
    (hl : st1.locals = (LowerInt64.registered st name).locals)
    (hn : st1.namer = (LowerInt64.registered st name).namer) : RegistryInv fresh st1 := by
  obtain ⟨hf, hb, hi⟩ := h
  unfold LowerInt64.registered at hl hn
  cases hfind : find st.locals name with
  | some c0 =>
    rw [hfind] at hl hn
    simp only at hl hn
    exact ⟨by rw [hn]; exact hf, by rw [hl, hn]; exact hb, by rw [hl]; exact hi⟩
  | none =>
    rw [hfind] at hl hn
    simp only [NameManager.getUnique] at hl hn
    have hcounter : st1.namer.counter = st.namer.counter + 1 := by rw [hn]
    have hfresh1 : st1.namer.fresh = fresh := by rw [hn]; exact hf
    have hlookup : ∀ x c, find st1.locals x = some c →
        (name = x ∧ c = fresh st.namer.counter "high") ∨
          (name ≠ x ∧ find st.locals x = some c) := by
      intro x c hx
      rw [hl, find_assign] at hx
      split at hx
      · next hnx =>
        simp only [Option.some.injEq] at hx
        exact Or.inl ⟨hnx, by rw [← hx, hf]⟩
      · next hnx => exact Or.inr ⟨hnx, hx⟩
    refine ⟨hfresh1, ?_, ?_⟩
    · intro x c hx
      rcases hlookup x c hx with ⟨_, hc⟩ | ⟨_, hold⟩
      · exact ⟨st.namer.counter, by omega, hc⟩
      · obtain ⟨k, hk, hc⟩ := hb x c hold
        exact ⟨k, by omega, hc⟩
    · intro x y c hx hy
      rcases hlookup x c hx with ⟨hnx, hcx⟩ | ⟨_, holdx⟩ <;>
        rcases hlookup y c hy with ⟨hny, hcy⟩ | ⟨_, holdy⟩
      · rw [← hnx, ← hny]
      · obtain ⟨k, hk, hc⟩ := hb y c holdy
        have := hinj _ _ (hcx.symm.trans hc)
        omega
      · obtain ⟨k, hk, hc⟩ := hb x c holdx
        have := hinj _ _ (hcy.symm.trans hc)
        omega
      · exact hi x y c holdx holdy

/-- Every reachable state has the invariant of the registry, for the name
allocator of the state, when that allocator never issues a name twice. -/
theorem Reachable.registryInv {base : Nat} {st : LowerInt64} (h : Reachable base st)
    (hinj : ∀ i j, st.namer.fresh i "high" = st.namer.fresh j "high" → i = j) :
    RegistryInv st.namer.fresh st := by
  induction h with
  | start allocator namer h =>
    exact ⟨rfl, fun x c hx => by simp [start, find] at hx,
      fun x y c hx => by simp [start, find] at hx⟩
  | @visit fuel st st1 e e1 _ hid hv ih =>
    rcases visit_registry hv with ⟨hl, hn⟩ | ⟨name, hl, hn⟩
    · rw [hn] at hinj ⊢
      obtain ⟨h1, h2, h3⟩ := ih hinj
      exact ⟨by rw [hn], by rw [hl, hn]; exact h2, by rw [hl]; exact h3⟩
    · have hfresh : st1.namer.fresh = st.namer.fresh := by
        rw [hn]; unfold LowerInt64.registered; split <;> rfl
      rw [hfresh] at hinj ⊢
      exact (ih hinj).registered hinj name st1 hl hn

/-- C11: when the name allocator never issues a name twice, the registry of
high companions is injective in every reachable state: two distinct wide
locals never have the same companion. -/
theorem locals_injective (base : Nat) (st : LowerInt64) (x y c : Name)
    (hr : Reachable base st)
    (hinj : ∀ i j, st.namer.fresh i "high" = st.namer.fresh j "high" → i = j)
    (hxy : x ≠ y) (hx : find st.locals x = some c) : find st.locals y ≠ some c :=
  fun hy => hxy ((hr.registryInv hinj).2.2 x y c hx hy)

theorem tallyNamer_injective (counter i j : Nat)
    (h : ({ tallyNamer with counter := counter } : NameManager).fresh i "high" =
      ({ tallyNamer with counter := counter } : NameManager).fresh j "high") : i = j := by
  have hlen := congrArg String.length h
  simpa [tallyNamer] using hlen

theorem tallyReads_reachable : Reachable 10 tallyReads :=
  @Reachable.visit 10 0 _ _ (Expression.GetLocal 3 WasmType.i64 "z") _
    (@Reachable.visit 10 0 _ _ (Expression.GetLocal 1 WasmType.i64 "x") _
      (Reachable.start 10 tallyNamer (Nat.le_refl 10)) (by decide) rfl)
    (by decide) rfl

theorem locals_injective_witness :
    find tallyReads.locals "x" = some "high" ∧ find tallyReads.locals "z" ≠ some "high" :=
  ⟨rfl, locals_injective 10 tallyReads "x" "z" "high" tallyReads_reachable
    (tallyNamer_injective 2) (by decide) rfl⟩

/-! ## Functions and declarations -/

theorem walkFunction_eq_ok {fuel : Nat} {st st1 : LowerInt64} {func func1 : Function}
    (hw : walkFunction fuel st func = Outcome.ok (st1, func1)) :
    ∃ e1, walk fuel st func.body = Outcome.ok (st1, e1) ∧
      func1 = { func with body := e1 } := by
  unfold walkFunction at hw
  obtain ⟨r, hr, hw⟩ := Outcome.bind_eq_ok hw
  simp only [visitFunction, Outcome.ok.injEq, Prod.mk.injEq] at hw
  exact ⟨r.2, by rw [hr, ← hw.1], hw.2.symm⟩

theorem companion_of_new (st : LowerInt64) (x : Name) (hnew : find st.locals x = none) :
    companion st x = (st.namer.getUnique "high").1 := by
  simp [companion, hnew]

/-- C12, as the code has it: the pass registers a companion for the wide local
of `sampleReader` and leaves the declared locals of the function as they were,
with no declaration for the companion. -/
theorem sampleReader_declares_nothing :
    ∃ st1 func1, walkFunction 0 (start 10 sampleNamer) sampleReader =
        Outcome.ok (st1, func1) ∧
      find st1.locals "x" = some "high0" ∧
      func1.locals = [("x", WasmType.i64)] ∧ func1.params = [] :=
  ⟨_, _, rfl, rfl, rfl, rfl⟩

/-- C12, amended: when a wide local is met for the first time, by a read or by
a write, the pass records in the registry the mapping of the local to the
companion name that the allocator has just issued; the locals and parameters
that the enclosing function declares are left as they were. -/
theorem first_encounter_registers (fuel : Nat) (st : LowerInt64) (id : Nat) (x : Name)
    (func : Function) (st1 : LowerInt64) (func1 : Function)
    (hnew : find st.locals x = none)
    (hw : walkFunction fuel st func = Outcome.ok (st1, func1)) :
    (∃ sg eg, visit fuel st (Expression.GetLocal id WasmType.i64 x) = Outcome.ok (sg, eg) ∧
      find sg.locals x = some (st.namer.getUnique "high").1) ∧
    (∀ v ss es, visit fuel st (Expression.SetLocal id WasmType.i64 x v) =
        Outcome.ok (ss, es) →
      find ss.locals x = some (st.namer.getUnique "high").1) ∧
    func1.locals = func.locals ∧ func1.params = func.params := by
  refine ⟨?_, ?_, ?_⟩
  · simp only [LowerInt64.visit, visitGetLocal_i64]
    exact ⟨_, _, rfl, by rw [← companion_of_new st x hnew]; exact find_registered st x⟩
  · intro v ss es hv
    simp only [LowerInt64.visit, visitSetLocal_i64] at hv
    split at hv
    · simp at hv
    · simp only [Outcome.ok.injEq, Prod.mk.injEq] at hv
      rw [← hv.1, ← companion_of_new st x hnew]
      exact find_registered st x
  · obtain ⟨e1, _, hf⟩ := walkFunction_eq_ok hw
    rw [hf]
    exact ⟨rfl, rfl⟩

theorem first_encounter_registers_witness :
    (∃ sg eg, visit 0 (start 10 sampleNamer) (Expression.GetLocal 1 WasmType.i64 "x") =
        Outcome.ok (sg, eg) ∧
      find sg.locals "x" = some ((start 10 sampleNamer).namer.getUnique "high").1) ∧
    (∀ v ss es, visit 0 (start 10 sampleNamer) (Expression.SetLocal 1 WasmType.i64 "x" v) =
        Outcome.ok (ss, es) →
      find ss.locals "x" = some ((start 10 sampleNamer).namer.getUnique "high").1) ∧
    ({ sampleReader with body := Expression.GetLocal 1 WasmType.i32 "x" } : Function).locals =
      sampleReader.locals ∧
    ({ sampleReader with body := Expression.GetLocal 1 WasmType.i32 "x" } : Function).params =
      sampleReader.params :=
  first_encounter_registers 0 (start 10 sampleNamer) 1 "x" sampleReader _
    { sampleReader with body := Expression.GetLocal 1 WasmType.i32 "x" } rfl rfl

/-- The visit of a wide write aborts exactly when its value has no fixup. -/
theorem setLocal_aborts_iff_no_fix (fuel : Nat) (st : LowerInt64) (id : Nat) (name : Name)
    (value : Expression) (hne : value.id ≠ id) :
    visit fuel st (Expression.SetLocal id WasmType.i64 name value) = Outcome.abort ↔
      find st.fixes value.id = none := by
  simp only [LowerInt64.visit, visitSetLocal_i64, find_value_fix _ _ _ _ hne]
  cases find st.fixes value.id with
  | none => simp
  | some fix => simp

/-- C13, as the code has it: on the function of the scenario
`set(x, const(5)); get(x)` the pass does not complete; it aborts. -/
theorem sampleScenario_aborts :
    walkFunction 1 (start 10 sampleNamer) sampleScenario = Outcome.abort :=
  rfl

/-- C13, amended: on a function with one wide local `x` and the body
`set(x, const(5)); get(x)` the pass aborts.  The constant is left as it is and
gets no fixup, so the visit of the write fails its assertion. -/
theorem walkFunction_scenario_aborts (fuel : Nat) (st : LowerInt64) (name x : Name)
    (result blockType : WasmType) (block set const get : Nat)
    (hne : const ≠ set) (hnone : find st.fixes const = none) :
    walkFunction fuel st
        { name := name, result := result, params := [], locals := [(x, WasmType.i64)],
          body := Expression.Block block blockType
            [Expression.SetLocal set WasmType.i64 x
               (Expression.Other const WasmType.i64 (OtherKind.Const 5) []),
             Expression.GetLocal get WasmType.i64 x] } = Outcome.abort := by
  have hvalue : (Expression.Other const WasmType.i64 (OtherKind.Const 5) []).id ≠ set := hne
  have hset : visit fuel st (Expression.SetLocal set WasmType.i64 x
      (Expression.Other const WasmType.i64 (OtherKind.Const 5) [])) = Outcome.abort :=
    ((setLocal_aborts_iff_no_fix fuel st set x _ hvalue).2 hnone)
  simp only [walkFunction, walk, walkList, LowerInt64.visit, Outcome.bind] at hset ⊢
  rw [hset]

theorem walkFunction_scenario_aborts_witness :
    walkFunction 1 (start 10 sampleNamer)
        { name := "scenario", result := WasmType.i64, params := [],
          locals := [("x", WasmType.i64)],
          body := Expression.Block 0 WasmType.i64
            [Expression.SetLocal 1 WasmType.i64 "x"
               (Expression.Other 2 WasmType.i64 (OtherKind.Const 5) []),
             Expression.GetLocal 3 WasmType.i64 "x"] } = Outcome.abort :=
  walkFunction_scenario_aborts 1 (start 10 sampleNamer) "scenario" "x" WasmType.i64
    WasmType.i64 0 1 2 3 (by decide) rfl

/-- C14: the visit of a node of a kind other than call, local read and local
write completes and leaves the node, its type tag included, and the whole
state of the pass, the fixup table and the registry included, as they were;
so do the visits of the module-level declarations. -/
theorem visit_unhandled_unchanged {FunctionType Import Export Table Memory Module : Type}
    (fuel : Nat) (st : LowerInt64) (e : Expression) (h : e.isHandled = false) :
    visit fuel st e = Outcome.ok (st, e) ∧
    (∀ curr : FunctionType, visitFunctionType st curr = (st, curr)) ∧
    (∀ curr : Import, visitImport st curr = (st, curr)) ∧
    (∀ curr : Export, visitExport st curr = (st, curr)) ∧
    (∀ curr : Function, visitFunction st curr = (st, curr)) ∧
    (∀ curr : Table, visitTable st curr = (st, curr)) ∧
    (∀ curr : Memory, visitMemory st curr = (st, curr)) ∧
    (∀ curr : Module, visitModule st curr = (st, curr)) := by
  refine ⟨?_, fun _ => rfl, fun _ => rfl, fun _ => rfl, fun _ => rfl, fun _ => rfl,
    fun _ => rfl, fun _ => rfl⟩
  cases e <;> first | rfl | simp [isHandled] at h

theorem visit_unhandled_unchanged_witness :
    visit 0 sampleRead (Expression.Other 7 WasmType.i64 (OtherKind.Const 5) []) =
      Outcome.ok (sampleRead, Expression.Other 7 WasmType.i64 (OtherKind.Const 5) []) ∧
    (∀ curr : Unit, visitFunctionType sampleRead curr = (sampleRead, curr)) ∧
    (∀ curr : Unit, visitImport sampleRead curr = (sampleRead, curr)) ∧
    (∀ curr : Unit, visitExport sampleRead curr = (sampleRead, curr)) ∧
    (∀ curr : Function, visitFunction sampleRead curr = (sampleRead, curr)) ∧
    (∀ curr : Unit, visitTable sampleRead curr = (sampleRead, curr)) ∧
    (∀ curr : Unit, visitMemory sampleRead curr = (sampleRead, curr)) ∧
    (∀ curr : Unit, visitModule sampleRead curr = (sampleRead, curr)) :=
  visit_unhandled_unchanged 0 sampleRead
    (Expression.Other 7 WasmType.i64 (OtherKind.Const 5) []) rfl

/-! ## Bodies made of calls, reads and writes -/

theorem noWide_iff (e : Expression) :
    NoWide e ↔ (∀ c ∈ e.children, NoWide c) ∧ e.type ≠ WasmType.i64 := by
  unfold NoWide
  rw [evalOrder_eq]
  constructor
  · intro h
    exact ⟨fun c hc n hn => h n (List.mem_append_left _ (mem_evalOrderList.2 ⟨c, hc, hn⟩)),
      h e (by simp)⟩
  · rintro ⟨h1, h2⟩ n hn
    rcases List.mem_append.1 hn with hn | hn
    · obtain ⟨c, hc, hn⟩ := mem_evalOrderList.1 hn
      exact h1 c hc n hn
    · rw [List.mem_singleton.1 hn]; exact h2

theorem IsFixup.noWide {v : Expression} (h : IsFixup v) : NoWide v := by
  rcases h with h | ⟨n, h⟩ <;> rw [h] <;>
    simp [NoWide, evalOrder, evalOrderList, Expression.type]

theorem walk_fixesShaped (fuel : Nat) (e : Expression) (st st1 : LowerInt64)
    (e1 : Expression) (hs : FixesShaped st) (hw : walk fuel st e = Outcome.ok (st1, e1)) :
    FixesShaped st1 :=
  (walk_preserves fuel FixesShaped HandledLowered (visit_handledLowered fuel)
    e st st1 e1 hs hw).1

theorem walkList_fixesShaped (fuel : Nat) (cs : List Expression) (st st1 : LowerInt64)
    (cs1 : List Expression) (hs : FixesShaped st)
    (hw : walkList fuel st cs = Outcome.ok (st1, cs1)) : FixesShaped st1 :=
  (walkList_preserves fuel FixesShaped (fun _ => True) cs
    (fun c _ s s1 c1 hI hwc => ⟨walk_fixesShaped fuel c s s1 c1 hI hwc, trivial⟩)
    st st1 cs1 hs hw).1

/-- The visit of a call, read or write whose children have no `i64` node leaves
a tree without `i64` node. -/
theorem visit_noWide {fuel : Nat} {st st1 : LowerInt64} {e e1 : Expression}
    (hs : FixesShaped st) (hkind : e.isHandled = true)
    (hc : ∀ c ∈ e.children, NoWide c)
    (hv : visit fuel st e = Outcome.ok (st1, e1)) : NoWide e1 := by
  have hcall : ∀ curr, curr = e → fixCall fuel st curr = Outcome.ok (st1, e1) →
      NoWide e1 := by
    intro curr hcurr h
    subst hcurr
    rw [noWide_iff]
    constructor
    · intro c hcmem
      rcases fixCall_children h c hcmem with hold | ⟨k, hk⟩
      · exact hc c hold
      · exact (hs k c hk).noWide
    · obtain ⟨ops, _, hcase⟩ := fixCall_eq_ok h
      rcases hcase with ⟨_, _, hcurr⟩ | ⟨ht, _, hcurr⟩
      · rw [hcurr]; simp
      · rw [hcurr, setOperands_type]; exact ht
  cases e with
  | Call i t n os => exact hcall _ rfl hv
  | CallImport i t n os => exact hcall _ rfl hv
  | CallIndirect i t g os => exact hcall _ rfl hv
  | GetLocal i t n =>
    simp only [LowerInt64.visit, Outcome.ok.injEq] at hv
    by_cases ht : t = WasmType.i64
    · subst ht
      rw [visitGetLocal_i64] at hv
      rw [← (Prod.mk.inj hv).2]
      simp [NoWide, evalOrder, Expression.type]
    · rw [visitGetLocal_other _ _ _ _ ht] at hv
      rw [← (Prod.mk.inj hv).2]
      simpa [NoWide, evalOrder, Expression.type] using ht
  | SetLocal i t n v =>
    simp only [LowerInt64.visit] at hv
    have hvGood : NoWide v := hc v (by simp [children])
    by_cases ht : t = WasmType.i64
    · subst ht
      rw [visitSetLocal_i64] at hv
      split at hv
      · simp at hv
      · next fix hfix =>
        simp only [Outcome.ok.injEq, Prod.mk.injEq] at hv
        have hs1 : FixesShaped
            { st with
              fixes := (assign st.fixes i
                (Expression.GetLocal st.allocator WasmType.i32 (companion st n))) } :=
          hs.assign _ _ (Or.inr ⟨_, rfl⟩) _ rfl
        have hfixGood : NoWide fix := (hs1 _ _ hfix).noWide
        rw [← hv.2, noWide_iff]
        refine ⟨?_, by simp [Expression.type]⟩
        intro c hcmem
        simp only [children, List.mem_cons, List.mem_singleton, List.not_mem_nil,
          or_false] at hcmem
        rcases hcmem with rfl | rfl | rfl
        · rw [noWide_iff]
          exact ⟨by simpa [children] using hvGood, by simp [Expression.type]⟩
        · rw [noWide_iff]
          exact ⟨by simpa [children] using hfixGood, by simp [Expression.type]⟩
        · simp [NoWide, evalOrder, Expression.type]
    · rw [visitSetLocal_other _ _ _ _ _ ht] at hv
      simp only [Outcome.ok.injEq, Prod.mk.injEq] at hv
      rw [← hv.2, noWide_iff]
      exact ⟨hc, by simpa [Expression.type] using ht⟩
  | Block i t l => simp [isHandled] at hkind
  | Other i t k cs => simp [isHandled] at hkind

/-- After a walk of a tree made of calls, reads and writes, in a state whose
fixups have the fixup shapes, no node of the resulting tree has type `i64`. -/
theorem walk_noWide (fuel : Nat) :
    ∀ e st st1 e1, walk fuel st e = Outcome.ok (st1, e1) →
      FixesShaped st → (∀ n ∈ e.evalOrder, n.isHandled = true) → NoWide e1 := by
  refine walk_induction fuel
    (fun st e _ e1 => FixesShaped st → (∀ n ∈ e.evalOrder, n.isHandled = true) → NoWide e1)
    (fun st cs _ cs1 => FixesShaped st → (∀ n ∈ evalOrderList cs, n.isHandled = true) →
      ∀ c ∈ cs1, NoWide c)
    ?_ ?_ ?_
  · intro st _ _ c hc
    cases hc
  · intro st c cs st1 c1 st2 cs1 hw _ hc hcs hs hkinds
    simp only [evalOrderList, List.mem_append] at hkinds
    intro x hx
    rcases List.mem_cons.1 hx with rfl | hx
    · exact hc hs (fun n hn => hkinds n (Or.inl hn))
    · exact hcs (walk_fixesShaped fuel c st st1 c1 hs hw)
        (fun n hn => hkinds n (Or.inr hn)) x hx
  · intro st e st1 cs1 st2 e1 hwl hcs hlen hv hs hkinds
    have hch := hcs hs (fun n hn =>
      hkinds n (by rw [evalOrder_eq]; exact List.mem_append_left _ hn))
    have hkind : (e.withChildren cs1).isHandled = true := by
      have := hkinds e (mem_evalOrder_self e)
      cases e <;> cases cs1 <;> first | rfl | simp [isHandled] at this
    exact visit_noWide (walkList_fixesShaped fuel _ st st1 cs1 hs hwl) hkind
      (by rw [children_withChildren _ _ hlen]; exact hch) hv

/-- C15: when the pass completes on a body made only of calls, local reads and
local writes, no node of the resulting body and no node of an expression
stored in the fixup table has type `i64`. -/
theorem walk_handled_body_no_i64 (base fuel : Nat) (st : LowerInt64) (e : Expression)
    (st1 : LowerInt64) (e1 : Expression) (hr : Reachable base st)
    (hkinds : ∀ n ∈ e.evalOrder, n.isHandled = true)
    (hw : walk fuel st e = Outcome.ok (st1, e1)) :
    NoWide e1 ∧ ∀ k v, find st1.fixes k = some v → NoWide v := by
  have hs : FixesShaped st := fun k v hf => (hr.fixesInv.2 k v hf).2.2.2.2
  exact ⟨walk_noWide fuel e st st1 e1 hw hs hkinds,
    fun k v hf => (walk_fixesShaped fuel e st st1 e1 hs hw k v hf).noWide⟩

theorem walk_handled_body_no_i64_witness :
    ∃ st1 e1, walk 7 (start 100 sampleNamer) sampleWide = Outcome.ok (st1, e1) ∧
      NoWide e1 ∧ ∀ k v, find st1.fixes k = some v → NoWide v :=
  ⟨_, _, rfl,
   walk_handled_body_no_i64 100 7 (start 100 sampleNamer) sampleWide _ _
    (Reachable.start 100 sampleNamer (Nat.le_refl 100)) (by decide) rfl⟩

/-! ## Entries of the fixup table -/

/-- C16: a visit that completes, of a node visited for the first time, removes
and alters no entry of the fixup table: every entry that the table had before
the visit is there afterwards with the same fixup, so that the visit has only
added entries. -/
theorem visit_keeps_entries (base fuel : Nat) (st : LowerInt64) (e : Expression)
    (st1 : LowerInt64) (e1 : Expression) (hr : Reachable base st)
    (hnew : find st.fixes e.id = none)
    (hv : visit fuel st e = Outcome.ok (st1, e1)) (k : Nat) (v : Expression)
    (hk : find st.fixes k = some v) : find st1.fixes k = some v := by
  have hlt : k < st.allocator := (hr.fixesInv.2 k v hk).1
  have hne : k ≠ e.id := by
    intro h
    rw [h, hnew] at hk
    cases hk
  rw [visit_frame hv k hlt hne]
  exact hk

theorem sampleRead_reachable : Reachable 10 sampleRead :=
  @Reachable.visit 10 0 _ _ (Expression.GetLocal 2 WasmType.i64 "y") _
    (Reachable.start 10 sampleNamer (Nat.le_refl 10)) (by decide) rfl

theorem visit_keeps_entries_witness :
    ∃ st1 e1, visit 0 sampleRead sampleSet = Outcome.ok (st1, e1) ∧
      find sampleRead.fixes 2 = some (Expression.GetLocal 10 WasmType.i32 "high0") ∧
      find st1.fixes 2 = some (Expression.GetLocal 10 WasmType.i32 "high0") :=
  ⟨_, _, rfl, rfl,
   visit_keeps_entries 10 0 sampleRead sampleSet _ _ sampleRead_reachable rfl rfl 2
    (Expression.GetLocal 10 WasmType.i32 "high0") rfl⟩

/-- C17: in every state that the pass reaches by walking, without abort, a tree
of nodes that existed before the run, every value of the fixup table has type
`i32` and is not itself a key of the table. -/
theorem walk_fixes_values (base fuel : Nat) (st : LowerInt64) (e : Expression)
    (st1 : LowerInt64) (e1 : Expression) (hr : Reachable base st)
    (hids : ∀ n ∈ e.evalOrder, n.id < base)
    (hw : walk fuel st e = Outcome.ok (st1, e1)) (k : Nat) (v : Expression)
    (hk : find st1.fixes k = some v) :
    v.type = WasmType.i32 ∧ find st1.fixes v.id = none := by
  obtain ⟨hinv1, _, _, _⟩ := walk_frame base fuel e st st1 e1 hw hr.fixesInv hids
  obtain ⟨_, _, _, hnokey, hshape⟩ := hinv1.2 k v hk
  refine ⟨?_, hnokey⟩
  rcases hshape with h | ⟨n, h⟩ <;> rw [h] <;> rfl

theorem walk_fixes_values_witness :
    ∃ st1, walk 7 (start 100 sampleNamer) sampleBody = Outcome.ok (st1, sampleLowered) ∧
      find st1.fixes 2 = some (Expression.CallImport 100 WasmType.i32 "getHigh" []) ∧
      (Expression.CallImport 100 WasmType.i32 "getHigh" []).type = WasmType.i32 ∧
      find st1.fixes (Expression.CallImport 100 WasmType.i32 "getHigh" []).id = none :=
  ⟨_, rfl, rfl,
   walk_fixes_values 100 7 (start 100 sampleNamer) sampleBody _ sampleLowered
    (Reachable.start 100 sampleNamer (Nat.le_refl 100)) (by decide) rfl 2
    (Expression.CallImport 100 WasmType.i32 "getHigh" []) rfl⟩

/-! ## Termination of the operand loop and nodes that are not wide -/

theorem widened_length (fixes : List (Nat × Expression)) (operands : List Expression) :
    (widened fixes operands).length =
      operands.length + operands.countP (fun o => (find fixes o.id).isSome) := by
  induction operands with
  | nil => rfl
  | cons o os ih =>
    simp only [widened, List.countP_cons, List.length_cons]
    cases hfind : find fixes o.id with
    | none => simp [ih]; omega
    | some fix => simp [ih]; omega

/-- C18: in a fixup table whose values are not themselves keys, the operand
loop of `fixCall` terminates for every call node: with room for twice as many
iterations as the node has operands, and one more, `fixCall` completes, and
the operand list it leaves has as many elements as the node had operands, plus
one for each operand that has a fixup. -/
theorem fixCall_terminates (fuel : Nat) (st : LowerInt64) (call : Expression)
    (hcall : call.isCallBase = true)
    (hsep : ∀ k v, find st.fixes k = some v → find st.fixes v.id = none)
    (hf : 2 * call.operands.length < fuel) :
    ∃ st1 call1, fixCall fuel st call = Outcome.ok (st1, call1) ∧
      call1.operands.length = call.operands.length +
        call.operands.countP (fun o => (find st.fixes o.id).isSome) := by
  have hloop : fixOperands st.fixes fuel call.operands 0 =
      some (widened st.fixes call.operands) := by
    have := fixOperands_widened st.fixes call.operands [] fuel
      (fun o _ f hfix => hsep _ _ hfix) hf
    simpa using this
  unfold LowerInt64.fixCall
  rw [hloop]
  dsimp only
  split
  · exact ⟨_, _, rfl, by
      rw [setType_operands, setOperands_operands _ _ hcall, widened_length]⟩
  · exact ⟨_, _, rfl, by rw [setOperands_operands _ _ hcall, widened_length]⟩

theorem fixCall_terminates_witness :
    ∃ st1 call1, fixCall 7 sampleReads sampleCall = Outcome.ok (st1, call1) ∧
      call1.operands.length = sampleCall.operands.length +
        sampleCall.operands.countP (fun o => (find sampleReads.fixes o.id).isSome) :=
  fixCall_terminates 7 sampleReads sampleCall rfl
    (fun k v h => (sampleReads_reachable.fixesInv.2 k v h).2.2.2.1) (by decide)

/-- C19: a read or a write of a local whose type is not `i64` is left as it is
by its visit, and so are the fixup table and the registry; a call whose type is
not `i64` keeps its type and gets no fixup, the state being left as it is,
while its operands are widened. -/
theorem visit_not_wide (base fuel : Nat) (st : LowerInt64) (i : Nat) (t : WasmType)
    (n : Name) (curr : Expression) (ht : t ≠ WasmType.i64)
    (hcall : curr.isCallBase = true) (htype : curr.type = t) (hr : Reachable base st)
    (hf : 2 * curr.operands.length < fuel) :
    visit fuel st (Expression.GetLocal i t n) = Outcome.ok (st, Expression.GetLocal i t n) ∧
    (∀ v, visit fuel st (Expression.SetLocal i t n v) =
      Outcome.ok (st, Expression.SetLocal i t n v)) ∧
    visit fuel st curr =
      Outcome.ok (st, curr.setOperands (widened st.fixes curr.operands)) ∧
    (curr.setOperands (widened st.fixes curr.operands)).type = t ∧
    (curr.setOperands (widened st.fixes curr.operands)).operands =
      widened st.fixes curr.operands := by
  refine ⟨?_, ?_, ?_, by rw [setOperands_type, htype], setOperands_operands _ _ hcall⟩
  · simp only [LowerInt64.visit, visitGetLocal_other _ _ _ _ ht]
  · intro v
    simp only [LowerInt64.visit, visitSetLocal_other _ _ _ _ _ ht]
  · rw [visit_callBase _ _ _ hcall]
    unfold LowerInt64.fixCall
    rw [hr.fixOperands _ _ hf]
    dsimp only
    rw [setOperands_type, htype, if_neg ht]

theorem visit_not_wide_witness :
    visit 7 sampleReads (Expression.GetLocal 5 WasmType.i32 "w") =
      Outcome.ok (sampleReads, Expression.GetLocal 5 WasmType.i32 "w") ∧
    (∀ v, visit 7 sampleReads (Expression.SetLocal 5 WasmType.i32 "w" v) =
      Outcome.ok (sampleReads, Expression.SetLocal 5 WasmType.i32 "w" v)) ∧
    visit 7 sampleReads sampleCall =
      Outcome.ok (sampleReads,
        sampleCall.setOperands (widened sampleReads.fixes sampleCall.operands)) ∧
    (sampleCall.setOperands (widened sampleReads.fixes sampleCall.operands)).type =
      WasmType.i32 ∧
    (sampleCall.setOperands (widened sampleReads.fixes sampleCall.operands)).operands =
      widened sampleReads.fixes sampleCall.operands :=
  visit_not_wide 10 7 sampleReads 5 WasmType.i32 "w" sampleCall (by decide) rfl rfl
    sampleReads_reachable (by decide)

end LowerInt64

end Wasm
